import Mathlib

set_option maxRecDepth 100000

/-!
# Verification of the banana-recovery secret-sharing core

Shallow embedding of the `banana-recovery-rust` sources (`src/shares.rs`,
`src/encrypt.rs`, `src/error.rs`) and proofs about them.

Conventions of the embedding:
* Rust `u8`/`u32`/`usize` values are modelled as `Nat`; wrap-around does not
  occur in the verified code paths, and wherever the source could panic
  (slice indexing, `expect`, integer underflow, `try_into`) the model returns
  `none` in an outer `Option` layer, so panic-freedom is a provable statement.
* Rust `Vec<T>` is `List T`, `&str`/`String` is `String`.
* External crates that are not part of this repository (scrypt, sha2, the
  XSalsa20-Poly1305 AEAD, UTF-8 conversion of `std`) are abstracted as a
  `CryptoPrims` parameter; base64 and hex codecs are implemented concretely.
* The textual JSON layer (`String::from_utf8` + `json::parse` /
  `serde_json::to_string`) is external-crate code; shares are modelled at the
  level of the parsed JSON values (`JShare`).
-/

namespace Banana

/-- Error enum from `src/error.rs` (plus the encrypt-side variants used in
`src/encrypt.rs`).  Payloads that no claim inspects are dropped. -/
inductive Error where
  | BitsOutOfRange (x : Nat)
  | DecodedSecretNotString
  | DecodingFailed
  | EmptyShare
  | JsonParsing
  | LogOutOfRange (x : Nat)
  | NonceNotBase64
  | NotReadyToDecode
  | NotShareString
  | ParseBit (c : Char)
  | RequiredShardsNotSupported
  | ScryptFailed
  | ShareAlreadyInSet
  | ShareBitsDifferent
  | ShareContentLengthDifferent
  | ShareNonceDifferent
  | ShareRequiredShardsDifferent
  | ShareTitleDifferent
  | ShareTooShort
  | ShareVersionDifferent
  | UndefinedBodyNotHex
  | VersionNotSupported
  | BodyNotBase64
  | TooFewShares
  | TooManyShares (max : Nat)
  | EncryptionFailed
  deriving DecidableEq

/-- Version enum from `src/shares.rs` lines 39-44. -/
inductive Version where
  | undefined
  | v1
  deriving DecidableEq

/-! ## Base64 (the `base64` crate's STANDARD engine) and hex codecs -/

/-- The standard base64 alphabet. -/
def b64Chars : List Char :=
  "ABCDEFGHIJKLMNOPQRSTUVWXYZabcdefghijklmnopqrstuvwxyz0123456789+/".toList

/-- Character for a 6-bit group. -/
def b64Char (i : Nat) : Char := b64Chars.getD i 'A'

/-- 6-bit value of an alphabet character (`none` for characters outside the
alphabet, including `=`). -/
def b64Index (c : Char) : Option Nat := b64Chars.indexOf? c

/-- base64 encoding, processing three input bytes into four characters, with
`=` padding for a short final chunk. -/
def b64EncodeChunks : List Nat → List Char
  | [] => []
  | [a] => [b64Char (a / 4), b64Char (a % 4 * 16), '=', '=']
  | [a, b] => [b64Char (a / 4), b64Char (a % 4 * 16 + b / 16), b64Char (b % 16 * 4), '=']
  | a :: b :: c :: rest =>
      b64Char (a / 4) :: b64Char (a % 4 * 16 + b / 16) :: b64Char (b % 16 * 4 + c / 64) ::
        b64Char (c % 64) :: b64EncodeChunks rest

/-- `BASE64.encode` of the `base64` crate. -/
def b64Encode (bytes : List Nat) : String := String.mk (b64EncodeChunks bytes)

/-- base64 decoding of four-character groups; requires canonical padding and
zero trailing bits, as the STANDARD engine does. -/
def b64DecodeChunks : List Char → Option (List Nat)
  | [] => some []
  | [c1, c2, '=', '='] =>
      match b64Index c1, b64Index c2 with
      | some a, some b => if b % 16 = 0 then some [a * 4 + b / 16] else none
      | _, _ => none
  | [c1, c2, c3, '='] =>
      match b64Index c1, b64Index c2, b64Index c3 with
      | some a, some b, some c =>
          if c % 4 = 0 then some [a * 4 + b / 16, b % 16 * 16 + c / 4] else none
      | _, _, _ => none
  | c1 :: c2 :: c3 :: c4 :: rest =>
      match b64Index c1, b64Index c2, b64Index c3, b64Index c4, b64DecodeChunks rest with
      | some a, some b, some c, some d, some tail =>
          some ((a * 4 + b / 16) :: (b % 16 * 16 + c / 4) :: (c % 4 * 64 + d) :: tail)
      | _, _, _, _, _ => none
  | _ => none

/-- `BASE64.decode` of the `base64` crate. -/
def b64Decode (s : String) : Option (List Nat) := b64DecodeChunks s.toList

/-- Value of a hexadecimal digit (both cases), as `hex::decode` accepts;
48/97/65 are the code points of `0`/`a`/`A`. -/
def hexVal (c : Char) : Option Nat :=
  if 48 ≤ c.toNat ∧ c.toNat ≤ 57 then some (c.toNat - 48)
  else if 97 ≤ c.toNat ∧ c.toNat ≤ 102 then some (c.toNat - 97 + 10)
  else if 65 ≤ c.toNat ∧ c.toNat ≤ 70 then some (c.toNat - 65 + 10)
  else none

/-- `hex::decode`: pairs of hex digits, even length required. -/
def hexDecodeChars : List Char → Option (List Nat)
  | [] => some []
  | c1 :: c2 :: rest =>
      match hexVal c1, hexVal c2, hexDecodeChars rest with
      | some a, some b, some tail => some ((a * 16 + b) :: tail)
      | _, _, _ => none
  | [_] => none

/-- Rust `char::to_digit(36)`; 48/97/65 are the code points of `0`/`a`/`A`. -/
def toDigit36 (c : Char) : Option Nat :=
  if 48 ≤ c.toNat ∧ c.toNat ≤ 57 then some (c.toNat - 48)
  else if 97 ≤ c.toNat ∧ c.toNat ≤ 122 then some (c.toNat - 97 + 10)
  else if 65 ≤ c.toNat ∧ c.toNat ≤ 90 then some (c.toNat - 65 + 10)
  else none

/-- Rust `char::from_digit(m, radix)` for the radices in use (digits then
lowercase letters). -/
def fromDigit36 (m : Nat) : Char :=
  if m < 10 then Char.ofNat ('0'.toNat + m) else Char.ofNat ('a'.toNat + m - 10)

/-- One step of `format_radix` (`src/encrypt.rs` lines 166-178); the loop
pushes digits low-to-high and is reversed at the end.  Structural recursion
on a fuel argument; `format_radix` always terminates because `x` shrinks. -/
def formatRadixAux : Nat → Nat → Nat → List Char
  | 0, _, _ => []
  | fuel + 1, x, radix =>
      let m := x % radix
      let x' := x / radix
      fromDigit36 m :: (if x' = 0 then [] else formatRadixAux fuel x' radix)

/-- `format_radix` from `src/encrypt.rs`. -/
def formatRadix (x radix : Nat) : String :=
  String.mk (formatRadixAux (x + 1) x radix).reverse

/-! ## JSON values and the share codec (`src/shares.rs` lines 26-157) -/

/-- The `json` crate's `JsonValue`, restricted to the shapes a share can
carry in the five keys `Share::new` reads (numbers in shares are unsigned
integers; any other shape is rejected by the source before use). -/
inductive Jv where
  | null
  | num (n : Nat)
  | str (s : String)
  deriving DecidableEq

/-- `JsonValue`'s `Display`: `Short`/`String` variants print their raw
contents, `Null` prints `null`, numbers print decimally. -/
def Jv.toStr : Jv → String
  | .null => "null"
  | .num n => toString n
  | .str s => s

/-- The five JSON fields `Share::new` reads from a parsed share
(`parsed["v"]`, `["t"]`, `["r"]`, `["n"]`, `["d"]`); a key missing from the
JSON object reads as `Jv.null`. -/
structure JShare where
  v : Jv
  t : Jv
  r : Jv
  n : Jv
  d : Jv
  deriving DecidableEq

/-- `Share` struct from `src/shares.rs` lines 26-34. -/
structure Share where
  version : Version
  title : String
  requiredShards : Nat
  nonce : String
  bits : Nat
  id : Nat
  content : List Nat
  deriving DecidableEq

/-- Big-endian bytes of a `u32`, `u32::to_be_bytes`. -/
def beBytes4 (m : Nat) : List Nat := [m / 2 ^ 24 % 256, m / 2 ^ 16 % 256, m / 2 ^ 8 % 256, m % 256]

/-- `u32::from_be_bytes` (on a four-byte list). -/
def beValue (l : List Nat) : Nat := l.foldl (fun a b => a * 256 + b) 0

/-- The body of `Share::new` (`src/shares.rs` lines 73-148) after the
version has been resolved, starting from the parsed JSON values: the
`String::from_utf8` and `json::parse` steps are external crates and are not
modelled (their failures, `NotShareString` and `JsonParsing`, happen before
any field is read). -/
def shareNewBody (version : Version) (j : JShare) : Except Error Share := do
  let title := j.t.toStr
  let requiredShards ← match j.r with
    | .num a => pure a
    | _ => throw Error.RequiredShardsNotSupported
  let nonce := j.n.toStr
  let data := j.d.toStr
  let shareChars := data.toList
  let bits ← match shareChars.head? with
    | some a => match toDigit36 a with
      | some b => if 3 ≤ b ∧ b ≤ 20 then pure b else throw (Error.BitsOutOfRange b)
      | none => throw (Error.ParseBit a)
    | none => throw Error.EmptyShare
  let shareBody ← match version with
    | Version.undefined => match hexDecodeChars shareChars.tail with
      | some a => pure a
      | none => throw Error.UndefinedBodyNotHex
    | Version.v1 => match b64DecodeChunks shareChars.tail with
      | some a => pure a
      | none => throw Error.BodyNotBase64
  let max := 2 ^ bits - 1
  let idLength := ((beBytes4 max).dropWhile (· = 0)).length
  if idLength ≤ shareBody.length then
    let identifierPiece := shareBody.take idLength
    let content := shareBody.drop idLength
    let id := beValue ((beBytes4 max).take (4 - idLength) ++ identifierPiece)
    pure { version := version, title := title, requiredShards := requiredShards,
           nonce := nonce, bits := bits, id := id, content := content }
  else throw Error.ShareTooShort

/-- `Share::new` (`src/shares.rs` lines 49-148): resolve the version, then
run the rest of the parse (`shareNewBody`). -/
def Share.new (j : JShare) : Except Error Share := do
  let version ← match j.v with
    | .num a => if a = 1 then pure Version.v1 else throw Error.VersionNotSupported
    | .null => pure Version.undefined
    | _ => throw Error.VersionNotSupported
  shareNewBody version j

/-! ## Field tables (`src/shares.rs` lines 389-453) -/

/-- `PRIMITIVE_POLYNOMIALS` table, `src/shares.rs` lines 395-414. -/
def PRIMITIVE_POLYNOMIALS : List Nat := [3, 3, 5, 3, 3, 29, 17, 9, 5, 83, 27, 43, 3, 45, 9, 39, 39, 9]

/-- `primitive_polynomial(n)`; the source indexes the table directly and the
callers guarantee `3 ≤ n ≤ 20`, so the out-of-range default is never read. -/
def primitive_polynomial (n : Nat) : Nat := PRIMITIVE_POLYNOMIALS.getD (n - 3) 0

/-- One iteration of the loop in `generate_logs_and_exps`
(`src/shares.rs` lines 441-451), acting on the state `(logs, exps, x)`.
`logs[x]` reads are in range because `x < size` throughout (proved below);
`List.getD`/`List.set` model `Vec` indexing. -/
def genStep (size pp : Nat) (st : List (Option Nat) × List Nat × Nat) (i : Nat) :
    List (Option Nat) × List Nat × Nat :=
  let logs := st.1
  let exps := st.2.1
  let x := st.2.2
  let exps := exps ++ [x]
  let logs := if (logs.getD x none).isNone then logs.set x (some i) else logs
  let x := x <<< 1
  let x := if x ≥ size then (x ^^^ pp) &&& (size - 1) else x
  (logs, exps, x)

/-- `generate_logs_and_exps` from `src/shares.rs` lines 429-453. -/
def generate_logs_and_exps (n : Nat) : List (Option Nat) × List Nat :=
  let size := 2 ^ n
  let st := (List.range size).foldl (genStep size (primitive_polynomial n))
    (List.replicate size none, [], 1)
  (st.1, st.2.1)

/-! ## Lagrange interpolation (`src/shares.rs` lines 460-497)

Rust panic sites are modelled as `none` of an outer `Option`:
the two `expect`s, `y[i]`/`x[j]`/`x[i]` indexing, `exps[product]` indexing,
`u32` underflow of `(size-1) + product + p1 - p2` as well as `u32` overflow
of that sum, and `% (size-1)` with a zero divisor. -/

/-- Inner loop of `lagrange` over `j` (lines 475-489): accumulates
`product`. -/
def lagProduct (size : Nat) (logs : List (Option Nat)) (x : List Nat) (i : Nat) :
    Nat → List Nat → Option (Except Error Nat)
  | product, [] => some (Except.ok product)
  | product, j :: js =>
    if i = j then lagProduct size logs x i product js
    else
      match x.get? j, x.get? i with
      | some xj, some xi =>
        (match logs.get? xj with
        | none => some (Except.error (Error.LogOutOfRange xj))
        | some none => none
        | some (some p1) =>
          match logs.get? (xi ^^^ xj) with
          | none => some (Except.error (Error.LogOutOfRange (xi ^^^ xj)))
          | some none => none
          | some (some p2) =>
            if size - 1 = 0 then none
            else if p2 ≤ size - 1 + product + p1 ∧ size - 1 + product + p1 < 2 ^ 32 then
              lagProduct size logs x i ((size - 1 + product + p1 - p2) % (size - 1)) js
            else none)
      | _, _ => none

/-- Outer loop of `lagrange` over `i` (lines 471-495): accumulates `sum`. -/
def lagSum (size : Nat) (logs : List (Option Nat)) (exps : List Nat) (x y : List Nat) :
    Nat → List Nat → Option (Except Error Nat)
  | sum, [] => some (Except.ok sum)
  | sum, i :: is =>
    match y.get? i with
    | none => none
    | some yi =>
      match logs.get? yi with
      | none => some (Except.error (Error.LogOutOfRange yi))
      | some none => lagSum size logs exps x y sum is
      | some (some a) =>
        match lagProduct size logs x i a (List.range x.length) with
        | none => none
        | some (Except.error e) => some (Except.error e)
        | some (Except.ok product) =>
          match exps.get? product with
          | none => none
          | some e => lagSum size logs exps x y (sum ^^^ e) is

/-- `lagrange` from `src/shares.rs` lines 460-497. -/
def lagrange (x y : List Nat) (logs : List (Option Nat)) (exps : List Nat) (n : Nat) :
    Option (Except Error Nat) :=
  lagSum (2 ^ n) logs exps x y 0 (List.range x.length)

/-! ## Horner evaluation (`src/encrypt.rs` lines 140-154) -/

/-- Loop of `horner` over `coeffs.iter().rev()`; panics (the `expect`s,
table indexing, `% 0`) are modelled as `none`. -/
def hornerGo (logx maxShares : Nat) (logs : List (Option Nat)) (exps : List Nat) :
    Nat → List Nat → Option Nat
  | fx, [] => some fx
  | fx, a :: rest =>
    if fx ≠ 0 then
      match logs.get? fx with
      | none => none
      | some none => none
      | some (some lfx) =>
        if maxShares = 0 then none
        else
          match exps.get? ((logx + lfx) % maxShares) with
          | none => none
          | some e => hornerGo logx maxShares logs exps (e ^^^ a) rest
    else hornerGo logx maxShares logs exps a rest

/-- `horner` from `src/encrypt.rs` lines 140-154; the final
`try_into::<u8>()` panics when the result exceeds `u8`, modelled by the
`< 256` guard. -/
def horner (x : Nat) (coeffs : List Nat) (logs : List (Option Nat)) (exps : List Nat)
    (n : Nat) : Option Nat :=
  match logs.get? x with
  | none => none
  | some none => none
  | some (some logx) =>
    match hornerGo logx (2 ^ n - 1) logs exps 0 coeffs.reverse with
    | none => none
    | some fx => if fx < 256 then some fx else none

/-! ## Share sets (`src/shares.rs` lines 159-387) -/

/-- `SetInProgress`, `src/shares.rs` lines 178-185. -/
structure SetInProgress where
  bits : Nat
  idSet : List Nat
  contentLength : Nat
  contentSet : List (List Nat)
  nonce : String
  deriving DecidableEq

/-- `SetCombined`, `src/shares.rs` lines 187-191. -/
structure SetCombined where
  data : List Nat
  nonce : List Nat
  deriving DecidableEq

/-- `ShareSetState`, `src/shares.rs` lines 172-176. -/
inductive ShareSetState where
  | setInProgress (s : SetInProgress)
  | setCombined (s : SetCombined)
  deriving DecidableEq

/-- `ShareSet`, `src/shares.rs` lines 164-170. -/
structure ShareSet where
  version : Version
  title : String
  requiredShards : Nat
  state : ShareSetState
  deriving DecidableEq

/-- `NextAction`, `src/shares.rs` lines 194-205. -/
inductive NextAction where
  | moreShares (haveCount need : Nat)
  | askUserForPassword
  deriving DecidableEq

/-- MSB-first bits kept from one reconstructed element: the source builds
the 32 Msb0 bits of the `u32` and keeps positions `32-bits ..`, i.e. the low
`bits` bits, most significant first (`src/shares.rs` lines 242-253). -/
def bitsOfWidth (w v : Nat) : List Bool := (List.range w).map (fun k => v.testBit (w - 1 - k))

/-- Per-element loop of `SetInProgress::combine` (lines 231-254): runs
`lagrange` on each transposed column and concatenates the kept bits. -/
def combineBits (idSet : List Nat) (logs : List (Option Nat)) (exps : List Nat) (bits : Nat) :
    List (List Nat) → Option (Except Error (List Bool))
  | [] => some (Except.ok [])
  | z :: rest =>
    match lagrange idSet z logs exps bits with
    | none => none
    | some (Except.error e) => some (Except.error e)
    | some (Except.ok v) =>
      match combineBits idSet logs exps bits rest with
      | none => none
      | some (Except.error e) => some (Except.error e)
      | some (Except.ok tail) => some (Except.ok (bitsOfWidth bits v ++ tail))

/-- Numeric value of at most eight MSB-first bits. -/
def byteOfBits (l : List Bool) : Nat := l.foldl (fun a b => 2 * a + (if b then 1 else 0)) 0

/-- `BitVec<u8, Msb0>::into_vec` on a collected bit list: bytes are filled
MSB-first and a final incomplete byte is padded with trailing zero bits.
Structural recursion on a fuel argument (eight bits are consumed per step). -/
def bitsToBytesF : Nat → List Bool → List Nat
  | 0, _ => []
  | _, [] => []
  | fuel + 1, b :: rest =>
      byteOfBits (List.take 8 (b :: rest) ++ List.replicate (8 - (b :: rest).length) false) ::
        bitsToBytesF fuel (List.drop 7 rest)

/-- Byte packing of the combined bit stream. -/
def bitsToBytes (l : List Bool) : List Nat := bitsToBytesF l.length l

/-- `SetInProgress::combine`, `src/shares.rs` lines 212-270.  The transposed
`content_zipped` indexing `content_set[j][i]` is modelled with `getD`; for
every set built by `init`/`try_add_share` it is in range.  Panics inside
`lagrange` propagate as `none`. -/
def SetInProgress.combine (s : SetInProgress) : Option (Except Error SetCombined) :=
  let contentZipped := (List.range s.contentLength).map (fun i =>
    (List.range s.idSet.length).map (fun j => (s.contentSet.getD j []).getD i 0))
  let le := generate_logs_and_exps s.bits
  match combineBits s.idSet le.1 le.2 s.bits contentZipped with
  | none => none
  | some (Except.error e) => some (Except.error e)
  | some (Except.ok resultBits) =>
    let data := bitsToBytes ((resultBits.dropWhile (fun b => !b)).drop 1)
    match b64Decode s.nonce with
    | some nonce => some (Except.ok ⟨data, nonce⟩)
    | none => some (Except.error Error.NonceNotBase64)

/-- `ShareSet::init`, `src/shares.rs` lines 275-288. -/
def ShareSet.init (share : Share) : ShareSet :=
  { version := share.version
    title := share.title
    requiredShards := share.requiredShards
    state := ShareSetState.setInProgress
      { bits := share.bits
        idSet := [share.id]
        contentLength := share.content.length
        contentSet := [share.content]
        nonce := share.nonce } }

/-- `ShareSet::try_add_share`, `src/shares.rs` lines 291-329.  The Rust
method mutates `&mut self` and returns `Result<(), Error>`; the model
returns the result paired with the final state (`none` = a panic inside
`combine`). -/
def ShareSet.tryAddShare (self : ShareSet) (new : Share) :
    Option (Except Error Unit × ShareSet) :=
  match self.state with
  | ShareSetState.setCombined _ => some (Except.ok (), self)
  | ShareSetState.setInProgress sip =>
    if new.version ≠ self.version then some (Except.error Error.ShareVersionDifferent, self)
    else if new.title ≠ self.title then some (Except.error Error.ShareTitleDifferent, self)
    else if new.requiredShards ≠ self.requiredShards then
      some (Except.error Error.ShareRequiredShardsDifferent, self)
    else if new.nonce ≠ sip.nonce then some (Except.error Error.ShareNonceDifferent, self)
    else if new.bits ≠ sip.bits then some (Except.error Error.ShareBitsDifferent, self)
    else if new.id ∈ sip.idSet then some (Except.error Error.ShareAlreadyInSet, self)
    else if sip.contentLength ≠ new.content.length then
      some (Except.error Error.ShareContentLengthDifferent, self)
    else
      let sip' : SetInProgress :=
        { sip with idSet := sip.idSet ++ [new.id], contentSet := sip.contentSet ++ [new.content] }
      if sip'.idSet.length ≥ self.requiredShards then
        match sip'.combine with
        | none => none
        | some (Except.error e) =>
          some (Except.error e, { self with state := ShareSetState.setInProgress sip' })
        | some (Except.ok sc) =>
          some (Except.ok (), { self with state := ShareSetState.setCombined sc })
      else some (Except.ok (), { self with state := ShareSetState.setInProgress sip' })

/-- `ShareSet::next_action`, `src/shares.rs` lines 331-339. -/
def ShareSet.nextAction (s : ShareSet) : NextAction :=
  match s.state with
  | ShareSetState.setInProgress sip => NextAction.moreShares sip.idSet.length s.requiredShards
  | ShareSetState.setCombined _ => NextAction.askUserForPassword

/-- The external cryptographic and `std` primitives used by
`recover_with_passphrase` and `encrypt`: scrypt (with the fixed parameters
`log2(N)=15, r=8, p=1`, 32-byte output; `none` models `InvalidOutputLen`),
SHA-512, the XSalsa20-Poly1305 AEAD, and UTF-8 conversion.  These live in
external crates, so theorems are stated for an arbitrary `CryptoPrims`. -/
structure CryptoPrims where
  sha512 : List Nat → List Nat
  scrypt : (pass salt : List Nat) → Option (List Nat)
  aeadEncrypt : (key nonce msg : List Nat) → Option (List Nat)
  aeadDecrypt : (key nonce ct : List Nat) → Option (List Nat)
  utf8Bytes : String → List Nat
  utf8String : List Nat → Option String

/-- `ShareSet::recover_with_passphrase`, `src/shares.rs` lines 347-386. -/
def ShareSet.recoverWithPassphrase (P : CryptoPrims) (self : ShareSet) (passphrase : String) :
    Except Error String :=
  match self.state with
  | ShareSetState.setCombined sc =>
    let salt := P.sha512 (P.utf8Bytes self.title)
    match P.scrypt (P.utf8Bytes passphrase) salt with
    | none => Except.error Error.ScryptFailed
    | some key =>
      match P.aeadDecrypt key sc.nonce sc.data with
      | some a =>
        match P.utf8String a with
        | some b => Except.ok b
        | none => Except.error Error.DecodedSecretNotString
      | none => Except.error Error.DecodingFailed
  | ShareSetState.setInProgress _ => Except.error Error.NotReadyToDecode

/-- The mutable-borrow view of `recover_with_passphrase`: the Rust method
takes `&self`, so the set after the call is definitionally the set before;
pairing the result with it makes that observable in theorems. -/
def ShareSet.recoverMut (P : CryptoPrims) (self : ShareSet) (passphrase : String) :
    Except Error String × ShareSet :=
  (self.recoverWithPassphrase P passphrase, self)

/-! ## The splitter (`src/encrypt.rs` lines 23-134) -/

/-- `construct_public_share_string`, `src/encrypt.rs` lines 156-164. -/
def construct_public_share_string (bits id : Nat) (data : List Nat) : String :=
  formatRadix bits 36 ++ b64Encode (id :: data)

/-- `get_shares`, `src/encrypt.rs` lines 124-134, with the `threshold - 1`
random coefficient bytes drawn by the RNG passed explicitly as `coeffs`.
A panic inside any `horner` call is `none`. -/
def get_shares (secret : Nat) (numShares : Nat) (coeffs : List Nat) (bits : Nat) :
    Option (List Nat) :=
  let poly := secret :: coeffs
  let le := generate_logs_and_exps bits
  (List.range numShares).mapM (fun x0 => horner (x0 + 1) poly le.1 le.2 bits)

/-- The padded splitter input built in `share` (`src/encrypt.rs` lines
94-99): `left_pad` zero bytes, then the `0x01` marker, then the ciphertext. -/
def toSplit (secret : List Nat) : List Nat :=
  let padLength := 7
  let leftPad := padLength - (secret.length + 1) % padLength
  let zeros := List.replicate leftPad 0
  (zeros ++ [1]) ++ secret

/-- `share`, `src/encrypt.rs` lines 77-121; `rnd i` is the coefficient draw
of the `get_shares` call for the i-th padded byte. -/
def shareSplit (secret : List Nat) (numShares requiredShards : Nat) (rnd : Nat → List Nat) :
    Option (Except Error (List String)) :=
  if numShares < 2 then some (Except.error Error.TooFewShares)
  else if numShares < requiredShards then some (Except.error Error.TooFewShares)
  else
    let bits := 8
    let maxShares := 2 ^ bits - 1
    if numShares > maxShares then some (Except.error (Error.TooManyShares maxShares))
    else
      match (toSplit secret).enum.mapM (fun p => get_shares p.2 numShares (rnd p.1) bits) with
      | none => none
      | some splits =>
        let xs := (List.range numShares).map (fun i => splits.map (fun split => split.getD i 0))
        some (Except.ok (xs.enum.map (fun p => construct_public_share_string bits (p.1 + 1) p.2)))

/-- The serde `Share` struct (`src/encrypt.rs` lines 13-20) at the
JSON-value level: `{"v": 1, "t": title, "r": required, "d": d, "n": nonce}`. -/
def mkShareJson (title : String) (required : Nat) (d nonce : String) : JShare :=
  { v := Jv.num 1, t := Jv.str title, r := Jv.num required, n := Jv.str nonce, d := Jv.str d }

/-- `encrypt`, `src/encrypt.rs` lines 23-68, with the RNG draws (the 24-byte
nonce and the per-byte coefficient draws) passed explicitly and the
cryptographic primitives abstract.  serde_json stringification is external
crate code, so the result is the share list at the JSON-value level. -/
def encrypt (P : CryptoPrims) (secret title passphrase : String)
    (totalShards requiredShards : Nat) (nonce : List Nat) (rnd : Nat → List Nat) :
    Option (Except Error (List JShare)) :=
  let salt := P.sha512 (P.utf8Bytes title)
  match P.scrypt (P.utf8Bytes passphrase) salt with
  | none => some (Except.error Error.ScryptFailed)
  | some key =>
    match P.aeadEncrypt key nonce (P.utf8Bytes secret) with
    | none => some (Except.error Error.EncryptionFailed)
    | some encrypted =>
      match shareSplit encrypted totalShards requiredShards rnd with
      | none => none
      | some (Except.error e) => some (Except.error e)
      | some (Except.ok shares) =>
        let nonceStr := b64Encode nonce
        some (Except.ok (shares.map (fun d => mkShareJson title requiredShards d nonceStr)))

/-! ## Carry-less arithmetic on `Nat` (GF(2)[X] in binary representation)

The mathematical layer used to verify the field tables: polynomials over
GF(2) are represented by the natural number whose binary digits are the
coefficients; addition is `^^^` and multiplication is `clmul`. -/

/-- Little-endian binary digits, with an explicit fuel argument so that the
definition is structural (the fuel only needs to dominate the value). -/
def bitsAux : Nat → Nat → List Bool
  | 0, _ => []
  | f + 1, m => if m = 0 then [] else (m % 2 = 1) :: bitsAux f (m / 2)

/-- Little-endian binary digits of a natural number. -/
def natBits (m : Nat) : List Bool := bitsAux m m

/-- Fuel does not matter as long as it dominates the value. -/
theorem bitsAux_irrel : ∀ (f g m : Nat), m ≤ f → m ≤ g → bitsAux f m = bitsAux g m := by
  intro f
  induction f with
  | zero =>
    intro g m hf _
    interval_cases m
    cases g <;> simp [bitsAux]
  | succ f ih =>
    intro g m hf hg
    match g with
    | 0 =>
      interval_cases m
      simp [bitsAux]
    | g + 1 =>
      simp only [bitsAux]
      rcases Nat.eq_zero_or_pos m with rfl | hm
      · simp
      · rw [if_neg (by omega), if_neg (by omega)]
        have hlt : m / 2 < m := Nat.div_lt_self hm (by norm_num)
        rw [ih g (m / 2) (by omega) (by omega)]

/-- Unfolding equation for `natBits`. -/
theorem natBits_eq (m : Nat) :
    natBits m = if m = 0 then [] else (decide (m % 2 = 1)) :: natBits (m / 2) := by
  rcases Nat.eq_zero_or_pos m with rfl | hm
  · simp [natBits, bitsAux]
  · rw [if_neg (by omega)]
    show bitsAux m m = _
    match m, hm with
    | w + 1, _ =>
      simp only [bitsAux, if_neg (by omega : ¬w + 1 = 0)]
      congr 1
      exact bitsAux_irrel w ((w + 1) / 2) ((w + 1) / 2) (by omega) le_rfl

/-- Carry-less multiplication of a bit list with a number: XOR of the
shifted copies selected by the bits. -/
def clmulBits : List Bool → Nat → Nat
  | [], _ => 0
  | b :: r, y => (if b then y else 0) ^^^ clmulBits r (2 * y)

/-- Carry-less (GF(2)[X]) multiplication. -/
def clmul (a b : Nat) : Nat := clmulBits (natBits a) b

/-- Doubling distributes over XOR. -/
theorem two_mul_xor (u v : Nat) : 2 * (u ^^^ v) = 2 * u ^^^ 2 * v := by
  have h : ∀ w : Nat, 2 * w = w <<< 1 := fun w => by
    rw [Nat.shiftLeft_eq, pow_one, Nat.mul_comm]
  rw [h, h, h]
  apply Nat.eq_of_testBit_eq
  intro i
  simp only [Nat.testBit_shiftLeft, Nat.testBit_xor]
  cases Decidable.em (i ≥ 1) <;> simp [*]

/-- `clmulBits` with a doubled multiplier. -/
theorem clmulBits_two_mul : ∀ (l : List Bool) (y : Nat),
    clmulBits l (2 * y) = 2 * clmulBits l y := by
  intro l
  induction l with
  | nil => simp [clmulBits]
  | cons b r ih =>
    intro y
    simp only [clmulBits]
    rw [show 2 * (2 * y) = 2 * (2 * y) from rfl, ih (2 * y), two_mul_xor]
    congr 1
    cases b <;> simp

/-- Unfolding equation for `clmul`. -/
theorem clmul_eq (a b : Nat) :
    clmul a b = if a = 0 then 0 else (if a % 2 = 1 then b else 0) ^^^ 2 * clmul (a / 2) b := by
  unfold clmul
  rw [natBits_eq]
  rcases Nat.eq_zero_or_pos a with rfl | ha
  · simp [clmulBits]
  · rw [if_neg (by omega), if_neg (by omega)]
    simp only [clmulBits]
    rw [clmulBits_two_mul]
    congr 1
    cases Decidable.em (a % 2 = 1) <;> simp [*]

/-- `clmul 0 b = 0`. -/
theorem zero_clmul (b : Nat) : clmul 0 b = 0 := by rw [clmul_eq]; simp

/-- `clmul a 0 = 0`. -/
theorem clmul_zero (a : Nat) : clmul a 0 = 0 := by
  induction a using Nat.strong_induction_on with
  | _ a ih =>
    rw [clmul_eq]
    rcases Nat.eq_zero_or_pos a with rfl | ha
    · simp
    · rw [if_neg (by omega), ih (a / 2) (Nat.div_lt_self ha (by norm_num))]
      simp

/-- `clmul 1 b = b`. -/
theorem one_clmul (b : Nat) : clmul 1 b = b := by rw [clmul_eq]; simp [zero_clmul]

/-- XOR of numbers with disjoint binary supports is addition; here in the
special case of a low bit and an even number. -/
theorem xor_bit_add (b r : Nat) (hb : b < 2) : b ^^^ 2 * r = b + 2 * r := by
  interval_cases b
  · simp
  · apply Nat.eq_of_testBit_eq
    intro i
    rw [Nat.testBit_xor]
    match i with
    | 0 =>
      simp only [Nat.testBit_zero]
      have h0 : (2 * r + 1) % 2 = 1 := by omega
      have h1 : (2 * r) % 2 = 0 := by omega
      simp [h0, h1]
    | i + 1 =>
      rw [Nat.testBit_succ, Nat.testBit_succ, Nat.testBit_succ]
      have h1 : (1 : Nat) / 2 = 0 := by norm_num
      have h2 : 2 * r / 2 = r := by omega
      have h3 : (1 + 2 * r) / 2 = r := by omega
      rw [h1, h2, h3]
      simp

/-- `clmul a 1 = a`. -/
theorem clmul_one (a : Nat) : clmul a 1 = a := by
  induction a using Nat.strong_induction_on with
  | _ a ih =>
    rw [clmul_eq]
    rcases Nat.eq_zero_or_pos a with rfl | ha
    · simp
    · rw [if_neg (by omega), ih (a / 2) (Nat.div_lt_self ha (by norm_num))]
      rcases Nat.even_or_odd a with he | ho
      · have h2 : a % 2 = 0 := Nat.even_iff.mp he
        rw [if_neg (by omega)]
        rw [show (0 : Nat) ^^^ 2 * (a / 2) = 2 * (a / 2) by simp]
        omega
      · have h2 : a % 2 = 1 := Nat.odd_iff.mp ho
        rw [if_pos h2, xor_bit_add 1 (a / 2) (by norm_num)]
        omega

/-- XOR shuffle used when splitting sums of carry-less products. -/
theorem xor_shuffle (x1 x2 y1 y2 : Nat) :
    (x1 ^^^ x2) ^^^ (y1 ^^^ y2) = (x1 ^^^ y1) ^^^ (x2 ^^^ y2) := by
  apply Nat.eq_of_testBit_eq
  intro i
  simp only [Nat.testBit_xor]
  cases x1.testBit i <;> cases x2.testBit i <;> cases y1.testBit i <;> cases y2.testBit i <;> rfl

/-- Halving commutes with XOR. -/
theorem xor_div_two (a b : Nat) : (a ^^^ b) / 2 = a / 2 ^^^ b / 2 := by
  apply Nat.eq_of_testBit_eq
  intro i
  rw [show ((a ^^^ b) / 2).testBit i = (a ^^^ b).testBit (i + 1) from (Nat.testBit_succ _ _).symm,
    Nat.testBit_xor, Nat.testBit_xor,
    show (a / 2).testBit i = a.testBit (i + 1) from (Nat.testBit_succ _ _).symm,
    show (b / 2).testBit i = b.testBit (i + 1) from (Nat.testBit_succ _ _).symm]

/-- Parity of an XOR. -/
theorem xor_mod_two (a b : Nat) : (a ^^^ b) % 2 = (a % 2 + b % 2) % 2 := by
  have h := Nat.testBit_xor a b 0
  simp only [Nat.testBit_zero] at h
  rcases Nat.mod_two_eq_zero_or_one a with h1 | h1 <;>
    rcases Nat.mod_two_eq_zero_or_one b with h2 | h2 <;>
    simp [h1, h2] at h ⊢ <;> omega

/-- Right distributivity of `clmulBits` over XOR. -/
theorem clmulBits_xor : ∀ (l : List Bool) (b c : Nat),
    clmulBits l (b ^^^ c) = clmulBits l b ^^^ clmulBits l c := by
  intro l
  induction l with
  | nil => simp [clmulBits]
  | cons bit r ih =>
    intro b c
    simp only [clmulBits]
    rw [two_mul_xor, ih (2 * b) (2 * c), xor_shuffle]
    congr 1
    cases bit <;> simp

/-- Right distributivity of `clmul` over XOR. -/
theorem clmul_xor (a b c : Nat) : clmul a (b ^^^ c) = clmul a b ^^^ clmul a c :=
  clmulBits_xor (natBits a) b c

/-- `clmul` with a doubled right argument. -/
theorem clmul_two_mul (a b : Nat) : clmul a (2 * b) = 2 * clmul a b :=
  clmulBits_two_mul (natBits a) b

/-- `clmul` with a doubled left argument. -/
theorem two_mul_clmul (a b : Nat) : clmul (2 * a) b = 2 * clmul a b := by
  rcases Nat.eq_zero_or_pos a with rfl | ha
  · simp [zero_clmul, clmul_eq]
  · rw [clmul_eq (2 * a)]
    rw [if_neg (by omega)]
    have h1 : 2 * a % 2 = 0 := by omega
    have h2 : 2 * a / 2 = a := by omega
    rw [h1, h2]
    simp

/-- Left distributivity of `clmul` over XOR. -/
theorem xor_clmul (a : Nat) : ∀ (b c : Nat), clmul (a ^^^ b) c = clmul a c ^^^ clmul b c := by
  induction a using Nat.strong_induction_on with
  | _ a ih =>
    intro b c
    rcases Nat.eq_zero_or_pos a with rfl | ha
    · simp [zero_clmul]
    rcases Nat.eq_zero_or_pos b with rfl | hb
    · simp [zero_clmul]
    by_cases hab : a = b
    · subst hab
      simp [Nat.xor_self, zero_clmul]
    have hxne : a ^^^ b ≠ 0 := fun h => hab (Nat.xor_eq_zero.mp h)
    have ea : clmul a c = (if a % 2 = 1 then c else 0) ^^^ 2 * clmul (a / 2) c := by
      rw [clmul_eq a, if_neg (by omega)]
    have eb : clmul b c = (if b % 2 = 1 then c else 0) ^^^ 2 * clmul (b / 2) c := by
      rw [clmul_eq b, if_neg (by omega)]
    have ex : clmul (a ^^^ b) c =
        (if (a ^^^ b) % 2 = 1 then c else 0) ^^^ 2 * clmul ((a ^^^ b) / 2) c := by
      rw [clmul_eq (a ^^^ b), if_neg hxne]
    rw [ea, eb, ex, xor_div_two, ih (a / 2) (Nat.div_lt_self ha (by norm_num)) (b / 2) c,
      two_mul_xor, xor_shuffle]
    congr 1
    have hp := xor_mod_two a b
    rcases Nat.mod_two_eq_zero_or_one a with h1 | h1 <;>
      rcases Nat.mod_two_eq_zero_or_one b with h2 | h2 <;>
      rw [h1, h2] at hp <;> simp at hp <;> simp [hp, h1, h2]

/-- Commutativity of `clmul`. -/
theorem clmul_comm (a : Nat) : ∀ (b : Nat), clmul a b = clmul b a := by
  induction a using Nat.strong_induction_on with
  | _ a ih =>
    intro b
    rcases Nat.eq_zero_or_pos a with rfl | ha
    · simp [zero_clmul, clmul_zero]
    have hsplit : a % 2 ^^^ 2 * (a / 2) = a := by
      rw [xor_bit_add (a % 2) (a / 2) (Nat.mod_lt a (by norm_num))]
      omega
    calc clmul a b
        = (if a % 2 = 1 then b else 0) ^^^ 2 * clmul (a / 2) b := by
          rw [clmul_eq, if_neg (by omega)]
      _ = (if a % 2 = 1 then b else 0) ^^^ 2 * clmul b (a / 2) := by
          rw [ih (a / 2) (Nat.div_lt_self ha (by norm_num)) b]
      _ = clmul b (a % 2) ^^^ clmul b (2 * (a / 2)) := by
          rw [clmul_two_mul]
          congr 1
          rcases Nat.mod_two_eq_zero_or_one a with h1 | h1 <;>
            simp [h1, clmul_zero, clmul_one]
      _ = clmul b (a % 2 ^^^ 2 * (a / 2)) := (clmul_xor b _ _).symm
      _ = clmul b a := by rw [hsplit]

/-- Associativity of `clmul`. -/
theorem clmul_assoc (a : Nat) : ∀ (b c : Nat), clmul (clmul a b) c = clmul a (clmul b c) := by
  induction a using Nat.strong_induction_on with
  | _ a ih =>
    intro b c
    rcases Nat.eq_zero_or_pos a with rfl | ha
    · simp [zero_clmul]
    have ea : clmul a b = (if a % 2 = 1 then b else 0) ^^^ 2 * clmul (a / 2) b := by
      rw [clmul_eq a, if_neg (by omega)]
    calc clmul (clmul a b) c
        = clmul (if a % 2 = 1 then b else 0) c ^^^ 2 * clmul (clmul (a / 2) b) c := by
          rw [ea, xor_clmul, two_mul_clmul]
      _ = (if a % 2 = 1 then clmul b c else 0) ^^^ 2 * clmul (a / 2) (clmul b c) := by
          rw [ih (a / 2) (Nat.div_lt_self ha (by norm_num)) b c]
          congr 1
          rcases Nat.mod_two_eq_zero_or_one a with h1 | h1 <;> simp [h1, zero_clmul]
      _ = clmul a (clmul b c) := by
          have he := clmul_eq a (clmul b c)
          rw [if_neg (by omega : ¬a = 0)] at he
          rw [he]

/-! ## Bit length (`sz`) and polynomial remainder (`pmod`) -/

/-- Binary length of a natural number (`sz 0 = 0`, `sz m = ⌊log2 m⌋ + 1`). -/
def sz (m : Nat) : Nat := (natBits m).length

/-- Unfolding equation for `sz`. -/
theorem sz_eq (m : Nat) (h : m ≠ 0) : sz m = sz (m / 2) + 1 := by
  unfold sz
  rw [natBits_eq m, if_neg h]
  simp

/-- Values are below `2 ^ sz`. -/
theorem lt_two_pow_sz (m : Nat) : m < 2 ^ sz m := by
  induction m using Nat.strong_induction_on with
  | _ m ih =>
    rcases Nat.eq_zero_or_pos m with rfl | hm
    · simp [sz, natBits, bitsAux]
    · rw [sz_eq m (by omega)]
      have := ih (m / 2) (Nat.div_lt_self hm (by norm_num))
      rw [pow_succ]
      omega

/-- Nonzero values reach `2 ^ (sz - 1)`. -/
theorem two_pow_sz_le (m : Nat) (h : m ≠ 0) : 2 ^ (sz m - 1) ≤ m := by
  induction m using Nat.strong_induction_on with
  | _ m ih =>
    rcases Nat.eq_zero_or_pos (m / 2) with h2 | h2
    · have h1 : m = 1 := by omega
      subst h1
      simp [sz, natBits, bitsAux]
    · rw [sz_eq m h]
      have hlt : m / 2 < m := Nat.div_lt_self (by omega) (by norm_num)
      have := ih (m / 2) hlt (by omega)
      have hpow : 2 ^ (sz (m / 2) - 1 + 1) = 2 * 2 ^ (sz (m / 2) - 1) := by
        rw [pow_succ]
        ring
      have hszpos : 1 ≤ sz (m / 2) := by
        by_contra hc
        have h0 : sz (m / 2) = 0 := by omega
        have hlt2 := lt_two_pow_sz (m / 2)
        rw [h0, pow_zero] at hlt2
        omega
      have : sz (m / 2) + 1 - 1 = (sz (m / 2) - 1) + 1 := by omega
      rw [this, hpow]
      omega

/-- `sz` is the least binary length. -/
theorem sz_le_of_lt_two_pow (m k : Nat) (h : m < 2 ^ k) : sz m ≤ k := by
  by_contra hc
  have hk : k ≤ sz m - 1 := by omega
  have hm : m ≠ 0 := by
    intro h0
    subst h0
    simp [sz, natBits, bitsAux] at hc
  have := two_pow_sz_le m hm
  have := Nat.pow_le_pow_right (by norm_num : 0 < 2) hk
  omega

/-- `sz` of a value in a binary window. -/
theorem sz_of_window (m k : Nat) (h1 : 2 ^ k ≤ m) (h2 : m < 2 ^ (k + 1)) : sz m = k + 1 := by
  have hub := sz_le_of_lt_two_pow m (k + 1) h2
  have hm : m ≠ 0 := by
    have : (0 : Nat) < 2 ^ k := Nat.pos_pow_of_pos k (by norm_num)
    omega
  have hlb := two_pow_sz_le m hm
  by_contra hc
  have : sz m ≤ k := by omega
  have := Nat.pow_le_pow_right (by norm_num : 0 < 2) this
  have := lt_two_pow_sz m
  omega

/-- Upper bound for a carry-less product. -/
theorem clmul_lt (m : Nat) : ∀ (a b k : Nat), a < 2 ^ m → b < 2 ^ k →
    clmul a b < 2 ^ (m + k) := by
  induction m with
  | zero =>
    intro a b k ha hb
    have : a = 0 := by simpa using ha
    subst this
    rw [zero_clmul]
    exact Nat.pos_pow_of_pos _ (by norm_num)
  | succ m ih =>
    intro a b k ha hb
    rcases Nat.eq_zero_or_pos a with rfl | hpos
    · simp only [zero_clmul]
      exact Nat.pos_pow_of_pos _ (by norm_num)
    rw [clmul_eq a, if_neg (by omega)]
    have h1 : a / 2 < 2 ^ m := by
      have : a < 2 ^ m * 2 := by
        rw [show 2 ^ m * 2 = 2 ^ (m + 1) from (pow_succ 2 m).symm]
        exact ha
      omega
    have h2 : 2 * clmul (a / 2) b < 2 ^ (m + 1 + k) := by
      have := ih (a / 2) b k h1 hb
      rw [show m + 1 + k = (m + k) + 1 from by omega, pow_succ]
      omega
    have h3 : (if a % 2 = 1 then b else 0) < 2 ^ (m + 1 + k) := by
      have hbk : b < 2 ^ (m + 1 + k) :=
        lt_of_lt_of_le hb (Nat.pow_le_pow_right (by norm_num) (by omega))
      split <;> [exact hbk; exact Nat.pos_pow_of_pos _ (by norm_num)]
    exact Nat.xor_lt_two_pow h3 h2

/-- A value in the window `[2^k, 2^(k+1))` has bit `k` set. -/
theorem testBit_of_window (x k : Nat) (h1 : 2 ^ k ≤ x) (h2 : x < 2 ^ (k + 1)) :
    x.testBit k = true := by
  rw [Nat.testBit_to_div_mod]
  have hd : x / 2 ^ k = 1 := by
    apply Nat.div_eq_of_lt_le (by simpa using h1)
    rw [show (1 + 1) * 2 ^ k = 2 ^ (k + 1) from by rw [pow_succ]; ring]
    exact h2
  simp [hd]

/-- XOR with a smaller value stays in the binary window. -/
theorem xor_window (x y k : Nat) (h1 : 2 ^ k ≤ x) (h2 : x < 2 ^ (k + 1)) (hy : y < 2 ^ k) :
    2 ^ k ≤ x ^^^ y ∧ x ^^^ y < 2 ^ (k + 1) := by
  constructor
  · have hx : x.testBit k = true := testBit_of_window x k h1 h2
    have hyk : y.testBit k = false := Nat.testBit_lt_two_pow hy
    have hxy : (x ^^^ y).testBit k = true := by
      rw [Nat.testBit_xor, hx, hyk]
      rfl
    by_contra hc
    push_neg at hc
    have hfalse := Nat.testBit_lt_two_pow hc
    rw [hxy] at hfalse
    cases hfalse
  · have hy' : y < 2 ^ (k + 1) :=
      lt_of_lt_of_le hy (Nat.pow_le_pow_right (by norm_num) (by omega))
    exact Nat.xor_lt_two_pow h2 hy'

/-- The binary window of a carry-less product of nonzero values: the top
bits multiply, so `sz (clmul a b) = sz a + sz b - 1`. -/
theorem clmul_window (a : Nat) : ∀ (b : Nat), a ≠ 0 → b ≠ 0 →
    2 ^ (sz a - 1 + (sz b - 1)) ≤ clmul a b ∧
      clmul a b < 2 ^ (sz a - 1 + (sz b - 1) + 1) := by
  induction a using Nat.strong_induction_on with
  | _ a ih =>
    intro b ha hb
    rcases Nat.eq_zero_or_pos (a / 2) with h2 | h2
    · have h1 : a = 1 := by omega
      subst h1
      have hsz : sz 1 = 1 := rfl
      rw [one_clmul, hsz]
      simp only [Nat.sub_self, Nat.zero_add]
      exact ⟨two_pow_sz_le b hb, by
        have : sz b - 1 + 1 = sz b := by
          have : 1 ≤ sz b := by
            by_contra hc
            have h0 : sz b = 0 := by omega
            have := lt_two_pow_sz b
            rw [h0, pow_zero] at this
            omega
          omega
        rw [this]
        exact lt_two_pow_sz b⟩
    · have hstep : sz a = sz (a / 2) + 1 := sz_eq a ha
      have hIH := ih (a / 2) (Nat.div_lt_self (by omega) (by norm_num)) b (by omega) hb
      set s := sz (a / 2) - 1 + (sz b - 1) with hs
      have hM1 : 2 ^ (s + 1) ≤ 2 * clmul (a / 2) b := by
        have := hIH.1
        rw [pow_succ]
        omega
      have hM2 : 2 * clmul (a / 2) b < 2 ^ (s + 1 + 1) := by
        have := hIH.2
        rw [show s + 1 + 1 = (s + 1) + 1 from rfl, pow_succ, pow_succ]
        have h' : 2 ^ s * 2 = 2 ^ (s + 1) := (pow_succ 2 s).symm
        omega
      have hszd : 1 ≤ sz (a / 2) := by
        by_contra hc
        have h0 : sz (a / 2) = 0 := by omega
        have := lt_two_pow_sz (a / 2)
        rw [h0, pow_zero] at this
        omega
      have hszb : 1 ≤ sz b := by
        by_contra hc
        have h0 : sz b = 0 := by omega
        have := lt_two_pow_sz b
        rw [h0, pow_zero] at this
        omega
      have hlow : (if a % 2 = 1 then b else 0) < 2 ^ (s + 1) := by
        have hbw : b < 2 ^ sz b := lt_two_pow_sz b
        have hle : sz b ≤ s + 1 := by
          rw [hs]
          omega
        have : b < 2 ^ (s + 1) := lt_of_lt_of_le hbw (Nat.pow_le_pow_right (by norm_num) hle)
        split <;> [exact this; exact Nat.pos_pow_of_pos _ (by norm_num)]
      have hgoal : sz a - 1 + (sz b - 1) = s + 1 := by
        rw [hstep, hs]
        omega
      have hw := xor_window (2 * clmul (a / 2) b) (if a % 2 = 1 then b else 0) (s + 1)
        hM1 hM2 hlow
      rw [clmul_eq a, if_neg (by omega), hgoal, Nat.xor_comm]
      exact hw

/-- `sz` vanishes only at 0. -/
theorem sz_eq_zero_iff (a : Nat) : sz a = 0 ↔ a = 0 := by
  constructor
  · intro h
    have := lt_two_pow_sz a
    rw [h, pow_zero] at this
    omega
  · intro h
    subst h
    rfl

/-- Shifting is carry-less multiplication by a power of two. -/
theorem shiftLeft_eq_clmul (P t : Nat) : P <<< t = clmul (2 ^ t) P := by
  rw [Nat.shiftLeft_eq, clmul_comm]
  induction t with
  | zero => simp [clmul_one]
  | succ t ih =>
    rw [pow_succ, show 2 ^ t * 2 = 2 * 2 ^ t from by ring, clmul_two_mul, ← ih]
    ring

/-- A value whose bits from position `k` on are clear is below `2 ^ k`. -/
theorem lt_two_pow_of_high_bits (x k : Nat) (h : ∀ i, k ≤ i → x.testBit i = false) :
    x < 2 ^ k := by
  by_contra hc
  push_neg at hc
  have hx : x ≠ 0 := by
    have : (0 : Nat) < 2 ^ k := Nat.pos_pow_of_pos _ (by norm_num)
    omega
  have htop : x.testBit (sz x - 1) = true := by
    apply testBit_of_window
    · exact two_pow_sz_le x hx
    · rw [show sz x - 1 + 1 = sz x from by
        have h1 : sz x ≠ 0 := fun h0 => hx ((sz_eq_zero_iff x).mp h0)
        omega]
      exact lt_two_pow_sz x
  have hk : k ≤ sz x - 1 := by
    have h1 : ¬sz x ≤ k := by
      intro hle
      have := Nat.pow_le_pow_right (by norm_num : 1 ≤ 2) hle
      have := lt_two_pow_sz x
      omega
    omega
  rw [h (sz x - 1) hk] at htop
  cases htop

/-- XOR of two values in the same binary window drops below the window. -/
theorem window_xor_lt (x y k : Nat) (hx1 : 2 ^ k ≤ x) (hx2 : x < 2 ^ (k + 1))
    (hy1 : 2 ^ k ≤ y) (hy2 : y < 2 ^ (k + 1)) : x ^^^ y < 2 ^ k := by
  apply lt_two_pow_of_high_bits
  intro i hi
  by_cases heq : i = k
  · subst heq
    rw [Nat.testBit_xor, testBit_of_window x i hx1 hx2, testBit_of_window y i hy1 hy2]
    rfl
  · have hlt : k < i := by omega
    have hxi : x.testBit i = false := Nat.testBit_lt_two_pow
      (lt_of_lt_of_le hx2 (Nat.pow_le_pow_right (by norm_num) hlt))
    have hyi : y.testBit i = false := Nat.testBit_lt_two_pow
      (lt_of_lt_of_le hy2 (Nat.pow_le_pow_right (by norm_num) hlt))
    rw [Nat.testBit_xor, hxi, hyi]
    rfl

/-- One reduction pass of the polynomial remainder, with fuel; each firing
step clears the current top bit, so `sz a` steps always suffice. -/
def pmodAux (P : Nat) : Nat → Nat → Nat
  | 0, a => a
  | f + 1, a => if sz P ≤ sz a then pmodAux P f (a ^^^ (P <<< (sz a - sz P))) else a

/-- Polynomial (carry-less) remainder of `a` modulo `P`. -/
def pmod (a P : Nat) : Nat := pmodAux P (sz a) a

/-- The reduction step shrinks the bit length. -/
theorem pmod_step_lt (a P : Nat) (hP : P ≠ 0) (h : sz P ≤ sz a) :
    a ^^^ (P <<< (sz a - sz P)) < 2 ^ (sz a - 1) := by
  have hszP : 1 ≤ sz P := by
    rcases Nat.eq_zero_or_pos (sz P) with h0 | h1
    · exact absurd ((sz_eq_zero_iff P).mp h0) hP
    · exact h1
  have ha : a ≠ 0 := by
    intro h0
    subst h0
    rw [show sz 0 = 0 from rfl] at h
    omega
  have hsza : 1 ≤ sz a := by
    rcases Nat.eq_zero_or_pos (sz a) with h0 | h1
    · exact absurd ((sz_eq_zero_iff a).mp h0) ha
    · exact h1
  have hPw1 : 2 ^ (sz P - 1) ≤ P := two_pow_sz_le P hP
  have hPw2 : P < 2 ^ sz P := lt_two_pow_sz P
  have hsh : P <<< (sz a - sz P) = P * 2 ^ (sz a - sz P) := Nat.shiftLeft_eq _ _
  have hs1 : 2 ^ (sz a - 1) ≤ P <<< (sz a - sz P) := by
    rw [hsh]
    calc 2 ^ (sz a - 1) = 2 ^ (sz P - 1) * 2 ^ (sz a - sz P) := by
          rw [← pow_add]
          congr 1
          omega
      _ ≤ P * 2 ^ (sz a - sz P) := Nat.mul_le_mul_right _ hPw1
  have hs2 : P <<< (sz a - sz P) < 2 ^ sz a := by
    rw [hsh]
    calc P * 2 ^ (sz a - sz P) < 2 ^ sz P * 2 ^ (sz a - sz P) :=
          (Nat.mul_lt_mul_right (Nat.pos_pow_of_pos _ (by norm_num))).mpr hPw2
      _ = 2 ^ sz a := by
          rw [← pow_add]
          congr 1
          omega
  have hwin : sz a = (sz a - 1) + 1 := by omega
  have ha1 : 2 ^ (sz a - 1) ≤ a := two_pow_sz_le a ha
  have ha2 : a < 2 ^ ((sz a - 1) + 1) := by
    rw [← hwin]
    exact lt_two_pow_sz a
  exact window_xor_lt a (P <<< (sz a - sz P)) (sz a - 1) ha1 ha2 hs1 (by rw [← hwin]; exact hs2)

/-- Fuel irrelevance for `pmodAux`. -/
theorem pmodAux_irrel (P : Nat) (hP : P ≠ 0) :
    ∀ (f : Nat) (a g : Nat), sz a ≤ f → sz a ≤ g → pmodAux P f a = pmodAux P g a := by
  intro f
  induction f with
  | zero =>
    intro a g hf _
    have ha : a = 0 := (sz_eq_zero_iff a).mp (by omega)
    subst ha
    have hcond : ¬sz P ≤ sz 0 := by
      rw [show sz 0 = 0 from rfl]
      have : sz P ≠ 0 := fun h => hP ((sz_eq_zero_iff P).mp h)
      omega
    cases g with
    | zero => rfl
    | succ g =>
      have hg1 : pmodAux P (g + 1) 0 = 0 := by
        simp only [pmodAux]
        rw [if_neg hcond]
      rw [hg1]
      rfl
  | succ f ih =>
    intro a g hf hg
    by_cases hcond : sz P ≤ sz a
    · have hszP : 1 ≤ sz P := by
        have : sz P ≠ 0 := fun h => hP ((sz_eq_zero_iff P).mp h)
        omega
      have hstep := pmod_step_lt a P hP hcond
      have hsza' : sz (a ^^^ (P <<< (sz a - sz P))) ≤ sz a - 1 :=
        sz_le_of_lt_two_pow _ _ hstep
      cases g with
      | zero => omega
      | succ g =>
        simp only [pmodAux, if_pos hcond]
        exact ih _ g (by omega) (by omega)
    · cases g with
      | zero =>
        have h0 : sz a = 0 := by omega
        have ha : a = 0 := (sz_eq_zero_iff a).mp h0
        subst ha
        have h1 : pmodAux P (f + 1) 0 = 0 := by
          simp only [pmodAux]
          rw [if_neg hcond]
        rw [h1]
        rfl
      | succ g => simp only [pmodAux, if_neg hcond]

/-- Unfolding equation for `pmod`. -/
theorem pmod_eq (a P : Nat) (hP : P ≠ 0) :
    pmod a P = if sz P ≤ sz a then pmod (a ^^^ (P <<< (sz a - sz P))) P else a := by
  by_cases hcond : sz P ≤ sz a
  · rw [if_pos hcond]
    have hszP : 1 ≤ sz P := by
      have : sz P ≠ 0 := fun h => hP ((sz_eq_zero_iff P).mp h)
      omega
    have hsza : 1 ≤ sz a := by omega
    have hstep := pmod_step_lt a P hP hcond
    have hsza' : sz (a ^^^ (P <<< (sz a - sz P))) ≤ sz a - 1 :=
      sz_le_of_lt_two_pow _ _ hstep
    unfold pmod
    have h1 : pmodAux P (sz a) a = pmodAux P ((sz a - 1) + 1) a := by
      rw [show (sz a - 1) + 1 = sz a from by omega]
    rw [h1]
    simp only [pmodAux, if_pos hcond]
    exact pmodAux_irrel P hP (sz a - 1) _ _ (by omega) le_rfl
  · rw [if_neg hcond]
    unfold pmod
    rcases hsz : sz a with _ | m
    · rfl
    · simp only [pmodAux]
      rw [if_neg hcond]

/-- The remainder is below `2 ^ (sz P - 1)`. -/
theorem pmod_lt (P : Nat) (hP : P ≠ 0) : ∀ (a : Nat), pmod a P < 2 ^ (sz P - 1) := by
  intro a
  induction a using Nat.strong_induction_on with
  | _ a ih =>
    rw [pmod_eq a P hP]
    by_cases hcond : sz P ≤ sz a
    · rw [if_pos hcond]
      have ha : a ≠ 0 := by
        intro h0
        subst h0
        rw [show sz 0 = 0 from rfl] at hcond
        have : sz P ≠ 0 := fun h => hP ((sz_eq_zero_iff P).mp h)
        omega
      have hstep := pmod_step_lt a P hP hcond
      have hlow : 2 ^ (sz a - 1) ≤ a := two_pow_sz_le a ha
      exact ih _ (by omega)
    · rw [if_neg hcond]
      have : sz a ≤ sz P - 1 := by
        have : sz P ≠ 0 := fun h => hP ((sz_eq_zero_iff P).mp h)
        omega
      exact lt_of_lt_of_le (lt_two_pow_sz a) (Nat.pow_le_pow_right (by norm_num) this)

/-- Small values are their own remainder. -/
theorem pmod_small (a P : Nat) (hP : P ≠ 0) (h : a < 2 ^ (sz P - 1)) : pmod a P = a := by
  rw [pmod_eq a P hP, if_neg]
  intro hcond
  have h1 : sz a ≤ sz P - 1 := sz_le_of_lt_two_pow a _ h
  have : sz P ≠ 0 := fun h0 => hP ((sz_eq_zero_iff P).mp h0)
  omega

/-- Every value differs from its remainder by a carry-less multiple of `P`. -/
theorem pmod_sub (P : Nat) (hP : P ≠ 0) :
    ∀ (a : Nat), ∃ q, a = clmul q P ^^^ pmod a P := by
  intro a
  induction a using Nat.strong_induction_on with
  | _ a ih =>
    rw [pmod_eq a P hP]
    by_cases hcond : sz P ≤ sz a
    · rw [if_pos hcond]
      have ha : a ≠ 0 := by
        intro h0
        subst h0
        rw [show sz 0 = 0 from rfl] at hcond
        have : sz P ≠ 0 := fun h => hP ((sz_eq_zero_iff P).mp h)
        omega
      have hstep := pmod_step_lt a P hP hcond
      have hlow : 2 ^ (sz a - 1) ≤ a := two_pow_sz_le a ha
      obtain ⟨q, hq⟩ := ih (a ^^^ (P <<< (sz a - sz P))) (by omega)
      refine ⟨q ^^^ 2 ^ (sz a - sz P), ?_⟩
      set r := pmod (a ^^^ (P <<< (sz a - sz P))) P with hr
      calc a = (a ^^^ (P <<< (sz a - sz P))) ^^^ (P <<< (sz a - sz P)) := by
            rw [Nat.xor_assoc, Nat.xor_self, Nat.xor_zero]
        _ = (clmul q P ^^^ r) ^^^ clmul (2 ^ (sz a - sz P)) P := by
            rw [hq, shiftLeft_eq_clmul]
        _ = clmul (q ^^^ 2 ^ (sz a - sz P)) P ^^^ r := by
            rw [xor_clmul]
            apply Nat.eq_of_testBit_eq
            intro i
            simp only [Nat.testBit_xor]
            cases (clmul q P).testBit i <;> cases r.testBit i <;>
              cases (clmul (2 ^ (sz a - sz P)) P).testBit i <;> rfl
    · rw [if_neg hcond]
      exact ⟨0, by rw [zero_clmul, Nat.zero_xor]⟩

/-- A nonzero carry-less multiple of `P` reaches `2 ^ (sz P - 1)`. -/
theorem clmul_multiple_ge (q P : Nat) (hq : q ≠ 0) (hP : P ≠ 0) :
    2 ^ (sz P - 1) ≤ clmul q P := by
  have := (clmul_window q P hq hP).1
  calc 2 ^ (sz P - 1) ≤ 2 ^ (sz q - 1 + (sz P - 1)) :=
        Nat.pow_le_pow_right (by norm_num) (by omega)
    _ ≤ clmul q P := this

/-- Remainders are unique: two residues differing by a multiple of `P` are
equal. -/
theorem residue_unique (r1 r2 q P : Nat) (hP : P ≠ 0)
    (h1 : r1 < 2 ^ (sz P - 1)) (h2 : r2 < 2 ^ (sz P - 1))
    (h : r1 ^^^ r2 = clmul q P) : r1 = r2 := by
  rcases Nat.eq_zero_or_pos q with rfl | hq
  · rw [zero_clmul] at h
    exact Nat.xor_eq_zero.mp h
  · exfalso
    have hge := clmul_multiple_ge q P (by omega) hP
    have hlt : r1 ^^^ r2 < 2 ^ (sz P - 1) := Nat.xor_lt_two_pow h1 h2
    omega

/-- Adding a multiple of `P` does not change the remainder. -/
theorem pmod_add_multiple (a q P : Nat) (hP : P ≠ 0) :
    pmod (a ^^^ clmul q P) P = pmod a P := by
  obtain ⟨q1, hq1⟩ := pmod_sub P hP (a ^^^ clmul q P)
  obtain ⟨q2, hq2⟩ := pmod_sub P hP a
  set r1 := pmod (a ^^^ clmul q P) P with hr1
  set r2 := pmod a P with hr2
  apply residue_unique r1 r2 (q ^^^ q1 ^^^ q2) P hP (pmod_lt P hP _) (pmod_lt P hP _)
  have e1 : r1 = (a ^^^ clmul q P) ^^^ clmul q1 P := by
    rw [hq1, Nat.xor_comm (clmul q1 P) r1, Nat.xor_assoc, Nat.xor_self, Nat.xor_zero]
  have e2 : r2 = a ^^^ clmul q2 P := by
    rw [hq2, Nat.xor_comm (clmul q2 P) r2, Nat.xor_assoc, Nat.xor_self, Nat.xor_zero]
  rw [e1, e2, xor_clmul, xor_clmul]
  apply Nat.eq_of_testBit_eq
  intro i
  simp only [Nat.testBit_xor]
  cases a.testBit i <;> cases (clmul q P).testBit i <;> cases (clmul q1 P).testBit i <;>
    cases (clmul q2 P).testBit i <;> rfl

/-- The remainder is GF(2)-linear. -/
theorem pmod_xor (a b P : Nat) (hP : P ≠ 0) :
    pmod (a ^^^ b) P = pmod a P ^^^ pmod b P := by
  obtain ⟨q1, hq1⟩ := pmod_sub P hP a
  obtain ⟨q2, hq2⟩ := pmod_sub P hP b
  have hx : a ^^^ b = (pmod a P ^^^ pmod b P) ^^^ clmul (q1 ^^^ q2) P := by
    rw [xor_clmul]
    conv_lhs => rw [hq1, hq2]
    apply Nat.eq_of_testBit_eq
    intro i
    simp only [Nat.testBit_xor]
    cases (clmul q1 P).testBit i <;> cases (pmod a P).testBit i <;>
      cases (clmul q2 P).testBit i <;> cases (pmod b P).testBit i <;> rfl
  rw [hx, pmod_add_multiple _ _ _ hP,
    pmod_small _ _ hP (Nat.xor_lt_two_pow (pmod_lt P hP a) (pmod_lt P hP b))]

/-! ## The residue field GF(2)[X] / (P) on `Nat` -/

/-- Field multiplication of residues: carry-less product reduced mod `P`. -/
def fmul (P a b : Nat) : Nat := pmod (clmul a b) P

/-- Powers of a residue (unary reference form; `powB` is the computable
square-and-multiply form). -/
def fpow (P x : Nat) : Nat → Nat
  | 0 => 1
  | k + 1 => fmul P x (fpow P x k)

/-- Square-and-multiply powering along the little-endian bits of the
exponent. -/
def powB (P x : Nat) : List Bool → Nat
  | [] => 1
  | b :: r => if b then fmul P x (powB P (fmul P x x) r) else powB P (fmul P x x) r

/-- `P ≠ 0` from `2 ≤ sz P`. -/
theorem ne_zero_of_sz (P : Nat) (h : 2 ≤ sz P) : P ≠ 0 := by
  intro h0
  subst h0
  rw [show sz 0 = 0 from rfl] at h
  omega

/-- Products of residues stay reduced. -/
theorem fmul_lt (P a b : Nat) (hP : P ≠ 0) : fmul P a b < 2 ^ (sz P - 1) :=
  pmod_lt P hP _

/-- Commutativity of `fmul`. -/
theorem fmul_comm (P a b : Nat) : fmul P a b = fmul P b a := by
  unfold fmul
  rw [clmul_comm]

/-- Reducing the left factor first does not change a product. -/
theorem fmul_pmod_left (P X c : Nat) (hP : P ≠ 0) :
    fmul P (pmod X P) c = pmod (clmul X c) P := by
  obtain ⟨q, hq⟩ := pmod_sub P hP X
  set r := pmod X P with hr
  have e1 : r = X ^^^ clmul q P := by
    rw [hq, Nat.xor_comm (clmul q P) r, Nat.xor_assoc, Nat.xor_self, Nat.xor_zero]
  unfold fmul
  rw [e1, xor_clmul]
  have e2 : clmul (clmul q P) c = clmul (clmul q c) P := by
    rw [clmul_assoc, clmul_comm P c, ← clmul_assoc]
  rw [e2, pmod_add_multiple _ _ _ hP]

/-- Reducing the right factor first does not change a product. -/
theorem fmul_pmod_right (P X c : Nat) (hP : P ≠ 0) :
    fmul P c (pmod X P) = pmod (clmul c X) P := by
  rw [fmul_comm, fmul_pmod_left P X c hP, clmul_comm]

/-- Associativity of `fmul`. -/
theorem fmul_assoc (P a b c : Nat) (hP : P ≠ 0) :
    fmul P (fmul P a b) c = fmul P a (fmul P b c) := by
  unfold fmul
  rw [show pmod (clmul (pmod (clmul a b) P) c) P = fmul P (pmod (clmul a b) P) c from rfl,
    fmul_pmod_left _ _ _ hP,
    show pmod (clmul a (pmod (clmul b c) P)) P = fmul P a (pmod (clmul b c) P) from rfl,
    fmul_pmod_right _ _ _ hP, clmul_assoc]

/-- Multiplication by zero. -/
theorem fmul_zero' (P a : Nat) (hP : P ≠ 0) : fmul P a 0 = 0 := by
  unfold fmul
  rw [clmul_zero]
  exact pmod_small 0 P hP (Nat.pos_pow_of_pos _ (by norm_num))

/-- Zero times anything. -/
theorem zero_fmul' (P a : Nat) (hP : P ≠ 0) : fmul P 0 a = 0 := by
  rw [fmul_comm]
  exact fmul_zero' P a hP

/-- Multiplication by one on reduced residues. -/
theorem fmul_one' (P a : Nat) (hP : P ≠ 0) (ha : a < 2 ^ (sz P - 1)) : fmul P a 1 = a := by
  unfold fmul
  rw [clmul_one]
  exact pmod_small a P hP ha

/-- One times a reduced residue. -/
theorem one_fmul' (P a : Nat) (hP : P ≠ 0) (ha : a < 2 ^ (sz P - 1)) : fmul P 1 a = a := by
  rw [fmul_comm]
  exact fmul_one' P a hP ha

/-- Distributivity of `fmul` over XOR. -/
theorem fmul_xor' (P a b c : Nat) (hP : P ≠ 0) :
    fmul P a (b ^^^ c) = fmul P a b ^^^ fmul P a c := by
  unfold fmul
  rw [clmul_xor, pmod_xor _ _ _ hP]

/-- Powers of residues stay reduced. -/
theorem fpow_lt (P x k : Nat) (hP2 : 2 ≤ sz P) : fpow P x k < 2 ^ (sz P - 1) := by
  cases k with
  | zero =>
    show (1 : Nat) < 2 ^ (sz P - 1)
    have : 1 ≤ sz P - 1 := by omega
    calc (1 : Nat) < 2 ^ 1 := by norm_num
      _ ≤ 2 ^ (sz P - 1) := Nat.pow_le_pow_right (by norm_num) this
  | succ k => exact fmul_lt P _ _ (ne_zero_of_sz P hP2)

/-- Power of a sum of exponents. -/
theorem fpow_add (P x : Nat) (hP2 : 2 ≤ sz P) :
    ∀ (i j : Nat), fpow P x (i + j) = fmul P (fpow P x i) (fpow P x j) := by
  have hP : P ≠ 0 := ne_zero_of_sz P hP2
  intro i
  induction i with
  | zero =>
    intro j
    rw [Nat.zero_add]
    show fpow P x j = fmul P 1 (fpow P x j)
    rw [one_fmul' P _ hP (fpow_lt P x j hP2)]
  | succ i ih =>
    intro j
    rw [show i + 1 + j = (i + j) + 1 from by omega]
    show fmul P x (fpow P x (i + j)) = fmul P (fpow P x (i + 1)) (fpow P x j)
    rw [ih j, ← fmul_assoc _ _ _ _ hP]
    rfl

/-- Power of a product of exponents. -/
theorem fpow_mul (P x : Nat) (hP2 : 2 ≤ sz P) :
    ∀ (i j : Nat), fpow P x (i * j) = fpow P (fpow P x i) j := by
  have hP : P ≠ 0 := ne_zero_of_sz P hP2
  intro i j
  induction j with
  | zero => rfl
  | succ j ih =>
    rw [Nat.mul_succ, fpow_add P x hP2, ih]
    show _ = fmul P (fpow P x i) (fpow P (fpow P x i) j)
    rw [fmul_comm]

/-- `x²` as an `fmul`, for reduced `x`. -/
theorem fpow_two (P x : Nat) (hP2 : 2 ≤ sz P) (hx : x < 2 ^ (sz P - 1)) :
    fpow P x 2 = fmul P x x := by
  have hP : P ≠ 0 := ne_zero_of_sz P hP2
  show fmul P x (fmul P x 1) = fmul P x x
  rw [fmul_one' P x hP hx]

/-- Correctness of square-and-multiply powering. -/
theorem powB_correct (P : Nat) (hP2 : 2 ≤ sz P) :
    ∀ (k x : Nat), x < 2 ^ (sz P - 1) → powB P x (natBits k) = fpow P x k := by
  have hP : P ≠ 0 := ne_zero_of_sz P hP2
  intro k
  induction k using Nat.strong_induction_on with
  | _ k ih =>
    intro x hx
    rcases Nat.eq_zero_or_pos k with rfl | hk
    · rfl
    · rw [natBits_eq k, if_neg (by omega)]
      have hrec := ih (k / 2) (Nat.div_lt_self hk (by norm_num)) (fmul P x x)
        (fmul_lt P x x hP)
      have hsq : fpow P (fmul P x x) (k / 2) = fpow P x (2 * (k / 2)) := by
        rw [fpow_mul P x hP2 2 (k / 2), fpow_two P x hP2 hx]
      rcases Nat.mod_two_eq_zero_or_one k with hpar | hpar
      · have hb : decide (k % 2 = 1) = false := by simp [hpar]
        rw [hb]
        show powB P (fmul P x x) (natBits (k / 2)) = _
        rw [hrec, hsq, show 2 * (k / 2) = k from by omega]
      · have hb : decide (k % 2 = 1) = true := by simp [hpar]
        rw [hb]
        show fmul P x (powB P (fmul P x x) (natBits (k / 2))) = _
        rw [hrec, hsq]
        have : fmul P x (fpow P x (2 * (k / 2))) = fpow P x (2 * (k / 2) + 1) := rfl
        rw [this, show 2 * (k / 2) + 1 = k from by omega]

/-- Powers of one. -/
theorem fpow_one_base (P : Nat) (hP2 : 2 ≤ sz P) : ∀ (k : Nat), fpow P 1 k = 1 := by
  intro k
  induction k with
  | zero => rfl
  | succ k ih =>
    show fmul P 1 (fpow P 1 k) = 1
    rw [ih]
    exact fmul_one' P 1 (ne_zero_of_sz P hP2) (by
      have : 1 ≤ sz P - 1 := by omega
      calc (1 : Nat) < 2 ^ 1 := by norm_num
        _ ≤ 2 ^ (sz P - 1) := Nat.pow_le_pow_right (by norm_num) this)

/-- Units are closed under exponent gcd. -/
theorem fpow_gcd_one (P x : Nat) (hP2 : 2 ≤ sz P) :
    ∀ (a b : Nat), fpow P x a = 1 → fpow P x b = 1 → fpow P x (Nat.gcd a b) = 1 := by
  have hP : P ≠ 0 := ne_zero_of_sz P hP2
  intro a
  induction a using Nat.strong_induction_on with
  | _ a ih =>
    intro b ha hb
    rcases Nat.eq_zero_or_pos a with rfl | hpos
    · rw [Nat.gcd_zero_left]
      exact hb
    · rw [Nat.gcd_rec a b]
      have hsplit : b = a * (b / a) + b % a := by
        rw [Nat.add_comm, Nat.mod_add_div b a]
      have hba : fpow P x (b % a) = 1 := by
        have h1 : fpow P x b = fmul P (fpow P x (a * (b / a))) (fpow P x (b % a)) := by
          conv_lhs => rw [hsplit]
          exact fpow_add P x hP2 _ _
        have h2 : fpow P x (a * (b / a)) = 1 := by
          rw [fpow_mul P x hP2, ha, fpow_one_base P hP2]
        rw [h2, hb] at h1
        rw [one_fmul' P _ hP (fpow_lt P x _ hP2)] at h1
        exact h1.symm
      exact ih (b % a) (Nat.mod_lt b hpos) a hba ha

/-- If `x` has order `s1` witnessed at the maximal divisors, no smaller
positive exponent is a unit. -/
theorem no_small_pow (P x s1 : Nat) (hP2 : 2 ≤ sz P) (hs1 : 0 < s1)
    (h1 : fpow P x s1 = 1)
    (hq : ∀ q, Nat.Prime q → q ∣ s1 → fpow P x (s1 / q) ≠ 1) :
    ∀ m, 0 < m → m < s1 → fpow P x m ≠ 1 := by
  intro m hm hlt hunit
  have hd := fpow_gcd_one P x hP2 m s1 hunit h1
  set d := Nat.gcd m s1 with hdd
  have hdvd : d ∣ s1 := Nat.gcd_dvd_right m s1
  have hdpos : 0 < d := Nat.gcd_pos_of_pos_left _ hm
  have hdle : d ≤ m := Nat.le_of_dvd hm (Nat.gcd_dvd_left m s1)
  have hdlt : d < s1 := lt_of_le_of_lt hdle hlt
  obtain ⟨t, ht⟩ := hdvd
  have ht0 : t ≠ 0 := by
    intro h0
    rw [h0, Nat.mul_zero] at ht
    omega
  have ht1 : t ≠ 1 := by
    intro h0
    rw [h0, Nat.mul_one] at ht
    omega
  set q := Nat.minFac t with hqdef
  have hqp : Nat.Prime q := Nat.minFac_prime ht1
  have hqt : q ∣ t := Nat.minFac_dvd t
  have hq1 : q ∣ s1 := by
    rw [ht]
    exact Dvd.dvd.mul_left hqt d
  obtain ⟨u, hu⟩ := hqt
  have hsq : s1 / q = d * u := by
    rw [ht, hu, show d * (q * u) = q * (d * u) from by ring]
    exact Nat.mul_div_cancel_left _ hqp.pos
  have hcontra : fpow P x (s1 / q) = 1 := by
    rw [hsq, fpow_mul P x hP2, hd, fpow_one_base P hP2]
  exact hq q hqp hq1 hcontra

/-- Powers below the order are pairwise distinct. -/
theorem fpow_inj (P x s1 : Nat) (hP2 : 2 ≤ sz P)
    (h1 : fpow P x s1 = 1)
    (hsmall : ∀ m, 0 < m → m < s1 → fpow P x m ≠ 1) :
    ∀ i j, i < j → j < s1 → fpow P x i ≠ fpow P x j := by
  have hP : P ≠ 0 := ne_zero_of_sz P hP2
  intro i j hij hj heq
  have hkey : fpow P x (s1 - (j - i)) = 1 := by
    have e1 : fpow P x (i + (s1 - j)) = fmul P (fpow P x i) (fpow P x (s1 - j)) :=
      fpow_add P x hP2 _ _
    have e2 : fpow P x (j + (s1 - j)) = fmul P (fpow P x j) (fpow P x (s1 - j)) :=
      fpow_add P x hP2 _ _
    have e3 : j + (s1 - j) = s1 := by omega
    have e4 : i + (s1 - j) = s1 - (j - i) := by omega
    rw [e3, h1] at e2
    rw [e4] at e1
    rw [e1, heq, ← e2]
  have hb1 : 0 < s1 - (j - i) := by omega
  have hb2 : s1 - (j - i) < s1 := by omega
  exact hsmall _ hb1 hb2 hkey

/-- Powers of a unit-order element are nonzero. -/
theorem fpow_ne_zero (P x s1 : Nat) (hP2 : 2 ≤ sz P) (h1 : fpow P x s1 = 1) :
    ∀ i, i ≤ s1 → fpow P x i ≠ 0 := by
  have hP : P ≠ 0 := ne_zero_of_sz P hP2
  intro i hi h0
  have e1 : fpow P x (i + (s1 - i)) = fmul P (fpow P x i) (fpow P x (s1 - i)) :=
    fpow_add P x hP2 _ _
  rw [show i + (s1 - i) = s1 from by omega, h1, h0, zero_fmul' P _ hP] at e1
  exact one_ne_zero e1

/-- Surjectivity of the power map onto the nonzero residues: counting the
`2^(sz P - 1) - 1` pairwise-distinct nonzero powers. -/
theorem fpow_surj (P x : Nat) (hP2 : 2 ≤ sz P)
    (h1 : fpow P x (2 ^ (sz P - 1) - 1) = 1)
    (hsmall : ∀ m, 0 < m → m < 2 ^ (sz P - 1) - 1 → fpow P x m ≠ 1) :
    ∀ a, 0 < a → a < 2 ^ (sz P - 1) → ∃ i, i < 2 ^ (sz P - 1) - 1 ∧ fpow P x i = a := by
  have hP : P ≠ 0 := ne_zero_of_sz P hP2
  set s := 2 ^ (sz P - 1) with hsdef
  have hspos : 2 ≤ s := by
    have h' : 1 ≤ sz P - 1 := by omega
    calc (2 : Nat) = 2 ^ 1 := by norm_num
      _ ≤ 2 ^ (sz P - 1) := Nat.pow_le_pow_right (by norm_num) h'
  set T := (Finset.range (s - 1)).image (fun i => fpow P x i) with hT
  have hinj : Set.InjOn (fun i => fpow P x i) ↑(Finset.range (s - 1)) := by
    intro i hi j hj hij
    simp only [Finset.coe_range, Set.mem_Iio] at hi hj
    by_contra hne
    rcases Nat.lt_or_ge i j with hlt | hge
    · exact fpow_inj P x (s - 1) hP2 h1 hsmall i j hlt hj hij
    · have hlt : j < i := by omega
      exact fpow_inj P x (s - 1) hP2 h1 hsmall j i hlt hi hij.symm
  have hcardT : T.card = s - 1 := by
    rw [hT, Finset.card_image_of_injOn hinj, Finset.card_range]
  have hsub : T ⊆ (Finset.range s).erase 0 := by
    intro a ha
    rw [hT] at ha
    obtain ⟨i, hi, rfl⟩ := Finset.mem_image.mp ha
    rw [Finset.mem_range] at hi
    apply Finset.mem_erase.mpr
    constructor
    · exact fpow_ne_zero P x (s - 1) hP2 h1 i (by omega)
    · rw [Finset.mem_range]
      exact fpow_lt P x i hP2
  have hcardE : ((Finset.range s).erase 0).card = s - 1 := by
    rw [Finset.card_erase_of_mem (Finset.mem_range.mpr (by omega)), Finset.card_range]
  have heq : T = (Finset.range s).erase 0 :=
    Finset.eq_of_subset_of_card_le hsub (by omega)
  intro a ha has
  have hmem : a ∈ (Finset.range s).erase 0 :=
    Finset.mem_erase.mpr ⟨by omega, Finset.mem_range.mpr has⟩
  rw [← heq, hT] at hmem
  obtain ⟨i, hi, hfi⟩ := Finset.mem_image.mp hmem
  exact ⟨i, Finset.mem_range.mp hi, hfi⟩

/-! ## The concrete moduli: GF(2^n) for n = 3..20 -/

/-- The modulus of GF(2^n): `x^n` plus the primitive-polynomial low bits. -/
def Pmod (n : Nat) : Nat := 2 ^ n + primitive_polynomial n

/-- The primitive-polynomial entries are below `2^n`. -/
theorem pp_lt (n : Nat) (h3 : 3 ≤ n) (h20 : n ≤ 20) : primitive_polynomial n < 2 ^ n := by
  interval_cases n <;> decide

/-- Bit length of the modulus. -/
theorem sz_Pmod (n : Nat) (h3 : 3 ≤ n) (h20 : n ≤ 20) : sz (Pmod n) = n + 1 := by
  have hpp := pp_lt n h3 h20
  apply sz_of_window
  · unfold Pmod
    omega
  · unfold Pmod
    rw [pow_succ]
    omega

/-- Scaffolding: the two kernel checks (full order, and the maximal
divisors) give the order facts for `x = 2` in GF(2^n). -/
theorem ord_of_checks (n : Nat) (h3 : 3 ≤ n) (h20 : n ≤ 20)
    (hchk1 : powB (Pmod n) 2 (natBits (2 ^ n - 1)) = 1)
    (hqchk : ∀ q, Nat.Prime q → q ∣ 2 ^ n - 1 →
      powB (Pmod n) 2 (natBits ((2 ^ n - 1) / q)) ≠ 1) :
    fpow (Pmod n) 2 (2 ^ n - 1) = 1 ∧
      ∀ m, 0 < m → m < 2 ^ n - 1 → fpow (Pmod n) 2 m ≠ 1 := by
  have hsz : sz (Pmod n) = n + 1 := sz_Pmod n h3 h20
  have hP2 : 2 ≤ sz (Pmod n) := by omega
  have hx2 : (2 : Nat) < 2 ^ (sz (Pmod n) - 1) := by
    rw [hsz, Nat.add_sub_cancel]
    calc (2 : Nat) = 2 ^ 1 := by norm_num
      _ < 2 ^ n := Nat.pow_lt_pow_right (by norm_num) (by omega)
  have hconv : ∀ k, fpow (Pmod n) 2 k = powB (Pmod n) 2 (natBits k) :=
    fun k => (powB_correct (Pmod n) hP2 k 2 hx2).symm
  have h1 : fpow (Pmod n) 2 (2 ^ n - 1) = 1 := by
    rw [hconv]
    exact hchk1
  refine ⟨h1, ?_⟩
  have hpos : 0 < 2 ^ n - 1 := by
    have : (2 : Nat) ^ 1 ≤ 2 ^ n := Nat.pow_le_pow_right (by norm_num) (by omega)
    omega
  apply no_small_pow (Pmod n) 2 (2 ^ n - 1) hP2 hpos h1
  intro q hqp hdvd
  rw [hconv]
  exact hqchk q hqp hdvd


/-- Order checks for n = 3: the element 2 generates GF(2^3)*. -/
theorem ordFact3 : fpow (Pmod 3) 2 (2 ^ 3 - 1) = 1 ∧
    ∀ m, 0 < m → m < 2 ^ 3 - 1 → fpow (Pmod 3) 2 m ≠ 1 := by
  apply ord_of_checks 3 (by norm_num) (by norm_num)
  · decide
  · intro q hq hdvd
    have he : (2 : Nat) ^ 3 - 1 = 7 := by norm_num
    rw [he] at hdvd
    have hqe : q = 7 := (Nat.prime_dvd_prime_iff_eq hq (by norm_num)).mp hdvd
    subst hqe
    decide

/-- Order checks for n = 4: the element 2 generates GF(2^4)*. -/
theorem ordFact4 : fpow (Pmod 4) 2 (2 ^ 4 - 1) = 1 ∧
    ∀ m, 0 < m → m < 2 ^ 4 - 1 → fpow (Pmod 4) 2 m ≠ 1 := by
  apply ord_of_checks 4 (by norm_num) (by norm_num)
  · decide
  · intro q hq hdvd
    have h0 : q ∣ 3 * 5 := by
      have he : (2 : Nat) ^ 4 - 1 = 3 * 5 := by norm_num
      rwa [he] at hdvd
    rcases (Nat.Prime.dvd_mul hq).mp h0 with h | h
    · have hqe : q = 3 := (Nat.prime_dvd_prime_iff_eq hq (by norm_num)).mp h
      subst hqe
      decide
    · have hqe : q = 5 := (Nat.prime_dvd_prime_iff_eq hq (by norm_num)).mp h
      subst hqe
      decide

/-- Order checks for n = 5: the element 2 generates GF(2^5)*. -/
theorem ordFact5 : fpow (Pmod 5) 2 (2 ^ 5 - 1) = 1 ∧
    ∀ m, 0 < m → m < 2 ^ 5 - 1 → fpow (Pmod 5) 2 m ≠ 1 := by
  apply ord_of_checks 5 (by norm_num) (by norm_num)
  · decide
  · intro q hq hdvd
    have he : (2 : Nat) ^ 5 - 1 = 31 := by norm_num
    rw [he] at hdvd
    have hqe : q = 31 := (Nat.prime_dvd_prime_iff_eq hq (by norm_num)).mp hdvd
    subst hqe
    decide

/-- Order checks for n = 6: the element 2 generates GF(2^6)*. -/
theorem ordFact6 : fpow (Pmod 6) 2 (2 ^ 6 - 1) = 1 ∧
    ∀ m, 0 < m → m < 2 ^ 6 - 1 → fpow (Pmod 6) 2 m ≠ 1 := by
  apply ord_of_checks 6 (by norm_num) (by norm_num)
  · decide
  · intro q hq hdvd
    have h0 : q ∣ 3 * 21 := by
      have he : (2 : Nat) ^ 6 - 1 = 3 * 21 := by norm_num
      rwa [he] at hdvd
    rcases (Nat.Prime.dvd_mul hq).mp h0 with h | h
    · have hqe : q = 3 := (Nat.prime_dvd_prime_iff_eq hq (by norm_num)).mp h
      subst hqe
      decide
    · have h1 : q ∣ 3 * 7 := by
        have he : (21 : Nat) = 3 * 7 := by norm_num
        rwa [he] at h
      rcases (Nat.Prime.dvd_mul hq).mp h1 with h | h
      · have hqe : q = 3 := (Nat.prime_dvd_prime_iff_eq hq (by norm_num)).mp h
        subst hqe
        decide
      · have hqe : q = 7 := (Nat.prime_dvd_prime_iff_eq hq (by norm_num)).mp h
        subst hqe
        decide

/-- Order checks for n = 7: the element 2 generates GF(2^7)*. -/
theorem ordFact7 : fpow (Pmod 7) 2 (2 ^ 7 - 1) = 1 ∧
    ∀ m, 0 < m → m < 2 ^ 7 - 1 → fpow (Pmod 7) 2 m ≠ 1 := by
  apply ord_of_checks 7 (by norm_num) (by norm_num)
  · decide
  · intro q hq hdvd
    have he : (2 : Nat) ^ 7 - 1 = 127 := by norm_num
    rw [he] at hdvd
    have hqe : q = 127 := (Nat.prime_dvd_prime_iff_eq hq (by norm_num)).mp hdvd
    subst hqe
    decide

/-- Order checks for n = 8: the element 2 generates GF(2^8)*. -/
theorem ordFact8 : fpow (Pmod 8) 2 (2 ^ 8 - 1) = 1 ∧
    ∀ m, 0 < m → m < 2 ^ 8 - 1 → fpow (Pmod 8) 2 m ≠ 1 := by
  apply ord_of_checks 8 (by norm_num) (by norm_num)
  · decide
  · intro q hq hdvd
    have h0 : q ∣ 3 * 85 := by
      have he : (2 : Nat) ^ 8 - 1 = 3 * 85 := by norm_num
      rwa [he] at hdvd
    rcases (Nat.Prime.dvd_mul hq).mp h0 with h | h
    · have hqe : q = 3 := (Nat.prime_dvd_prime_iff_eq hq (by norm_num)).mp h
      subst hqe
      decide
    · have h1 : q ∣ 5 * 17 := by
        have he : (85 : Nat) = 5 * 17 := by norm_num
        rwa [he] at h
      rcases (Nat.Prime.dvd_mul hq).mp h1 with h | h
      · have hqe : q = 5 := (Nat.prime_dvd_prime_iff_eq hq (by norm_num)).mp h
        subst hqe
        decide
      · have hqe : q = 17 := (Nat.prime_dvd_prime_iff_eq hq (by norm_num)).mp h
        subst hqe
        decide

/-- Order checks for n = 9: the element 2 generates GF(2^9)*. -/
theorem ordFact9 : fpow (Pmod 9) 2 (2 ^ 9 - 1) = 1 ∧
    ∀ m, 0 < m → m < 2 ^ 9 - 1 → fpow (Pmod 9) 2 m ≠ 1 := by
  apply ord_of_checks 9 (by norm_num) (by norm_num)
  · decide
  · intro q hq hdvd
    have h0 : q ∣ 7 * 73 := by
      have he : (2 : Nat) ^ 9 - 1 = 7 * 73 := by norm_num
      rwa [he] at hdvd
    rcases (Nat.Prime.dvd_mul hq).mp h0 with h | h
    · have hqe : q = 7 := (Nat.prime_dvd_prime_iff_eq hq (by norm_num)).mp h
      subst hqe
      decide
    · have hqe : q = 73 := (Nat.prime_dvd_prime_iff_eq hq (by norm_num)).mp h
      subst hqe
      decide

/-- Order checks for n = 10: the element 2 generates GF(2^10)*. -/
theorem ordFact10 : fpow (Pmod 10) 2 (2 ^ 10 - 1) = 1 ∧
    ∀ m, 0 < m → m < 2 ^ 10 - 1 → fpow (Pmod 10) 2 m ≠ 1 := by
  apply ord_of_checks 10 (by norm_num) (by norm_num)
  · decide
  · intro q hq hdvd
    have h0 : q ∣ 3 * 341 := by
      have he : (2 : Nat) ^ 10 - 1 = 3 * 341 := by norm_num
      rwa [he] at hdvd
    rcases (Nat.Prime.dvd_mul hq).mp h0 with h | h
    · have hqe : q = 3 := (Nat.prime_dvd_prime_iff_eq hq (by norm_num)).mp h
      subst hqe
      decide
    · have h1 : q ∣ 11 * 31 := by
        have he : (341 : Nat) = 11 * 31 := by norm_num
        rwa [he] at h
      rcases (Nat.Prime.dvd_mul hq).mp h1 with h | h
      · have hqe : q = 11 := (Nat.prime_dvd_prime_iff_eq hq (by norm_num)).mp h
        subst hqe
        decide
      · have hqe : q = 31 := (Nat.prime_dvd_prime_iff_eq hq (by norm_num)).mp h
        subst hqe
        decide

/-- Order checks for n = 11: the element 2 generates GF(2^11)*. -/
theorem ordFact11 : fpow (Pmod 11) 2 (2 ^ 11 - 1) = 1 ∧
    ∀ m, 0 < m → m < 2 ^ 11 - 1 → fpow (Pmod 11) 2 m ≠ 1 := by
  apply ord_of_checks 11 (by norm_num) (by norm_num)
  · decide
  · intro q hq hdvd
    have h0 : q ∣ 23 * 89 := by
      have he : (2 : Nat) ^ 11 - 1 = 23 * 89 := by norm_num
      rwa [he] at hdvd
    rcases (Nat.Prime.dvd_mul hq).mp h0 with h | h
    · have hqe : q = 23 := (Nat.prime_dvd_prime_iff_eq hq (by norm_num)).mp h
      subst hqe
      decide
    · have hqe : q = 89 := (Nat.prime_dvd_prime_iff_eq hq (by norm_num)).mp h
      subst hqe
      decide

/-- Order checks for n = 12: the element 2 generates GF(2^12)*. -/
theorem ordFact12 : fpow (Pmod 12) 2 (2 ^ 12 - 1) = 1 ∧
    ∀ m, 0 < m → m < 2 ^ 12 - 1 → fpow (Pmod 12) 2 m ≠ 1 := by
  apply ord_of_checks 12 (by norm_num) (by norm_num)
  · decide
  · intro q hq hdvd
    have h0 : q ∣ 3 * 1365 := by
      have he : (2 : Nat) ^ 12 - 1 = 3 * 1365 := by norm_num
      rwa [he] at hdvd
    rcases (Nat.Prime.dvd_mul hq).mp h0 with h | h
    · have hqe : q = 3 := (Nat.prime_dvd_prime_iff_eq hq (by norm_num)).mp h
      subst hqe
      decide
    · have h1 : q ∣ 3 * 455 := by
        have he : (1365 : Nat) = 3 * 455 := by norm_num
        rwa [he] at h
      rcases (Nat.Prime.dvd_mul hq).mp h1 with h | h
      · have hqe : q = 3 := (Nat.prime_dvd_prime_iff_eq hq (by norm_num)).mp h
        subst hqe
        decide
      · have h2 : q ∣ 5 * 91 := by
          have he : (455 : Nat) = 5 * 91 := by norm_num
          rwa [he] at h
        rcases (Nat.Prime.dvd_mul hq).mp h2 with h | h
        · have hqe : q = 5 := (Nat.prime_dvd_prime_iff_eq hq (by norm_num)).mp h
          subst hqe
          decide
        · have h3 : q ∣ 7 * 13 := by
            have he : (91 : Nat) = 7 * 13 := by norm_num
            rwa [he] at h
          rcases (Nat.Prime.dvd_mul hq).mp h3 with h | h
          · have hqe : q = 7 := (Nat.prime_dvd_prime_iff_eq hq (by norm_num)).mp h
            subst hqe
            decide
          · have hqe : q = 13 := (Nat.prime_dvd_prime_iff_eq hq (by norm_num)).mp h
            subst hqe
            decide

/-- Order checks for n = 13: the element 2 generates GF(2^13)*. -/
theorem ordFact13 : fpow (Pmod 13) 2 (2 ^ 13 - 1) = 1 ∧
    ∀ m, 0 < m → m < 2 ^ 13 - 1 → fpow (Pmod 13) 2 m ≠ 1 := by
  apply ord_of_checks 13 (by norm_num) (by norm_num)
  · decide
  · intro q hq hdvd
    have he : (2 : Nat) ^ 13 - 1 = 8191 := by norm_num
    rw [he] at hdvd
    have hqe : q = 8191 := (Nat.prime_dvd_prime_iff_eq hq (by norm_num)).mp hdvd
    subst hqe
    decide

/-- Order checks for n = 14: the element 2 generates GF(2^14)*. -/
theorem ordFact14 : fpow (Pmod 14) 2 (2 ^ 14 - 1) = 1 ∧
    ∀ m, 0 < m → m < 2 ^ 14 - 1 → fpow (Pmod 14) 2 m ≠ 1 := by
  apply ord_of_checks 14 (by norm_num) (by norm_num)
  · decide
  · intro q hq hdvd
    have h0 : q ∣ 3 * 5461 := by
      have he : (2 : Nat) ^ 14 - 1 = 3 * 5461 := by norm_num
      rwa [he] at hdvd
    rcases (Nat.Prime.dvd_mul hq).mp h0 with h | h
    · have hqe : q = 3 := (Nat.prime_dvd_prime_iff_eq hq (by norm_num)).mp h
      subst hqe
      decide
    · have h1 : q ∣ 43 * 127 := by
        have he : (5461 : Nat) = 43 * 127 := by norm_num
        rwa [he] at h
      rcases (Nat.Prime.dvd_mul hq).mp h1 with h | h
      · have hqe : q = 43 := (Nat.prime_dvd_prime_iff_eq hq (by norm_num)).mp h
        subst hqe
        decide
      · have hqe : q = 127 := (Nat.prime_dvd_prime_iff_eq hq (by norm_num)).mp h
        subst hqe
        decide

/-- Order checks for n = 15: the element 2 generates GF(2^15)*. -/
theorem ordFact15 : fpow (Pmod 15) 2 (2 ^ 15 - 1) = 1 ∧
    ∀ m, 0 < m → m < 2 ^ 15 - 1 → fpow (Pmod 15) 2 m ≠ 1 := by
  apply ord_of_checks 15 (by norm_num) (by norm_num)
  · decide
  · intro q hq hdvd
    have h0 : q ∣ 7 * 4681 := by
      have he : (2 : Nat) ^ 15 - 1 = 7 * 4681 := by norm_num
      rwa [he] at hdvd
    rcases (Nat.Prime.dvd_mul hq).mp h0 with h | h
    · have hqe : q = 7 := (Nat.prime_dvd_prime_iff_eq hq (by norm_num)).mp h
      subst hqe
      decide
    · have h1 : q ∣ 31 * 151 := by
        have he : (4681 : Nat) = 31 * 151 := by norm_num
        rwa [he] at h
      rcases (Nat.Prime.dvd_mul hq).mp h1 with h | h
      · have hqe : q = 31 := (Nat.prime_dvd_prime_iff_eq hq (by norm_num)).mp h
        subst hqe
        decide
      · have hqe : q = 151 := (Nat.prime_dvd_prime_iff_eq hq (by norm_num)).mp h
        subst hqe
        decide

/-- Order checks for n = 16: the element 2 generates GF(2^16)*. -/
theorem ordFact16 : fpow (Pmod 16) 2 (2 ^ 16 - 1) = 1 ∧
    ∀ m, 0 < m → m < 2 ^ 16 - 1 → fpow (Pmod 16) 2 m ≠ 1 := by
  apply ord_of_checks 16 (by norm_num) (by norm_num)
  · decide
  · intro q hq hdvd
    have h0 : q ∣ 3 * 21845 := by
      have he : (2 : Nat) ^ 16 - 1 = 3 * 21845 := by norm_num
      rwa [he] at hdvd
    rcases (Nat.Prime.dvd_mul hq).mp h0 with h | h
    · have hqe : q = 3 := (Nat.prime_dvd_prime_iff_eq hq (by norm_num)).mp h
      subst hqe
      decide
    · have h1 : q ∣ 5 * 4369 := by
        have he : (21845 : Nat) = 5 * 4369 := by norm_num
        rwa [he] at h
      rcases (Nat.Prime.dvd_mul hq).mp h1 with h | h
      · have hqe : q = 5 := (Nat.prime_dvd_prime_iff_eq hq (by norm_num)).mp h
        subst hqe
        decide
      · have h2 : q ∣ 17 * 257 := by
          have he : (4369 : Nat) = 17 * 257 := by norm_num
          rwa [he] at h
        rcases (Nat.Prime.dvd_mul hq).mp h2 with h | h
        · have hqe : q = 17 := (Nat.prime_dvd_prime_iff_eq hq (by norm_num)).mp h
          subst hqe
          decide
        · have hqe : q = 257 := (Nat.prime_dvd_prime_iff_eq hq (by norm_num)).mp h
          subst hqe
          decide

/-- Order checks for n = 17: the element 2 generates GF(2^17)*. -/
theorem ordFact17 : fpow (Pmod 17) 2 (2 ^ 17 - 1) = 1 ∧
    ∀ m, 0 < m → m < 2 ^ 17 - 1 → fpow (Pmod 17) 2 m ≠ 1 := by
  apply ord_of_checks 17 (by norm_num) (by norm_num)
  · decide
  · intro q hq hdvd
    have he : (2 : Nat) ^ 17 - 1 = 131071 := by norm_num
    rw [he] at hdvd
    have hqe : q = 131071 := (Nat.prime_dvd_prime_iff_eq hq (by norm_num)).mp hdvd
    subst hqe
    decide

/-- Order checks for n = 18: the element 2 generates GF(2^18)*. -/
theorem ordFact18 : fpow (Pmod 18) 2 (2 ^ 18 - 1) = 1 ∧
    ∀ m, 0 < m → m < 2 ^ 18 - 1 → fpow (Pmod 18) 2 m ≠ 1 := by
  apply ord_of_checks 18 (by norm_num) (by norm_num)
  · decide
  · intro q hq hdvd
    have h0 : q ∣ 3 * 87381 := by
      have he : (2 : Nat) ^ 18 - 1 = 3 * 87381 := by norm_num
      rwa [he] at hdvd
    rcases (Nat.Prime.dvd_mul hq).mp h0 with h | h
    · have hqe : q = 3 := (Nat.prime_dvd_prime_iff_eq hq (by norm_num)).mp h
      subst hqe
      decide
    · have h1 : q ∣ 3 * 29127 := by
        have he : (87381 : Nat) = 3 * 29127 := by norm_num
        rwa [he] at h
      rcases (Nat.Prime.dvd_mul hq).mp h1 with h | h
      · have hqe : q = 3 := (Nat.prime_dvd_prime_iff_eq hq (by norm_num)).mp h
        subst hqe
        decide
      · have h2 : q ∣ 3 * 9709 := by
          have he : (29127 : Nat) = 3 * 9709 := by norm_num
          rwa [he] at h
        rcases (Nat.Prime.dvd_mul hq).mp h2 with h | h
        · have hqe : q = 3 := (Nat.prime_dvd_prime_iff_eq hq (by norm_num)).mp h
          subst hqe
          decide
        · have h3 : q ∣ 7 * 1387 := by
            have he : (9709 : Nat) = 7 * 1387 := by norm_num
            rwa [he] at h
          rcases (Nat.Prime.dvd_mul hq).mp h3 with h | h
          · have hqe : q = 7 := (Nat.prime_dvd_prime_iff_eq hq (by norm_num)).mp h
            subst hqe
            decide
          · have h4 : q ∣ 19 * 73 := by
              have he : (1387 : Nat) = 19 * 73 := by norm_num
              rwa [he] at h
            rcases (Nat.Prime.dvd_mul hq).mp h4 with h | h
            · have hqe : q = 19 := (Nat.prime_dvd_prime_iff_eq hq (by norm_num)).mp h
              subst hqe
              decide
            · have hqe : q = 73 := (Nat.prime_dvd_prime_iff_eq hq (by norm_num)).mp h
              subst hqe
              decide

/-- Order checks for n = 19: the element 2 generates GF(2^19)*. -/
theorem ordFact19 : fpow (Pmod 19) 2 (2 ^ 19 - 1) = 1 ∧
    ∀ m, 0 < m → m < 2 ^ 19 - 1 → fpow (Pmod 19) 2 m ≠ 1 := by
  apply ord_of_checks 19 (by norm_num) (by norm_num)
  · decide
  · intro q hq hdvd
    have he : (2 : Nat) ^ 19 - 1 = 524287 := by norm_num
    rw [he] at hdvd
    have hqe : q = 524287 := (Nat.prime_dvd_prime_iff_eq hq (by norm_num)).mp hdvd
    subst hqe
    decide

/-- Order checks for n = 20: the element 2 generates GF(2^20)*. -/
theorem ordFact20 : fpow (Pmod 20) 2 (2 ^ 20 - 1) = 1 ∧
    ∀ m, 0 < m → m < 2 ^ 20 - 1 → fpow (Pmod 20) 2 m ≠ 1 := by
  apply ord_of_checks 20 (by norm_num) (by norm_num)
  · decide
  · intro q hq hdvd
    have h0 : q ∣ 3 * 349525 := by
      have he : (2 : Nat) ^ 20 - 1 = 3 * 349525 := by norm_num
      rwa [he] at hdvd
    rcases (Nat.Prime.dvd_mul hq).mp h0 with h | h
    · have hqe : q = 3 := (Nat.prime_dvd_prime_iff_eq hq (by norm_num)).mp h
      subst hqe
      decide
    · have h1 : q ∣ 5 * 69905 := by
        have he : (349525 : Nat) = 5 * 69905 := by norm_num
        rwa [he] at h
      rcases (Nat.Prime.dvd_mul hq).mp h1 with h | h
      · have hqe : q = 5 := (Nat.prime_dvd_prime_iff_eq hq (by norm_num)).mp h
        subst hqe
        decide
      · have h2 : q ∣ 5 * 13981 := by
          have he : (69905 : Nat) = 5 * 13981 := by norm_num
          rwa [he] at h
        rcases (Nat.Prime.dvd_mul hq).mp h2 with h | h
        · have hqe : q = 5 := (Nat.prime_dvd_prime_iff_eq hq (by norm_num)).mp h
          subst hqe
          decide
        · have h3 : q ∣ 11 * 1271 := by
            have he : (13981 : Nat) = 11 * 1271 := by norm_num
            rwa [he] at h
          rcases (Nat.Prime.dvd_mul hq).mp h3 with h | h
          · have hqe : q = 11 := (Nat.prime_dvd_prime_iff_eq hq (by norm_num)).mp h
            subst hqe
            decide
          · have h4 : q ∣ 31 * 41 := by
              have he : (1271 : Nat) = 31 * 41 := by norm_num
              rwa [he] at h
            rcases (Nat.Prime.dvd_mul hq).mp h4 with h | h
            · have hqe : q = 31 := (Nat.prime_dvd_prime_iff_eq hq (by norm_num)).mp h
              subst hqe
              decide
            · have hqe : q = 41 := (Nat.prime_dvd_prime_iff_eq hq (by norm_num)).mp h
              subst hqe
              decide


/-! ## The generation loop computes the powers of X = 2 -/

/-- Adding a value below `2^n` to `2^n` is an XOR (disjoint supports). -/
theorem two_pow_add_eq_xor (n a : Nat) (h : a < 2 ^ n) : 2 ^ n + a = 2 ^ n ^^^ a := by
  apply Nat.eq_of_testBit_eq
  intro i
  rcases Nat.lt_trichotomy i n with hi | rfl | hi
  · have h1 : (2 ^ n).testBit i = false := Nat.testBit_two_pow_of_ne (by omega)
    rw [Nat.testBit_xor, h1, Bool.false_xor, Nat.testBit_to_div_mod, Nat.testBit_to_div_mod]
    have hsplit : 2 ^ n = 2 ^ i * 2 ^ (n - i) := by
      rw [← pow_add]
      congr 1
      omega
    have hdiv : (2 ^ n + a) / 2 ^ i = 2 ^ (n - i) + a / 2 ^ i := by
      rw [hsplit, show 2 ^ i * 2 ^ (n - i) + a = 2 ^ i * 2 ^ (n - i) + a from rfl,
        Nat.mul_add_div (Nat.pos_pow_of_pos _ (by norm_num))]
    rw [hdiv]
    have heven : 2 ^ (n - i) % 2 = 0 := by
      have h2 : n - i = (n - i - 1) + 1 := by omega
      rw [h2, pow_succ]
      omega
    simp only [decide_eq_decide]
    omega
  · rw [Nat.testBit_xor, Nat.testBit_two_pow_self, Nat.testBit_lt_two_pow h, Bool.xor_false,
      Nat.testBit_to_div_mod]
    have hdiv : (2 ^ i + a) / 2 ^ i = 1 := Nat.div_eq_of_lt_le (by omega) (by omega)
    simp [hdiv]
  · have h2 : 2 ^ n + a < 2 ^ i := by
      have h3 : 2 ^ (n + 1) ≤ 2 ^ i := Nat.pow_le_pow_right (by norm_num) (by omega)
      rw [pow_succ] at h3
      omega
    rw [Nat.testBit_xor, Nat.testBit_lt_two_pow h2,
      Nat.testBit_two_pow_of_ne (by omega : n ≠ i),
      Nat.testBit_lt_two_pow (by omega : a < 2 ^ i)]
    rfl

/-- In the window `[2^n, 2^(n+1))`, reducing mod `2^n` is clearing bit `n`. -/
theorem window_mod_eq_xor (v n : Nat) (h1 : 2 ^ n ≤ v) (h2 : v < 2 ^ (n + 1)) :
    v % 2 ^ n = v ^^^ 2 ^ n := by
  have hw : v - 2 ^ n < 2 ^ n := by
    rw [pow_succ] at h2
    omega
  have hveq : v = 2 ^ n + (v - 2 ^ n) := by omega
  have e1 : v % 2 ^ n = v - 2 ^ n := by
    conv_lhs => rw [hveq]
    rw [Nat.add_mod_left]
    exact Nat.mod_eq_of_lt hw
  have e2 : v ^^^ 2 ^ n = v - 2 ^ n := by
    conv_lhs => rw [hveq, two_pow_add_eq_xor n _ hw]
    rw [Nat.xor_comm (2 ^ n) (v - 2 ^ n), Nat.xor_assoc, Nat.xor_self, Nat.xor_zero]
  rw [e1, e2]

/-- The loop's update of `x` (`src/shares.rs` lines 446-450) is
multiplication by the element X = 2 of GF(2^n). -/
theorem genStep_x (n x : Nat) (h3 : 3 ≤ n) (h20 : n ≤ 20) (hx : x < 2 ^ n) :
    (if x <<< 1 ≥ 2 ^ n then (x <<< 1 ^^^ primitive_polynomial n) &&& (2 ^ n - 1)
     else x <<< 1) = fmul (Pmod n) 2 x := by
  have hP : Pmod n ≠ 0 := by
    unfold Pmod
    have : 0 < 2 ^ n := Nat.pos_pow_of_pos _ (by norm_num)
    omega
  have hsz : sz (Pmod n) = n + 1 := sz_Pmod n h3 h20
  have hpp := pp_lt n h3 h20
  have hshift : x <<< 1 = 2 * x := by rw [Nat.shiftLeft_eq, pow_one, Nat.mul_comm]
  have hcl : clmul 2 x = 2 * x := by
    rw [clmul_eq]
    norm_num
    rw [one_clmul]
  have hfm : fmul (Pmod n) 2 x = pmod (2 * x) (Pmod n) := by
    unfold fmul
    rw [hcl]
  rw [hshift]
  by_cases hge : 2 * x ≥ 2 ^ n
  · rw [if_pos hge, hfm]
    have hw2 : 2 * x < 2 ^ (n + 1) := by
      rw [pow_succ]
      omega
    have hsz2x : sz (2 * x) = n + 1 := sz_of_window _ n hge hw2
    have hPw1 : 2 ^ n ≤ Pmod n := by
      unfold Pmod
      omega
    have hPw2 : Pmod n < 2 ^ (n + 1) := by
      unfold Pmod
      rw [pow_succ]
      omega
    have hxor_lt : 2 * x ^^^ Pmod n < 2 ^ n := window_xor_lt _ _ n hge hw2 hPw1 hPw2
    have hpm : pmod (2 * x) (Pmod n) = 2 * x ^^^ Pmod n := by
      rw [pmod_eq _ _ hP]
      have hc : sz (Pmod n) ≤ sz (2 * x) := by
        rw [hsz, hsz2x]
      rw [if_pos hc]
      have ht : sz (2 * x) - sz (Pmod n) = 0 := by
        rw [hsz, hsz2x]
        omega
      rw [ht, Nat.shiftLeft_zero]
      apply pmod_small _ _ hP
      rw [hsz, Nat.add_sub_cancel]
      exact hxor_lt
    rw [hpm, Nat.and_pow_two_sub_one_eq_mod]
    have hv := xor_window (2 * x) (primitive_polynomial n) n hge hw2 hpp
    rw [window_mod_eq_xor _ n hv.1 hv.2]
    have hPx : Pmod n = 2 ^ n ^^^ primitive_polynomial n := by
      unfold Pmod
      exact two_pow_add_eq_xor n _ hpp
    rw [hPx]
    apply Nat.eq_of_testBit_eq
    intro i
    simp only [Nat.testBit_xor]
    cases (2 * x).testBit i <;> cases (primitive_polynomial n).testBit i <;>
      cases (2 ^ n).testBit i <;> rfl
  · rw [if_neg hge, hfm]
    refine (pmod_small _ _ hP ?_).symm
    rw [hsz, Nat.add_sub_cancel]
    omega

/-! ## The table-generation loop invariant -/

/-- The state of the `generate_logs_and_exps` loop after `i` iterations. -/
def tbState (n i : Nat) : List (Option Nat) × List Nat × Nat :=
  (List.range i).foldl (genStep (2 ^ n) (primitive_polynomial n))
    (List.replicate (2 ^ n) none, [], 1)

/-- `generate_logs_and_exps` returns the state after `2^n` iterations. -/
theorem generate_eq_tbState (n : Nat) :
    generate_logs_and_exps n = ((tbState n (2 ^ n)).1, (tbState n (2 ^ n)).2.1) := rfl

/-- `getD` of an all-`none` list is `none`. -/
theorem replicate_getD_none (m v : Nat) :
    (List.replicate m (none : Option Nat)).getD v none = none := by
  induction m generalizing v with
  | zero => rfl
  | succ m ih =>
    cases v with
    | zero => rfl
    | succ v =>
      rw [List.replicate_succ, List.getD_cons_succ]
      exact ih v

/-- `getD` after `set` at the written index. -/
theorem set_getD_self (l : List (Option Nat)) (v : Nat) (a : Option Nat)
    (h : v < l.length) : (l.set v a).getD v none = a := by
  induction l generalizing v with
  | nil => exact absurd h (Nat.not_lt_zero v)
  | cons b t ih =>
    cases v with
    | zero => rfl
    | succ v =>
      have e : ((b :: t).set (v + 1) a).getD (v + 1) none = (t.set v a).getD v none := rfl
      rw [e]
      exact ih v (by simpa using h)

/-- The loop invariant: after `i` iterations the exponent list holds the
powers of X = 2 of GF(2^n), the running value is X^i, and each cell of
`logs` records the first exponent that produced its index. -/
def tbInv (n i : Nat) (st : List (Option Nat) × List Nat × Nat) : Prop :=
  st.1.length = 2 ^ n ∧
  st.2.1 = (List.range i).map (fpow (Pmod n) 2) ∧
  st.2.2 = fpow (Pmod n) 2 i ∧
  ∀ v, v < 2 ^ n →
    st.1.getD v none = (List.range i).find? (fun j => fpow (Pmod n) 2 j == v)

/-- The invariant holds initially. -/
theorem tbInv_zero (n : Nat) : tbInv n 0 (tbState n 0) := by
  refine ⟨?_, ?_, rfl, ?_⟩
  · simp [tbState]
  · simp [tbState]
  · intro v _
    simp only [tbState, List.range_zero, List.foldl_nil, List.find?_nil]
    exact replicate_getD_none _ v

/-- One loop iteration preserves the invariant. -/
theorem tbInv_step (n i : Nat) (h3 : 3 ≤ n) (h20 : n ≤ 20)
    (st : List (Option Nat) × List Nat × Nat) (h : tbInv n i st) :
    tbInv n (i + 1) (genStep (2 ^ n) (primitive_polynomial n) st i) := by
  unfold tbInv at h ⊢
  obtain ⟨hlen, hexps, hx, hlogs⟩ := h
  have hP2 : 2 ≤ sz (Pmod n) := by
    rw [sz_Pmod n h3 h20]
    omega
  have hxlt : st.2.2 < 2 ^ n := by
    have hlt := fpow_lt (Pmod n) 2 i hP2
    rw [sz_Pmod n h3 h20, Nat.add_sub_cancel] at hlt
    rw [hx]
    exact hlt
  refine ⟨?_, ?_, ?_, ?_⟩
  · show (if (st.1.getD st.2.2 none).isNone then st.1.set st.2.2 (some i)
      else st.1).length = 2 ^ n
    by_cases hc : (st.1.getD st.2.2 none).isNone = true
    · rw [if_pos hc, List.length_set]
      exact hlen
    · rw [if_neg hc]
      exact hlen
  · show st.2.1 ++ [st.2.2] = (List.range (i + 1)).map (fpow (Pmod n) 2)
    rw [List.range_succ, List.map_append, hexps, hx]
    rfl
  · show (if st.2.2 <<< 1 ≥ 2 ^ n
        then (st.2.2 <<< 1 ^^^ primitive_polynomial n) &&& (2 ^ n - 1)
        else st.2.2 <<< 1) = fpow (Pmod n) 2 (i + 1)
    rw [genStep_x n st.2.2 h3 h20 hxlt, hx]
    rfl
  · show ∀ v, v < 2 ^ n →
      (if (st.1.getD st.2.2 none).isNone then st.1.set st.2.2 (some i)
        else st.1).getD v none =
      (List.range (i + 1)).find? (fun j => fpow (Pmod n) 2 j == v)
    intro v hv
    rw [List.range_succ, List.find?_append]
    have hfi : List.find? (fun j => fpow (Pmod n) 2 j == v) [i] =
        if fpow (Pmod n) 2 i = v then some i else none := by
      by_cases he : fpow (Pmod n) 2 i = v
      · simp [List.find?_cons, he]
      · simp [List.find?_cons, he]
    rw [hfi]
    have hcur : st.1.getD st.2.2 none =
        (List.range i).find? (fun j => fpow (Pmod n) 2 j == st.2.2) :=
      hlogs st.2.2 hxlt
    by_cases hc : (st.1.getD st.2.2 none).isNone = true
    · rw [if_pos hc]
      have hnone : (List.range i).find? (fun j => fpow (Pmod n) 2 j == st.2.2) = none := by
        rw [← hcur]
        exact Option.isNone_iff_eq_none.mp hc
      by_cases hvq : v = st.2.2
      · subst hvq
        rw [hnone, Option.none_or, if_pos hx.symm]
        exact set_getD_self st.1 st.2.2 (some i) (by rw [hlen]; exact hxlt)
      · have e2 : (st.1.set st.2.2 (some i)).getD v none = st.1.getD v none := by
          rw [List.getD_eq_getD_get?, List.get?_set_ne _ st.1 (Ne.symm hvq),
            ← List.getD_eq_getD_get?]
        have hne : ¬ (fpow (Pmod n) 2 i = v) := by
          rw [← hx]
          exact fun hq => hvq hq.symm
        rw [e2, hlogs v hv, if_neg hne, Option.or_none]
    · rw [if_neg hc, hlogs v hv]
      by_cases he : fpow (Pmod n) 2 i = v
      · rw [if_pos he]
        have hvx : v = st.2.2 := by
          rw [hx]
          exact he.symm
        have hsome : st.1.getD st.2.2 none ≠ none := by
          intro h0
          rw [h0] at hc
          exact hc rfl
        rw [hcur, ← hvx] at hsome
        cases hfind : (List.range i).find? (fun j => fpow (Pmod n) 2 j == v) with
        | none => exact absurd hfind hsome
        | some j => rfl
      · rw [if_neg he, Option.or_none]

/-- The invariant holds after every number of iterations. -/
theorem tbInv_all (n : Nat) (h3 : 3 ≤ n) (h20 : n ≤ 20) :
    ∀ i, tbInv n i (tbState n i) := by
  intro i
  induction i with
  | zero => exact tbInv_zero n
  | succ i ih =>
    have e : tbState n (i + 1) =
        genStep (2 ^ n) (primitive_polynomial n) (tbState n i) i := by
      unfold tbState
      rw [List.range_succ, List.foldl_append, List.foldl_cons, List.foldl_nil]
    rw [e]
    exact tbInv_step n i h3 h20 _ ih

/-- The order facts for every supported `n`, by dispatch. -/
theorem ordFacts (n : Nat) (h3 : 3 ≤ n) (h20 : n ≤ 20) :
    fpow (Pmod n) 2 (2 ^ n - 1) = 1 ∧
      ∀ m, 0 < m → m < 2 ^ n - 1 → fpow (Pmod n) 2 m ≠ 1 := by
  interval_cases n
  · exact ordFact3
  · exact ordFact4
  · exact ordFact5
  · exact ordFact6
  · exact ordFact7
  · exact ordFact8
  · exact ordFact9
  · exact ordFact10
  · exact ordFact11
  · exact ordFact12
  · exact ordFact13
  · exact ordFact14
  · exact ordFact15
  · exact ordFact16
  · exact ordFact17
  · exact ordFact18
  · exact ordFact19
  · exact ordFact20

/-- The tables, described directly: `logs` has length `2^n`, `exps` lists
the powers of X = 2, and each `logs` cell holds the first matching
exponent. -/
theorem tables_spec (n : Nat) (h3 : 3 ≤ n) (h20 : n ≤ 20) :
    (generate_logs_and_exps n).1.length = 2 ^ n ∧
    (generate_logs_and_exps n).2 = (List.range (2 ^ n)).map (fpow (Pmod n) 2) ∧
    ∀ v, v < 2 ^ n →
      (generate_logs_and_exps n).1.getD v none =
        (List.range (2 ^ n)).find? (fun j => fpow (Pmod n) 2 j == v) := by
  have h := tbInv_all n h3 h20 (2 ^ n)
  unfold tbInv at h
  obtain ⟨h1, h2, _, h4⟩ := h
  rw [generate_eq_tbState]
  exact ⟨h1, h2, h4⟩

/-! ## C2: the field tables -/

/-- **C2** (confirmed).  For every n in [3,20], `generate_logs_and_exps n`
returns `logs` and `exps` both of length `2^n`, with `logs[0] = None`, and
for every x in [1, 2^n - 1] there is an index i with `logs[x] = Some i` and
`exps[i] = x`. -/
theorem C2_field_tables (n : Nat) (h3 : 3 ≤ n) (h20 : n ≤ 20) :
    (generate_logs_and_exps n).1.length = 2 ^ n ∧
    (generate_logs_and_exps n).2.length = 2 ^ n ∧
    (generate_logs_and_exps n).1.getD 0 none = none ∧
    ∀ x, 0 < x → x < 2 ^ n →
      ∃ i, i < 2 ^ n ∧ (generate_logs_and_exps n).1.getD x none = some i ∧
        (generate_logs_and_exps n).2.getD i 0 = x := by
  obtain ⟨h1, h2, h4⟩ := tables_spec n h3 h20
  have hP2 : 2 ≤ sz (Pmod n) := by
    rw [sz_Pmod n h3 h20]
    omega
  have hord := ordFacts n h3 h20
  have hpos : 0 < 2 ^ n := Nat.pos_pow_of_pos _ (by norm_num)
  refine ⟨h1, ?_, ?_, ?_⟩
  · rw [h2, List.length_map, List.length_range]
  · rw [h4 0 hpos]
    apply List.find?_eq_none.mpr
    intro j hj
    rw [List.mem_range] at hj
    intro hbeq
    simp only [beq_iff_eq] at hbeq
    exact fpow_ne_zero (Pmod n) 2 (2 ^ n - 1) hP2 hord.1 j (by omega) hbeq
  · intro x hx0 hx
    have hszr : 2 ^ (sz (Pmod n) - 1) = 2 ^ n := by
      rw [sz_Pmod n h3 h20, Nat.add_sub_cancel]
    obtain ⟨i0, hi0, hfi0⟩ := fpow_surj (Pmod n) 2 hP2
      (by rw [hszr]; exact hord.1) (by rw [hszr]; exact hord.2)
      x hx0 (by rw [hszr]; exact hx)
    rw [hszr] at hi0
    rw [h4 x hx]
    cases hfind : (List.range (2 ^ n)).find? (fun j => fpow (Pmod n) 2 j == x) with
    | none =>
      exfalso
      apply List.find?_eq_none.mp hfind i0 (List.mem_range.mpr (by omega))
      simp only [beq_iff_eq]
      exact hfi0
    | some j =>
      have hj : j < 2 ^ n := List.mem_range.mp (List.mem_of_find?_eq_some hfind)
      have hpj : fpow (Pmod n) 2 j = x := by
        have hb := List.find?_some hfind
        simpa only [beq_iff_eq] using hb
      refine ⟨j, hj, rfl, ?_⟩
      rw [h2, List.getD_eq_getD_get?, List.get?_map, List.get?_range hj]
      exact hpj

/-- `C2_field_tables` at the concrete width n = 3. -/
theorem C2_field_tables_witness :
    (generate_logs_and_exps 3).1.getD 0 none = none ∧
    ∀ x, 0 < x → x < 2 ^ 3 →
      ∃ i, i < 2 ^ 3 ∧ (generate_logs_and_exps 3).1.getD x none = some i ∧
        (generate_logs_and_exps 3).2.getD i 0 = x :=
  ⟨(C2_field_tables 3 (by norm_num) (by norm_num)).2.2.1,
   (C2_field_tables 3 (by norm_num) (by norm_num)).2.2.2⟩

/-! ## Totality facts about the tables -/

/-- `get?` below the length, in terms of `getD` (option-valued lists). -/
theorem getOpt_of_lt (l : List (Option Nat)) (v : Nat) (h : v < l.length) :
    l.get? v = some (l.getD v none) := by
  induction l generalizing v with
  | nil => exact absurd h (Nat.not_lt_zero v)
  | cons b t ih =>
    cases v with
    | zero => rfl
    | succ v => exact ih v (by simpa using h)

/-- `get?` below the length, in terms of `getD` (`Nat`-valued lists). -/
theorem getNat_of_lt (l : List Nat) (v : Nat) (h : v < l.length) :
    l.get? v = some (l.getD v 0) := by
  induction l generalizing v with
  | nil => exact absurd h (Nat.not_lt_zero v)
  | cons b t ih =>
    cases v with
    | zero => rfl
    | succ v => exact ih v (by simpa using h)

/-- Every nonzero index below `2^n` has a defined `logs` cell, holding an
exponent of 2 that reaches it. -/
theorem logs_defined (n : Nat) (h3 : 3 ≤ n) (h20 : n ≤ 20) (v : Nat)
    (hv0 : 0 < v) (hv : v < 2 ^ n) :
    ∃ i, i < 2 ^ n ∧ (generate_logs_and_exps n).1.get? v = some (some i) ∧
      fpow (Pmod n) 2 i = v := by
  obtain ⟨h1, h2, h4⟩ := tables_spec n h3 h20
  have hP2 : 2 ≤ sz (Pmod n) := by
    rw [sz_Pmod n h3 h20]
    omega
  have hord := ordFacts n h3 h20
  have hszr : 2 ^ (sz (Pmod n) - 1) = 2 ^ n := by
    rw [sz_Pmod n h3 h20, Nat.add_sub_cancel]
  obtain ⟨i0, hi0, hfi0⟩ := fpow_surj (Pmod n) 2 hP2
    (by rw [hszr]; exact hord.1) (by rw [hszr]; exact hord.2)
    v hv0 (by rw [hszr]; exact hv)
  rw [hszr] at hi0
  have hgd := h4 v hv
  cases hfind : (List.range (2 ^ n)).find? (fun j => fpow (Pmod n) 2 j == v) with
  | none =>
    exfalso
    apply List.find?_eq_none.mp hfind i0 (List.mem_range.mpr (by omega))
    simp only [beq_iff_eq]
    exact hfi0
  | some j =>
    have hj : j < 2 ^ n := List.mem_range.mp (List.mem_of_find?_eq_some hfind)
    have hpj : fpow (Pmod n) 2 j = v := by
      have hb := List.find?_some hfind
      simpa only [beq_iff_eq] using hb
    refine ⟨j, hj, ?_, hpj⟩
    rw [hfind] at hgd
    rw [getOpt_of_lt _ v (by rw [h1]; exact hv), hgd]

/-- The `exps` entry at `i < 2^n` is the power `2^i` of GF(2^n), and is
below `2^n`. -/
theorem exps_entry (n : Nat) (h3 : 3 ≤ n) (h20 : n ≤ 20) (i : Nat)
    (hi : i < 2 ^ n) :
    (generate_logs_and_exps n).2.get? i = some (fpow (Pmod n) 2 i) ∧
      fpow (Pmod n) 2 i < 2 ^ n := by
  obtain ⟨h1, h2, h4⟩ := tables_spec n h3 h20
  refine ⟨?_, ?_⟩
  · rw [h2, List.get?_map, List.get?_range hi]
    rfl
  · have hlt := fpow_lt (Pmod n) 2 i (by rw [sz_Pmod n h3 h20]; omega)
    rwa [sz_Pmod n h3 h20, Nat.add_sub_cancel] at hlt

/-! ## C3: Horner evaluation -/

/-- One step of the Horner fold: `fx` becomes
`exps[(logx + logs[fx]) mod (2^n - 1)] XOR a` when `fx ≠ 0`, else `a`. -/
def hornerStep (logx n : Nat) (logs : List (Option Nat)) (exps : List Nat)
    (fx a : Nat) : Nat :=
  if fx ≠ 0 then
    exps.getD ((logx + (logs.getD fx none).getD 0) % (2 ^ n - 1)) 0 ^^^ a
  else a

/-- The Horner fold as the code performs it: over all coefficients, from the
highest index down to index 0. -/
def hornerFold (x n : Nat) (coeffs : List Nat) (logs : List (Option Nat))
    (exps : List Nat) : Nat :=
  coeffs.reverse.foldl (hornerStep ((logs.getD x none).getD 0) n logs exps) 0

/-- The evaluation fold exactly as the specification words it: the
coefficients are taken from the highest index down to index 1 only, so the
constant coefficient is never folded in. -/
def hornerSpecFold (x n : Nat) (coeffs : List Nat) (logs : List (Option Nat))
    (exps : List Nat) : Nat :=
  (coeffs.drop 1).reverse.foldl (hornerStep ((logs.getD x none).getD 0) n logs exps) 0

/-- With the generated tables, `hornerGo` never hits a panic site and
computes the corresponding left fold, staying below `2^n`. -/
theorem hornerGo_total (n : Nat) (h3 : 3 ≤ n) (h20 : n ≤ 20) (logx : Nat) :
    ∀ (cs : List Nat) (fx : Nat), fx < 2 ^ n → (∀ a ∈ cs, a < 2 ^ n) →
      ∃ r, hornerGo logx (2 ^ n - 1) (generate_logs_and_exps n).1
          (generate_logs_and_exps n).2 fx cs = some r ∧ r < 2 ^ n ∧
        r = cs.foldl (hornerStep logx n (generate_logs_and_exps n).1
          (generate_logs_and_exps n).2) fx := by
  intro cs
  induction cs with
  | nil =>
    intro fx hfx _
    exact ⟨fx, rfl, hfx, rfl⟩
  | cons a rest ih =>
    intro fx hfx hcs
    have ha : a < 2 ^ n := hcs a (List.mem_cons_self a rest)
    have hrest : ∀ b ∈ rest, b < 2 ^ n := fun b hb => hcs b (List.mem_cons_of_mem a hb)
    by_cases h0 : fx = 0
    · subst h0
      obtain ⟨r, hr, hrlt, hreq⟩ := ih a ha hrest
      refine ⟨r, ?_, hrlt, ?_⟩
      · have e : hornerGo logx (2 ^ n - 1) (generate_logs_and_exps n).1
            (generate_logs_and_exps n).2 0 (a :: rest) =
            hornerGo logx (2 ^ n - 1) (generate_logs_and_exps n).1
              (generate_logs_and_exps n).2 a rest := by
          simp only [hornerGo]
          rw [if_neg (by omega)]
        rw [e]
        exact hr
      · rw [List.foldl_cons]
        have estep : hornerStep logx n (generate_logs_and_exps n).1
            (generate_logs_and_exps n).2 0 a = a := by
          unfold hornerStep
          rw [if_neg (by omega)]
        rw [estep]
        exact hreq
    · obtain ⟨i, hilt, hget, _⟩ := logs_defined n h3 h20 fx (Nat.pos_of_ne_zero h0) hfx
      have hms : ¬ (2 ^ n - 1 = 0) := by
        have hlb : (2 : Nat) ^ 3 ≤ 2 ^ n := Nat.pow_le_pow_right (by norm_num) h3
        omega
      have hidx : (logx + i) % (2 ^ n - 1) < 2 ^ n := by
        have hm := Nat.mod_lt (logx + i) (Nat.pos_of_ne_zero hms)
        omega
      obtain ⟨hexp, hexplt⟩ := exps_entry n h3 h20 ((logx + i) % (2 ^ n - 1)) hidx
      have hnew : fpow (Pmod n) 2 ((logx + i) % (2 ^ n - 1)) ^^^ a < 2 ^ n :=
        Nat.xor_lt_two_pow hexplt ha
      obtain ⟨r, hr, hrlt, hreq⟩ := ih (fpow (Pmod n) 2 ((logx + i) % (2 ^ n - 1)) ^^^ a)
        hnew hrest
      refine ⟨r, ?_, hrlt, ?_⟩
      · have e : hornerGo logx (2 ^ n - 1) (generate_logs_and_exps n).1
            (generate_logs_and_exps n).2 fx (a :: rest) =
            hornerGo logx (2 ^ n - 1) (generate_logs_and_exps n).1
              (generate_logs_and_exps n).2
              (fpow (Pmod n) 2 ((logx + i) % (2 ^ n - 1)) ^^^ a) rest := by
          simp only [hornerGo]
          rw [if_pos h0, hget]
          simp only []
          rw [if_neg hms, hexp]
        rw [e]
        exact hr
      · rw [List.foldl_cons]
        have estep : hornerStep logx n (generate_logs_and_exps n).1
            (generate_logs_and_exps n).2 fx a =
            fpow (Pmod n) 2 ((logx + i) % (2 ^ n - 1)) ^^^ a := by
          unfold hornerStep
          rw [if_pos h0]
          congr 2
          have egd : (generate_logs_and_exps n).1.getD fx none = some i := by
            rw [List.getD_eq_getD_get?, hget]
            rfl
          rw [egd, Option.getD_some, List.getD_eq_getD_get?, hexp, Option.getD_some]
        rw [estep]
        exact hreq

/-- **C3** (corrected).  `horner` with the generated tables is total for
nonzero scalars: it returns `Some` of the fold over *all* coefficients,
from the highest index down to index 0 (the constant coefficient included,
unlike the index-1 cutoff the specification words state), and the result is
below `2^n`. -/
theorem C3_horner_amended (n x : Nat) (coeffs : List Nat)
    (h3 : 3 ≤ n) (h8 : n ≤ 8) (hx0 : 0 < x) (hx : x < 2 ^ n)
    (hc : ∀ a ∈ coeffs, a < 2 ^ n) :
    horner x coeffs (generate_logs_and_exps n).1 (generate_logs_and_exps n).2 n =
      some (hornerFold x n coeffs (generate_logs_and_exps n).1
        (generate_logs_and_exps n).2) ∧
    hornerFold x n coeffs (generate_logs_and_exps n).1
      (generate_logs_and_exps n).2 < 2 ^ n := by
  have h20 : n ≤ 20 := by omega
  obtain ⟨i, hilt, hget, _⟩ := logs_defined n h3 h20 x hx0 hx
  obtain ⟨r, hr, hrlt, hreq⟩ := hornerGo_total n h3 h20 i coeffs.reverse 0
    (Nat.pos_pow_of_pos _ (by norm_num))
    (fun a ha => hc a (List.mem_reverse.mp ha))
  have egd : (generate_logs_and_exps n).1.getD x none = some i := by
    rw [List.getD_eq_getD_get?, hget]
    rfl
  have hfe : hornerFold x n coeffs (generate_logs_and_exps n).1
      (generate_logs_and_exps n).2 = r := by
    unfold hornerFold
    rw [egd, Option.getD_some]
    exact hreq.symm
  have h256 : r < 256 := by
    have hub : (2 : Nat) ^ n ≤ 2 ^ 8 := Nat.pow_le_pow_right (by norm_num) h8
    omega
  refine ⟨?_, by rw [hfe]; exact hrlt⟩
  unfold horner
  rw [hget]
  simp only []
  rw [hr]
  simp only []
  rw [if_pos h256, hfe]

/-- `C3_horner_amended` at n = 3, x = 1, coefficients `[1, 1]`. -/
theorem C3_horner_amended_witness :
    horner 1 [1, 1] (generate_logs_and_exps 3).1 (generate_logs_and_exps 3).2 3 =
      some (hornerFold 1 3 [1, 1] (generate_logs_and_exps 3).1
        (generate_logs_and_exps 3).2) ∧
    hornerFold 1 3 [1, 1] (generate_logs_and_exps 3).1
      (generate_logs_and_exps 3).2 < 2 ^ 3 :=
  C3_horner_amended 3 1 [1, 1] (by norm_num) (by norm_num) (by norm_num)
    (by norm_num) (by decide)

/-- The fold the specification words state (stopping at index 1) disagrees
with `horner`: at n = 3, x = 1, coefficients `[1, 1]` the code returns 0
(the true polynomial value 1 XOR 1) while the specification's fold yields
1. -/
theorem C3_counterexample :
    horner 1 [1, 1] (generate_logs_and_exps 3).1 (generate_logs_and_exps 3).2 3 =
      some 0 ∧
    hornerSpecFold 1 3 [1, 1] (generate_logs_and_exps 3).1
      (generate_logs_and_exps 3).2 = 1 :=
  ⟨rfl, rfl⟩

/-! ## C10: totality of Lagrange interpolation -/

/-- The `logs` cell at index 0 is present but undefined. -/
theorem logs_zero (n : Nat) (h3 : 3 ≤ n) (h20 : n ≤ 20) :
    (generate_logs_and_exps n).1.get? 0 = some none := by
  obtain ⟨h1, h2, h4⟩ := tables_spec n h3 h20
  have hP2 : 2 ≤ sz (Pmod n) := by
    rw [sz_Pmod n h3 h20]
    omega
  have hord := ordFacts n h3 h20
  have hpos : 0 < 2 ^ n := Nat.pos_pow_of_pos _ (by norm_num)
  rw [getOpt_of_lt _ 0 (by rw [h1]; exact hpos), h4 0 hpos]
  have hfn : (List.range (2 ^ n)).find? (fun j => fpow (Pmod n) 2 j == 0) = none := by
    apply List.find?_eq_none.mpr
    intro j hj
    rw [List.mem_range] at hj
    intro hbeq
    simp only [beq_iff_eq] at hbeq
    exact fpow_ne_zero (Pmod n) 2 (2 ^ n - 1) hP2 hord.1 j (by omega) hbeq
  rw [hfn]

/-- The inner product loop of `lagrange` with the generated tables never
panics on nonzero, distinct, in-range share numbers, and keeps the
accumulator below `2^n`. -/
theorem lagProduct_total (n : Nat) (h3 : 3 ≤ n) (h20 : n ≤ 20) (x : List Nat)
    (hx0 : ∀ a ∈ x, 0 < a) (hxlt : ∀ a ∈ x, a < 2 ^ n) (hnd : x.Nodup)
    (i : Nat) (hi : i < x.length) :
    ∀ (js : List Nat), (∀ j ∈ js, j < x.length) → ∀ product, product < 2 ^ n →
      ∃ p, lagProduct (2 ^ n) (generate_logs_and_exps n).1 x i product js =
          some (Except.ok p) ∧ p < 2 ^ n := by
  have hub : (2 : Nat) ^ n ≤ 1048576 := by
    calc (2 : Nat) ^ n ≤ 2 ^ 20 := Nat.pow_le_pow_right (by norm_num) h20
      _ = 1048576 := by norm_num
  have hlb : (2 : Nat) ^ 3 ≤ 2 ^ n := Nat.pow_le_pow_right (by norm_num) h3
  have h32 : (2 : Nat) ^ 32 = 4294967296 := by norm_num
  intro js
  induction js with
  | nil =>
    intro _ product hp
    exact ⟨product, rfl, hp⟩
  | cons j js ih =>
    intro hjs product hp
    have hj : j < x.length := hjs j (List.mem_cons_self j js)
    have hjs' : ∀ k ∈ js, k < x.length := fun k hk => hjs k (List.mem_cons_of_mem j hk)
    by_cases hij : i = j
    · have e : lagProduct (2 ^ n) (generate_logs_and_exps n).1 x i product (j :: js) =
          lagProduct (2 ^ n) (generate_logs_and_exps n).1 x i product js := by
        simp only [lagProduct]
        rw [if_pos hij]
      rw [e]
      exact ih hjs' product hp
    · have hgj : x.get? j = some (x.get ⟨j, hj⟩) := List.get?_eq_get hj
      have hgi : x.get? i = some (x.get ⟨i, hi⟩) := List.get?_eq_get hi
      set xj := x.get ⟨j, hj⟩ with hxj
      set xi := x.get ⟨i, hi⟩ with hxi
      have hmj : xj ∈ x := List.get?_mem hgj
      have hmi : xi ∈ x := List.get?_mem hgi
      have hne : xi ≠ xj := by
        intro hq
        rw [hxi, hxj] at hq
        have hfin : (⟨i, hi⟩ : Fin x.length) = ⟨j, hj⟩ := hnd.get_inj_iff.mp hq
        exact hij (congrArg Fin.val hfin)
      obtain ⟨p1, hp1lt, hgl1, _⟩ := logs_defined n h3 h20 xj (hx0 xj hmj) (hxlt xj hmj)
      have hxor0 : xi ^^^ xj ≠ 0 := fun hq => hne (Nat.xor_eq_zero.mp hq)
      have hxorlt : xi ^^^ xj < 2 ^ n := Nat.xor_lt_two_pow (hxlt xi hmi) (hxlt xj hmj)
      obtain ⟨p2, hp2lt, hgl2, _⟩ := logs_defined n h3 h20 (xi ^^^ xj)
        (Nat.pos_of_ne_zero hxor0) hxorlt
      have hms : ¬ (2 ^ n - 1 = 0) := by omega
      have hguard : p2 ≤ 2 ^ n - 1 + product + p1 ∧
          2 ^ n - 1 + product + p1 < 2 ^ 32 := by
        constructor
        · omega
        · omega
      have hnewlt : (2 ^ n - 1 + product + p1 - p2) % (2 ^ n - 1) < 2 ^ n := by
        have hm := Nat.mod_lt (2 ^ n - 1 + product + p1 - p2) (Nat.pos_of_ne_zero hms)
        omega
      obtain ⟨p, hrec, hplt⟩ := ih hjs'
        ((2 ^ n - 1 + product + p1 - p2) % (2 ^ n - 1)) hnewlt
      refine ⟨p, ?_, hplt⟩
      have e : lagProduct (2 ^ n) (generate_logs_and_exps n).1 x i product (j :: js) =
          lagProduct (2 ^ n) (generate_logs_and_exps n).1 x i
            ((2 ^ n - 1 + product + p1 - p2) % (2 ^ n - 1)) js := by
        simp only [lagProduct]
        rw [if_neg hij, hgj, hgi]
        simp only []
        rw [hgl1]
        simp only []
        rw [hgl2]
        simp only []
        rw [if_neg hms, if_pos hguard]
      rw [e]
      exact hrec

/-- The outer loop of `lagrange`: when every visited `y` entry is below
`2^n` the sum is computed without error and stays below `2^n`. -/
theorem lagSum_ok (n : Nat) (h3 : 3 ≤ n) (h20 : n ≤ 20) (x y : List Nat)
    (hlen : x.length = y.length)
    (hx0 : ∀ a ∈ x, 0 < a) (hxlt : ∀ a ∈ x, a < 2 ^ n) (hnd : x.Nodup)
    (hy : ∀ b ∈ y, b < 2 ^ n) :
    ∀ (is : List Nat), (∀ i ∈ is, i < x.length) → ∀ sum, sum < 2 ^ n →
      ∃ v, lagSum (2 ^ n) (generate_logs_and_exps n).1 (generate_logs_and_exps n).2
          x y sum is = some (Except.ok v) ∧ v < 2 ^ n := by
  intro is
  induction is with
  | nil =>
    intro _ sum hs
    exact ⟨sum, rfl, hs⟩
  | cons i is ih =>
    intro his sum hs
    have hi : i < x.length := his i (List.mem_cons_self i is)
    have his' : ∀ k ∈ is, k < x.length := fun k hk => his k (List.mem_cons_of_mem i hk)
    have hiy : i < y.length := by omega
    have hgy : y.get? i = some (y.get ⟨i, hiy⟩) := List.get?_eq_get hiy
    set yi := y.get ⟨i, hiy⟩ with hyi
    have hmy : yi ∈ y := List.get?_mem hgy
    have hylt : yi < 2 ^ n := hy yi hmy
    by_cases hy0 : yi = 0
    · have e : lagSum (2 ^ n) (generate_logs_and_exps n).1 (generate_logs_and_exps n).2
          x y sum (i :: is) =
          lagSum (2 ^ n) (generate_logs_and_exps n).1 (generate_logs_and_exps n).2
            x y sum is := by
        simp only [lagSum]
        rw [hgy]
        simp only []
        rw [hy0, logs_zero n h3 h20]
      rw [e]
      exact ih his' sum hs
    · obtain ⟨a, halt, hga, _⟩ := logs_defined n h3 h20 yi (Nat.pos_of_ne_zero hy0) hylt
      obtain ⟨p, hprod, hplt⟩ := lagProduct_total n h3 h20 x hx0 hxlt hnd i hi
        (List.range x.length) (fun k hk => List.mem_range.mp hk) a halt
      obtain ⟨hge, hgelt⟩ := exps_entry n h3 h20 p hplt
      have hnew : sum ^^^ fpow (Pmod n) 2 p < 2 ^ n := Nat.xor_lt_two_pow hs hgelt
      obtain ⟨v, hrec, hvlt⟩ := ih his' (sum ^^^ fpow (Pmod n) 2 p) hnew
      refine ⟨v, ?_, hvlt⟩
      have e : lagSum (2 ^ n) (generate_logs_and_exps n).1 (generate_logs_and_exps n).2
          x y sum (i :: is) =
          lagSum (2 ^ n) (generate_logs_and_exps n).1 (generate_logs_and_exps n).2
            x y (sum ^^^ fpow (Pmod n) 2 p) is := by
        simp only [lagSum]
        rw [hgy]
        simp only []
        rw [hga]
        simp only []
        rw [hprod]
        simp only []
        rw [hge]
      rw [e]
      exact hrec

/-- The outer loop of `lagrange`: when a visited `y` entry is at least
`2^n`, the loop stops with `LogOutOfRange` on such an entry. -/
theorem lagSum_err (n : Nat) (h3 : 3 ≤ n) (h20 : n ≤ 20) (x y : List Nat)
    (hlen : x.length = y.length)
    (hx0 : ∀ a ∈ x, 0 < a) (hxlt : ∀ a ∈ x, a < 2 ^ n) (hnd : x.Nodup) :
    ∀ (is : List Nat), (∀ i ∈ is, i < x.length) → ∀ sum, sum < 2 ^ n →
      (∃ i ∈ is, 2 ^ n ≤ y.getD i 0) →
      ∃ b, b ∈ y ∧ 2 ^ n ≤ b ∧
        lagSum (2 ^ n) (generate_logs_and_exps n).1 (generate_logs_and_exps n).2
          x y sum is = some (Except.error (Error.LogOutOfRange b)) := by
  intro is
  induction is with
  | nil =>
    intro _ sum _ hbad
    obtain ⟨i, hmem, _⟩ := hbad
    exact absurd hmem (List.not_mem_nil i)
  | cons i is ih =>
    intro his sum hs hbad
    have hi : i < x.length := his i (List.mem_cons_self i is)
    have his' : ∀ k ∈ is, k < x.length := fun k hk => his k (List.mem_cons_of_mem i hk)
    have hiy : i < y.length := by omega
    have hgy : y.get? i = some (y.get ⟨i, hiy⟩) := List.get?_eq_get hiy
    set yi := y.get ⟨i, hiy⟩ with hyi
    have hmy : yi ∈ y := List.get?_mem hgy
    have hgdy : y.getD i 0 = yi := by
      rw [List.getD_eq_getD_get?, hgy, Option.getD_some]
    by_cases hybig : 2 ^ n ≤ yi
    · refine ⟨yi, hmy, hybig, ?_⟩
      have hlenL : (generate_logs_and_exps n).1.length = 2 ^ n := (tables_spec n h3 h20).1
      have hnone : (generate_logs_and_exps n).1.get? yi = none := by
        rw [List.get?_eq_none, hlenL]
        exact hybig
      simp only [lagSum]
      rw [hgy]
      simp only []
      rw [hnone]
    · have hylt : yi < 2 ^ n := by omega
      have hbad' : ∃ k ∈ is, 2 ^ n ≤ y.getD k 0 := by
        obtain ⟨k, hkmem, hkbig⟩ := hbad
        rcases List.mem_cons.mp hkmem with rfl | hk
        · rw [hgdy] at hkbig
          exact absurd hkbig hybig
        · exact ⟨k, hk, hkbig⟩
      by_cases hy0 : yi = 0
      · have e : lagSum (2 ^ n) (generate_logs_and_exps n).1 (generate_logs_and_exps n).2
            x y sum (i :: is) =
            lagSum (2 ^ n) (generate_logs_and_exps n).1 (generate_logs_and_exps n).2
              x y sum is := by
          simp only [lagSum]
          rw [hgy]
          simp only []
          rw [hy0, logs_zero n h3 h20]
        rw [e]
        exact ih his' sum hs hbad'
      · obtain ⟨a, halt, hga, _⟩ := logs_defined n h3 h20 yi (Nat.pos_of_ne_zero hy0) hylt
        obtain ⟨p, hprod, hplt⟩ := lagProduct_total n h3 h20 x hx0 hxlt hnd i hi
          (List.range x.length) (fun k hk => List.mem_range.mp hk) a halt
        obtain ⟨hge, hgelt⟩ := exps_entry n h3 h20 p hplt
        have hnew : sum ^^^ fpow (Pmod n) 2 p < 2 ^ n := Nat.xor_lt_two_pow hs hgelt
        have e : lagSum (2 ^ n) (generate_logs_and_exps n).1 (generate_logs_and_exps n).2
            x y sum (i :: is) =
            lagSum (2 ^ n) (generate_logs_and_exps n).1 (generate_logs_and_exps n).2
              x y (sum ^^^ fpow (Pmod n) 2 p) is := by
          simp only [lagSum]
          rw [hgy]
          simp only []
          rw [hga]
          simp only []
          rw [hprod]
          simp only []
          rw [hge]
        rw [e]
        exact ih his' (sum ^^^ fpow (Pmod n) 2 p) hnew hbad'

/-- **C10** (confirmed).  For every n in [3,20] and the generated tables,
and for all equal-length `x`, `y` with nonzero, pairwise-distinct `x`
entries below `2^n`, `lagrange` reaches no panic site: it returns `Ok v`
with `v < 2^n` whenever all `y` entries are below `2^n`, and returns
`Err (LogOutOfRange b)` on an entry `b` of `y` exactly when some `y` entry
is at least `2^n`. -/
theorem C10_lagrange_total (n : Nat) (x y : List Nat) (h3 : 3 ≤ n) (h20 : n ≤ 20)
    (hlen : x.length = y.length)
    (hx0 : ∀ a ∈ x, 0 < a) (hxlt : ∀ a ∈ x, a < 2 ^ n) (hnd : x.Nodup) :
    ((∀ b ∈ y, b < 2 ^ n) →
      ∃ v, lagrange x y (generate_logs_and_exps n).1 (generate_logs_and_exps n).2 n =
          some (Except.ok v) ∧ v < 2 ^ n) ∧
    ((∃ b ∈ y, 2 ^ n ≤ b) →
      ∃ b, b ∈ y ∧ 2 ^ n ≤ b ∧
        lagrange x y (generate_logs_and_exps n).1 (generate_logs_and_exps n).2 n =
          some (Except.error (Error.LogOutOfRange b))) := by
  constructor
  · intro hy
    exact lagSum_ok n h3 h20 x y hlen hx0 hxlt hnd hy (List.range x.length)
      (fun k hk => List.mem_range.mp hk) 0 (Nat.pos_pow_of_pos _ (by norm_num))
  · intro hbad
    apply lagSum_err n h3 h20 x y hlen hx0 hxlt hnd (List.range x.length)
      (fun k hk => List.mem_range.mp hk) 0 (Nat.pos_pow_of_pos _ (by norm_num))
    obtain ⟨b, hbm, hbbig⟩ := hbad
    obtain ⟨k, hk⟩ := List.mem_iff_get?.mp hbm
    have hky : k < y.length := by
      by_contra hq
      rw [List.get?_eq_none.mpr (by omega)] at hk
      exact Option.noConfusion hk
    refine ⟨k, List.mem_range.mpr (by omega), ?_⟩
    rw [List.getD_eq_getD_get?, hk, Option.getD_some]
    exact hbbig

/-- `C10_lagrange_total` at n = 3, x = [1, 2], y = [5, 6] (all entries in
range) and y = [5, 9] (entry 9 out of range). -/
theorem C10_lagrange_total_witness :
    (∃ v, lagrange [1, 2] [5, 6] (generate_logs_and_exps 3).1
        (generate_logs_and_exps 3).2 3 = some (Except.ok v) ∧ v < 2 ^ 3) ∧
    (∃ b, b ∈ [5, 9] ∧ 2 ^ 3 ≤ b ∧
      lagrange [1, 2] [5, 9] (generate_logs_and_exps 3).1
        (generate_logs_and_exps 3).2 3 = some (Except.error (Error.LogOutOfRange b))) :=
  ⟨(C10_lagrange_total 3 [1, 2] [5, 6] (by norm_num) (by norm_num) (by decide)
      (by decide) (by decide) (by decide)).1 (by decide),
   (C10_lagrange_total 3 [1, 2] [5, 9] (by norm_num) (by norm_num) (by decide)
      (by decide) (by decide) (by decide)).2 (by decide)⟩

/-! ## The field GF(2^8)

The splitter fixes `bits = 8`; the verification of the round trip works in
the 256-element field whose carrier is `Fin 256`, with XOR as addition and
`fmul (Pmod 8)` as multiplication. -/

/-- The modulus of GF(2^8) is nonzero. -/
theorem Pmod8_ne : Pmod 8 ≠ 0 := by decide

/-- Bit length of the GF(2^8) modulus. -/
theorem sz_Pmod8 : sz (Pmod 8) = 9 := by decide

/-- The modulus has bit length at least two. -/
theorem hP2_8 : 2 ≤ sz (Pmod 8) := by
  rw [sz_Pmod8]
  omega

/-- Products in GF(2^8) are bytes. -/
theorem fmul8_lt (a b : Nat) : fmul (Pmod 8) a b < 256 := by
  have h := fmul_lt (Pmod 8) a b Pmod8_ne
  rw [sz_Pmod8] at h
  exact h

/-- XOR of two bytes is a byte. -/
theorem xor8_lt (a b : Nat) (ha : a < 256) (hb : b < 256) : a ^^^ b < 256 :=
  @Nat.xor_lt_two_pow a b 8 ha hb

/-- The element 2 of GF(2^8) has order 255. -/
theorem ord8 : fpow (Pmod 8) 2 255 = 1 ∧
    ∀ m, 0 < m → m < 255 → fpow (Pmod 8) 2 m ≠ 1 := by
  have h := ordFacts 8 (by norm_num) (by norm_num)
  have e : (2 : Nat) ^ 8 - 1 = 255 := by norm_num
  rw [e] at h
  exact h

/-- Exponents below 255 of reduced residues. -/
theorem fpow8_lt (i : Nat) : fpow (Pmod 8) 2 i < 256 := by
  have h := fpow_lt (Pmod 8) 2 i hP2_8
  rw [sz_Pmod8] at h
  exact h

/-- Powers are periodic in the exponent with period the order. -/
theorem fpow_mod_order (P x s1 : Nat) (hP2 : 2 ≤ sz P) (h1 : fpow P x s1 = 1)
    (hs : 0 < s1) (a : Nat) : fpow P x (a % s1) = fpow P x a := by
  have hP : P ≠ 0 := ne_zero_of_sz P hP2
  conv_rhs => rw [← Nat.mod_add_div a s1]
  rw [fpow_add P x hP2, fpow_mul P x hP2, h1, fpow_one_base P hP2]
  exact (fmul_one' P _ hP (fpow_lt P x _ hP2)).symm

/-- Powers of 2 in GF(2^8) are nonzero. -/
theorem fpow8_ne_zero (i : Nat) : fpow (Pmod 8) 2 i ≠ 0 := by
  rw [← fpow_mod_order (Pmod 8) 2 255 hP2_8 ord8.1 (by norm_num) i]
  exact fpow_ne_zero (Pmod 8) 2 255 hP2_8 ord8.1 (i % 255)
    (le_of_lt (Nat.mod_lt i (by norm_num)))

/-- Every nonzero byte is a power of 2 in GF(2^8). -/
theorem gf_surj (v : Nat) (hv0 : 0 < v) (hv : v < 256) :
    ∃ i, i < 255 ∧ fpow (Pmod 8) 2 i = v := by
  have h1 : fpow (Pmod 8) 2 (2 ^ (sz (Pmod 8) - 1) - 1) = 1 := by
    rw [sz_Pmod8]
    exact ord8.1
  have h2 : ∀ m, 0 < m → m < 2 ^ (sz (Pmod 8) - 1) - 1 → fpow (Pmod 8) 2 m ≠ 1 := by
    rw [sz_Pmod8]
    exact ord8.2
  obtain ⟨i, hi, hfi⟩ := fpow_surj (Pmod 8) 2 hP2_8 h1 h2 v hv0
    (by rw [sz_Pmod8]; exact hv)
  rw [sz_Pmod8] at hi
  exact ⟨i, hi, hfi⟩

/-- The carrier of GF(2^8). -/
def GF : Type := Fin 256

instance : DecidableEq GF := instDecidableEqFin 256

instance : Fintype GF := Fin.fintype 256

/-- Addition in GF(2^8): XOR of the byte values. -/
def gfAdd (a b : GF) : GF := ⟨a.val ^^^ b.val, xor8_lt a.val b.val a.isLt b.isLt⟩

/-- Multiplication in GF(2^8): `fmul` with the `n = 8` modulus. -/
def gfMul (a b : GF) : GF := ⟨fmul (Pmod 8) a.val b.val, fmul8_lt a.val b.val⟩

/-- Byte values stay below the reduction bound. -/
theorem gf_val_lt (a : GF) : a.val < 2 ^ (sz (Pmod 8) - 1) := by
  rw [sz_Pmod8]
  exact a.isLt

instance : Zero GF := ⟨⟨0, by norm_num⟩⟩

instance : One GF := ⟨⟨1, by norm_num⟩⟩

instance : Add GF := ⟨gfAdd⟩

instance : Mul GF := ⟨gfMul⟩

instance : Neg GF := ⟨fun a => a⟩

instance : CommRing GF where
  add_assoc a b c := Fin.ext (Nat.xor_assoc a.val b.val c.val)
  zero_add a := Fin.ext (Nat.zero_xor a.val)
  add_zero a := Fin.ext (Nat.xor_zero a.val)
  add_comm a b := Fin.ext (Nat.xor_comm a.val b.val)
  mul_assoc a b c := Fin.ext (fmul_assoc (Pmod 8) a.val b.val c.val Pmod8_ne)
  one_mul a := Fin.ext (one_fmul' (Pmod 8) a.val Pmod8_ne (gf_val_lt a))
  mul_one a := Fin.ext (fmul_one' (Pmod 8) a.val Pmod8_ne (gf_val_lt a))
  left_distrib a b c := Fin.ext (fmul_xor' (Pmod 8) a.val b.val c.val Pmod8_ne)
  right_distrib a b c := Fin.ext (by
    show fmul (Pmod 8) (a.val ^^^ b.val) c.val =
      fmul (Pmod 8) a.val c.val ^^^ fmul (Pmod 8) b.val c.val
    rw [fmul_comm, fmul_xor' (Pmod 8) c.val a.val b.val Pmod8_ne,
      fmul_comm (Pmod 8) c.val a.val, fmul_comm (Pmod 8) c.val b.val])
  zero_mul a := Fin.ext (zero_fmul' (Pmod 8) a.val Pmod8_ne)
  mul_zero a := Fin.ext (fmul_zero' (Pmod 8) a.val Pmod8_ne)
  mul_comm a b := Fin.ext (fmul_comm (Pmod 8) a.val b.val)
  neg a := a
  neg_add_cancel a := Fin.ext (Nat.xor_self a.val)
  nsmul := nsmulRec
  zsmul := zsmulRec

/-- GF(2^8) has two distinct elements. -/
instance : Nontrivial GF := ⟨⟨0, 1, by decide⟩⟩

/-- The byte value of a GF(2^8) product. -/
theorem gf_mul_val (a b : GF) : (a * b).val = fmul (Pmod 8) a.val b.val := rfl

/-- The byte value of a GF(2^8) sum. -/
theorem gf_add_val (a b : GF) : (a + b).val = a.val ^^^ b.val := rfl

/-- Subtraction in GF(2^8) is addition. -/
theorem gf_sub_eq (a b : GF) : a - b = a + b := by
  show a + -b = a + b
  rfl

/-- The byte value of zero. -/
theorem gf_zero_val : (0 : GF).val = 0 := rfl

/-- The byte value of one. -/
theorem gf_one_val : (1 : GF).val = 1 := rfl

/-- Two field elements with equal byte values are equal. -/
theorem gf_eq_of_val (a b : GF) (h : a.val = b.val) : a = b := Fin.ext h

/-- The power `2^e` as an element of GF(2^8). -/
def gfExp (e : Nat) : GF := ⟨fpow (Pmod 8) 2 e, fpow8_lt e⟩

/-- Exponent sums multiply. -/
theorem gfExp_add (i j : Nat) : gfExp (i + j) = gfExp i * gfExp j :=
  Fin.ext (fpow_add (Pmod 8) 2 hP2_8 i j)

/-- Exponents act modulo 255. -/
theorem gfExp_mod (a : Nat) : gfExp (a % 255) = gfExp a :=
  Fin.ext (fpow_mod_order (Pmod 8) 2 255 hP2_8 ord8.1 (by norm_num) a)

/-- The byte value of a power. -/
theorem gfExp_val (e : Nat) : (gfExp e).val = fpow (Pmod 8) 2 e := rfl

/-- The order of 2 divides 255. -/
theorem gfExp_255 : gfExp 255 = 1 := by
  apply Fin.ext
  rw [gfExp_val, gf_one_val]
  exact ord8.1

/-- Powers of 2 are nonzero in GF(2^8). -/
theorem gfExp_ne_zero (i : Nat) : gfExp i ≠ 0 := by
  intro h
  exact fpow8_ne_zero i (congrArg Fin.val h)

instance : NoZeroDivisors GF where
  eq_zero_or_eq_zero_of_mul_eq_zero := by
    intro a b hab
    by_contra hcon
    push_neg at hcon
    obtain ⟨ha, hb⟩ := hcon
    have hva : 0 < a.val := by
      rcases Nat.eq_zero_or_pos a.val with h0 | h
      · exact absurd (Fin.ext h0) ha
      · exact h
    have hvb : 0 < b.val := by
      rcases Nat.eq_zero_or_pos b.val with h0 | h
      · exact absurd (Fin.ext h0) hb
      · exact h
    obtain ⟨i, hi, hfi⟩ := gf_surj a.val hva a.isLt
    obtain ⟨j, hj, hfj⟩ := gf_surj b.val hvb b.isLt
    have hv : (a * b).val = 0 := congrArg Fin.val hab
    rw [gf_mul_val, ← hfi, ← hfj, ← fpow_add (Pmod 8) 2 hP2_8] at hv
    exact fpow8_ne_zero (i + j) hv

instance : IsDomain GF := NoZeroDivisors.to_isDomain GF

/-- Powers in GF(2^8) (mirrors `fpow` on byte values). -/
def gfPow (a : GF) : Nat → GF
  | 0 => 1
  | k + 1 => gfMul a (gfPow a k)

/-- The byte value of a power. -/
theorem gfPow_val (a : GF) : ∀ k, (gfPow a k).val = fpow (Pmod 8) a.val k := by
  intro k
  induction k with
  | zero => rfl
  | succ k ih =>
    show fmul (Pmod 8) a.val (gfPow a k).val = fmul (Pmod 8) a.val (fpow (Pmod 8) a.val k)
    rw [ih]

/-- The multiplicative inverse in GF(2^8): the 254th power. -/
def gfInv (a : GF) : GF := gfPow a 254

/-- A nonzero element times its inverse. -/
theorem gf_mul_inv (a : GF) (ha : a ≠ 0) : a * gfInv a = 1 := by
  have hva : 0 < a.val := by
    rcases Nat.eq_zero_or_pos a.val with h0 | h
    · exact absurd (Fin.ext h0) ha
    · exact h
  obtain ⟨i, hi, hfi⟩ := gf_surj a.val hva a.isLt
  apply Fin.ext
  have hv : (a * gfInv a).val = fpow (Pmod 8) a.val 255 := by
    rw [gf_mul_val, gfInv, gfPow_val]
    show fmul (Pmod 8) a.val (fpow (Pmod 8) a.val 254) = fpow (Pmod 8) a.val (254 + 1)
    rw [show (254 : Nat) + 1 = 255 from rfl]
    rfl
  rw [hv, ← hfi, ← fpow_mul (Pmod 8) 2 hP2_8 i 255,
    show i * 255 = 255 * i from by omega,
    fpow_mul (Pmod 8) 2 hP2_8 255 i, ord8.1, fpow_one_base (Pmod 8) hP2_8, gf_one_val]

instance : Field GF where
  inv := gfInv
  exists_pair_ne := ⟨0, 1, by decide⟩
  mul_inv_cancel := gf_mul_inv
  inv_zero := by
    apply Fin.ext
    show (gfPow 0 254).val = (0 : GF).val
    rw [gfPow_val]
    show fmul (Pmod 8) (0 : GF).val (fpow (Pmod 8) (0 : GF).val 253) = (0 : GF).val
    rw [gf_zero_val]
    exact zero_fmul' (Pmod 8) _ Pmod8_ne
  nnqsmul := _
  qsmul := _

/-! ## Interpolation at zero over an arbitrary field

List-represented polynomials (constant coefficient first) and the classical
fact that a polynomial with fewer coefficients than the number of distinct
sample points is recovered at zero by the Lagrange formula.  This is the
mathematical core behind the reconstruction of each secret byte. -/

section Interp

variable {F : Type} [Field F]

/-- Horner evaluation of a coefficient list (constant first). -/
def peval (cs : List F) (x : F) : F := cs.foldr (fun c acc => x * acc + c) 0

/-- Evaluation of the empty polynomial. -/
theorem peval_nil (x : F) : peval ([] : List F) x = 0 := rfl

/-- Evaluation step. -/
theorem peval_cons (c : F) (p : List F) (x : F) :
    peval (c :: p) x = x * peval p x + c := rfl

/-- Pointwise polynomial addition. -/
def padd : List F → List F → List F
  | [], q => q
  | a :: p, [] => a :: p
  | a :: p, b :: q => (a + b) :: padd p q

/-- `padd` is evaluation-compatible. -/
theorem peval_padd : ∀ (p q : List F) (x : F),
    peval (padd p q) x = peval p x + peval q x := by
  intro p
  induction p with
  | nil =>
    intro q x
    rw [show padd ([] : List F) q = q from rfl, peval_nil]
    ring
  | cons a p ih =>
    intro q x
    cases q with
    | nil =>
      rw [show padd (a :: p) ([] : List F) = a :: p from rfl, peval_nil]
      ring
    | cons b q =>
      rw [show padd (a :: p) (b :: q) = (a + b) :: padd p q from rfl,
        peval_cons, ih, peval_cons, peval_cons]
      ring

/-- Length of a polynomial sum. -/
theorem padd_length : ∀ (p q : List F), (padd p q).length = max p.length q.length := by
  intro p
  induction p with
  | nil =>
    intro q
    show q.length = max 0 q.length
    omega
  | cons a p ih =>
    intro q
    cases q with
    | nil =>
      show (a :: p).length = max (a :: p).length 0
      omega
    | cons b q =>
      show (padd p q).length + 1 = max (p.length + 1) (q.length + 1)
      rw [ih]
      omega

/-- Scalar multiple of a polynomial. -/
def psmul (c : F) (p : List F) : List F := p.map (fun a => c * a)

/-- `psmul` is evaluation-compatible. -/
theorem peval_psmul (c : F) (p : List F) (x : F) :
    peval (psmul c p) x = c * peval p x := by
  induction p with
  | nil =>
    rw [show psmul c [] = [] from rfl, peval_nil]
    ring
  | cons a p ih =>
    show peval ((c * a) :: psmul c p) x = c * peval (a :: p) x
    rw [peval_cons, ih, peval_cons]
    ring

/-- Length of a scalar multiple. -/
theorem psmul_length (c : F) (p : List F) : (psmul c p).length = p.length :=
  List.length_map p _

/-- Multiplication by the linear factor `X - a`. -/
def pmulLin (a : F) (p : List F) : List F := padd (psmul (-a) p) (0 :: p)

/-- `pmulLin` is evaluation-compatible. -/
theorem peval_pmulLin (a : F) (p : List F) (x : F) :
    peval (pmulLin a p) x = (x - a) * peval p x := by
  unfold pmulLin
  rw [peval_padd, peval_psmul, peval_cons]
  ring

/-- Length of a linear-factor product. -/
theorem pmulLin_length (a : F) (p : List F) : (pmulLin a p).length = p.length + 1 := by
  unfold pmulLin
  rw [padd_length, psmul_length]
  show max p.length (p.length + 1) = p.length + 1
  omega

/-- The monic polynomial with the given roots. -/
def nodal (pts : List F) : List F := pts.foldr (fun a acc => pmulLin a acc) [1]

/-- Evaluation of the nodal polynomial. -/
theorem peval_nodal : ∀ (pts : List F) (x : F),
    peval (nodal pts) x = (pts.map (fun a => x - a)).prod := by
  intro pts
  induction pts with
  | nil =>
    intro x
    show peval [1] x = ((List.map _ []).prod : F)
    rw [peval_cons, peval_nil]
    simp
  | cons a pts ih =>
    intro x
    show peval (pmulLin a (nodal pts)) x = _
    rw [peval_pmulLin, ih, List.map_cons, List.prod_cons]

/-- Length of the nodal polynomial. -/
theorem nodal_length : ∀ (pts : List F), (nodal pts).length = pts.length + 1 := by
  intro pts
  induction pts with
  | nil => rfl
  | cons a pts ih =>
    show (pmulLin a (nodal pts)).length = _
    rw [pmulLin_length, ih]
    rfl

/-- Sum of a list of polynomials. -/
def psum (ps : List (List F)) : List F := ps.foldr padd []

/-- `psum` is evaluation-compatible. -/
theorem peval_psum : ∀ (ps : List (List F)) (x : F),
    peval (psum ps) x = (ps.map (fun p => peval p x)).sum := by
  intro ps
  induction ps with
  | nil => intro x; rfl
  | cons p ps ih =>
    intro x
    show peval (padd p (psum ps)) x = _
    rw [peval_padd, ih, List.map_cons, List.sum_cons]

/-- Length bound for a polynomial sum. -/
theorem psum_length (L : Nat) : ∀ (ps : List (List F)),
    (∀ p ∈ ps, p.length ≤ L) → (psum ps).length ≤ L := by
  intro ps
  induction ps with
  | nil =>
    intro _
    show (0 : Nat) ≤ L
    omega
  | cons p ps ih =>
    intro h
    show (padd p (psum ps)).length ≤ L
    rw [padd_length]
    have h1 := h p (List.mem_cons_self p ps)
    have h2 := ih (fun q hq => h q (List.mem_cons_of_mem p hq))
    omega

/-- Root extraction: evaluation factors through `X - a` plus the value at
`a`. -/
theorem peval_factor : ∀ (p : List F) (a : F), ∃ q : List F,
    q.length = p.length - 1 ∧ ∀ x, peval p x = (x - a) * peval q x + peval p a := by
  intro p
  induction p with
  | nil =>
    intro a
    refine ⟨[], rfl, ?_⟩
    intro x
    rw [peval_nil, peval_nil]
    ring
  | cons c rest ih =>
    intro a
    cases rest with
    | nil =>
      refine ⟨[], rfl, ?_⟩
      intro x
      rw [peval_cons, peval_nil, peval_cons, peval_nil]
      ring
    | cons c2 rest2 =>
      obtain ⟨qr, hqlen, hq⟩ := ih a
      refine ⟨peval (c2 :: rest2) a :: qr, ?_, ?_⟩
      · show qr.length + 1 = (c2 :: rest2).length
        rw [hqlen]
        simp
      · intro x
        have e1 : peval (c :: c2 :: rest2) x = x * peval (c2 :: rest2) x + c :=
          peval_cons _ _ _
        have e2 : peval (c :: c2 :: rest2) a = a * peval (c2 :: rest2) a + c :=
          peval_cons _ _ _
        have e3 : peval (peval (c2 :: rest2) a :: qr) x =
            x * peval qr x + peval (c2 :: rest2) a := peval_cons _ _ _
        rw [e1, e2, e3, hq x]
        ring

/-- A polynomial with more distinct roots than coefficients vanishes
everywhere. -/
theorem eval_zero_of_roots : ∀ (pts : List F) (p : List F), pts.Nodup →
    p.length ≤ pts.length → (∀ a ∈ pts, peval p a = 0) → ∀ x, peval p x = 0 := by
  intro pts
  induction pts with
  | nil =>
    intro p _ hlen _ x
    have hp : p = [] := List.length_eq_zero.mp (Nat.le_zero.mp hlen)
    subst hp
    rfl
  | cons a pts ih =>
    intro p hnd hlen hvan x
    obtain ⟨q, hqlen, hq⟩ := peval_factor p a
    have hpa : peval p a = 0 := hvan a (List.mem_cons_self a pts)
    have hqvan : ∀ b ∈ pts, peval q b = 0 := by
      intro b hb
      have hdiff : b - a ≠ 0 := by
        intro h0
        have hba : b = a := sub_eq_zero.mp h0
        subst hba
        exact (List.nodup_cons.mp hnd).1 hb
      have h0 : (b - a) * peval q b = 0 := by
        have hqb := hq b
        rw [hvan b (List.mem_cons_of_mem a hb), hpa, add_zero] at hqb
        exact hqb.symm
      rcases mul_eq_zero.mp h0 with h | h
      · exact absurd h hdiff
      · exact h
    have hqlen' : q.length ≤ pts.length := by
      have hl : p.length ≤ pts.length + 1 := by
        simpa using hlen
      omega
    rw [hq x, ih q (List.nodup_cons.mp hnd).2 hqlen' hqvan x, hpa, mul_zero, add_zero]

/-- The value the Lagrange formula assigns at zero to the samples `ys` at
the points `xs`. -/
def lagAtZero (xs ys : List F) : F :=
  ((List.range xs.length).map (fun i =>
    ys.getD i 0 * ((xs.eraseIdx i).map (fun b => b / (b - xs.getD i 0))).prod)).sum

/-- The interpolating polynomial through the samples. -/
def interpPoly (xs ys : List F) : List F :=
  psum ((List.range xs.length).map (fun i =>
    psmul (ys.getD i 0 * (((xs.eraseIdx i).map (fun b => xs.getD i 0 - b)).prod)⁻¹)
      (nodal (xs.eraseIdx i))))

/-- Evaluation of the interpolating polynomial. -/
theorem interpPoly_eval (xs ys : List F) (x : F) :
    peval (interpPoly xs ys) x =
    ((List.range xs.length).map (fun i =>
      ys.getD i 0 * (((xs.eraseIdx i).map (fun b => xs.getD i 0 - b)).prod)⁻¹ *
        ((xs.eraseIdx i).map (fun b => x - b)).prod)).sum := by
  unfold interpPoly
  rw [peval_psum, List.map_map]
  congr 1
  apply List.map_congr_left
  intro i _
  show peval (psmul _ (nodal (xs.eraseIdx i))) x = _
  rw [peval_psmul, peval_nodal, mul_assoc]

/-- Length bound for the interpolating polynomial. -/
theorem interpPoly_length (xs ys : List F) : (interpPoly xs ys).length ≤ xs.length := by
  unfold interpPoly
  apply psum_length
  intro p hp
  rw [List.mem_map] at hp
  obtain ⟨i, hi, hpe⟩ := hp
  rw [List.mem_range] at hi
  rw [← hpe, psmul_length, nodal_length, List.length_eraseIdx, if_pos hi]
  omega

/-- A point other than the removed one stays in `eraseIdx`. -/
theorem mem_eraseIdx_of_ne (xs : List F) (i k : Nat) (hk : k < xs.length)
    (hne : k ≠ i) : xs.getD k 0 ∈ xs.eraseIdx i := by
  rw [List.mem_eraseIdx_iff_getElem]
  exact ⟨k, hk, hne, (List.getD_eq_getElem xs 0 hk).symm⟩

/-- On a duplicate-free list, the removed point is not in `eraseIdx`. -/
theorem ne_of_mem_eraseIdx (xs : List F) (hnd : xs.Nodup) (i : Nat)
    (hi : i < xs.length) (b : F) (hb : b ∈ xs.eraseIdx i) : b ≠ xs.getD i 0 := by
  rw [List.mem_eraseIdx_iff_getElem] at hb
  obtain ⟨j, hj, hji, hval⟩ := hb
  intro heq
  apply hji
  apply hnd.getElem_inj_iff.mp
  rw [hval, heq, List.getD_eq_getElem xs 0 hi]

/-- A sum over `List.range` with a single nonzero term. -/
theorem sum_map_range_eq_single (n k : Nat) (f : Nat → F) (hk : k < n)
    (h0 : ∀ i, i < n → i ≠ k → f i = 0) : ((List.range n).map f).sum = f k := by
  induction n with
  | zero => omega
  | succ n ih =>
    rw [List.range_succ, List.map_append, List.sum_append]
    by_cases hkn : k = n
    · subst hkn
      have hz : ((List.range k).map f).sum = 0 := by
        apply List.sum_eq_zero
        intro y hy
        rw [List.mem_map] at hy
        obtain ⟨i, hi, hfy⟩ := hy
        rw [List.mem_range] at hi
        rw [← hfy]
        exact h0 i (by omega) (by omega)
      rw [hz]
      simp
    · have hk' : k < n := by omega
      rw [ih hk' (fun i hi hne => h0 i (by omega) hne)]
      have hfn : f n = 0 := h0 n (by omega) (fun h => hkn h.symm)
      simp [hfn]

/-- The interpolating polynomial passes through the samples. -/
theorem interpPoly_node (xs ys : List F) (hnd : xs.Nodup) (k : Nat)
    (hk : k < xs.length) :
    peval (interpPoly xs ys) (xs.getD k 0) = ys.getD k 0 := by
  rw [interpPoly_eval]
  rw [sum_map_range_eq_single xs.length k _ hk]
  · have hne : ∀ b ∈ xs.eraseIdx k, xs.getD k 0 - b ≠ 0 := by
      intro b hb h0
      exact (ne_of_mem_eraseIdx xs hnd k hk b hb) (sub_eq_zero.mp h0).symm
    have hdne : ((xs.eraseIdx k).map (fun b => xs.getD k 0 - b)).prod ≠ 0 := by
      apply List.prod_ne_zero
      intro h0
      rw [List.mem_map] at h0
      obtain ⟨b, hb, hb0⟩ := h0
      exact hne b hb hb0
    rw [mul_assoc, inv_mul_cancel₀ hdne, mul_one]
  · intro i hi hne
    have hmem : xs.getD k 0 ∈ xs.eraseIdx i :=
      mem_eraseIdx_of_ne xs i k hk (fun h => hne h.symm)
    have hz : (0 : F) ∈ (xs.eraseIdx i).map (fun b => xs.getD k 0 - b) := by
      rw [List.mem_map]
      exact ⟨xs.getD k 0, hmem, sub_self _⟩
    rw [List.prod_eq_zero hz, mul_zero]

/-- Quotient form of the Lagrange factors at zero. -/
theorem prod_quot_eraseIdx : ∀ (l : List F) (a : F),
    (l.map (fun b => b / (b - a))).prod =
      (l.map (fun b => (0 : F) - b)).prod / (l.map (fun b => a - b)).prod := by
  intro l a
  induction l with
  | nil => simp
  | cons b l ih =>
    simp only [List.map_cons, List.prod_cons]
    rw [ih, div_mul_div_comm]
    have e1 : (0 : F) - b = -b := by ring
    have e2 : a - b = -(b - a) := by ring
    rw [e1, e2, neg_mul, neg_mul, neg_div_neg_eq]

/-- **Interpolation at zero.**  A polynomial with at most as many
coefficients as there are distinct sample points is recovered at zero by
the Lagrange formula. -/
theorem interp_at_zero (xs cs : List F) (hnd : xs.Nodup)
    (hlen : cs.length ≤ xs.length) :
    lagAtZero xs (xs.map (fun a => peval cs a)) = peval cs 0 := by
  set ys := xs.map (fun a => peval cs a) with hys
  have hvan : ∀ a ∈ xs, peval (padd cs (psmul (-1) (interpPoly xs ys))) a = 0 := by
    intro a ha
    obtain ⟨k, hget⟩ := List.mem_iff_get?.mp ha
    have hklt : k < xs.length := by
      by_contra hq
      rw [List.get?_eq_none.mpr (by omega)] at hget
      exact Option.noConfusion hget
    have hak : a = xs.getD k 0 := by
      rw [List.getD_eq_getD_get?, hget]
      rfl
    have hyk : ys.getD k 0 = peval cs (xs.getD k 0) := by
      rw [hys, List.getD_eq_getD_get?, List.get?_map, hget]
      show peval cs a = _
      rw [hak]
    rw [peval_padd, peval_psmul, hak, interpPoly_node xs ys hnd k hklt, hyk]
    ring
  have hdlen : (padd cs (psmul (-1) (interpPoly xs ys))).length ≤ xs.length := by
    rw [padd_length, psmul_length]
    have hi := interpPoly_length xs ys
    omega
  have hzero := eval_zero_of_roots xs _ hnd hdlen hvan 0
  rw [peval_padd, peval_psmul] at hzero
  have hip : peval (interpPoly xs ys) 0 = peval cs 0 := by
    rw [neg_one_mul, ← sub_eq_add_neg] at hzero
    exact (sub_eq_zero.mp hzero).symm
  rw [← hip, interpPoly_eval]
  unfold lagAtZero
  congr 1
  apply List.map_congr_left
  intro i _
  rw [prod_quot_eraseIdx, div_eq_mul_inv]
  ring

end Interp

/-! ## Bridging the byte-level code to GF(2^8) -/

/-- `2^8` as a numeral. -/
theorem pow8_256 : (2 : Nat) ^ 8 = 256 := by norm_num

/-- A byte as a field element (the value reduced mod 256). -/
def toGF (v : Nat) : GF := ⟨v % 256, Nat.mod_lt v (by norm_num)⟩

/-- The byte value of `toGF` on bytes. -/
theorem toGF_val (v : Nat) (hv : v < 256) : (toGF v).val = v := Nat.mod_eq_of_lt hv

/-- `toGF` of zero. -/
theorem toGF_zero : toGF 0 = 0 := rfl

/-- Bytes with equal images are equal. -/
theorem toGF_inj (a b : Nat) (ha : a < 256) (hb : b < 256) (h : toGF a = toGF b) :
    a = b := by
  have hv := congrArg Fin.val h
  rw [toGF_val a ha, toGF_val b hb] at hv
  exact hv

/-- XOR of bytes is addition in GF(2^8). -/
theorem toGF_xor (a b : Nat) (ha : a < 256) (hb : b < 256) :
    toGF (a ^^^ b) = toGF a + toGF b := by
  apply Fin.ext
  rw [gf_add_val, toGF_val _ (xor8_lt a b ha hb), toGF_val a ha, toGF_val b hb]

/-- The `logs` table at `n = 8`, in field terms. -/
theorem logs8 (v : Nat) (hv0 : 0 < v) (hv : v < 256) :
    ∃ i, i < 256 ∧ (generate_logs_and_exps 8).1.get? v = some (some i) ∧
      gfExp i = toGF v := by
  obtain ⟨i, hi, hg, hf⟩ := logs_defined 8 (by norm_num) (by norm_num) v hv0
    (by rw [pow8_256]; exact hv)
  rw [pow8_256] at hi
  refine ⟨i, hi, hg, ?_⟩
  apply Fin.ext
  rw [gfExp_val, toGF_val v hv]
  exact hf

/-- The `exps` table at `n = 8`, in field terms. -/
theorem exps8 (i : Nat) (hi : i < 256) :
    (generate_logs_and_exps 8).2.get? i = some (fpow (Pmod 8) 2 i) := by
  have h := exps_entry 8 (by norm_num) (by norm_num) i (by rw [pow8_256]; exact hi)
  exact h.1

/-- The undefined `logs` cell at `n = 8`. -/
theorem logs8_zero : (generate_logs_and_exps 8).1.get? 0 = some none :=
  logs_zero 8 (by norm_num) (by norm_num)

/-- Reading every position of a list reproduces it. -/
theorem map_getD_range {α : Type} (d : α) :
    ∀ (t : List α), (List.range t.length).map (fun j => t.getD j d) = t := by
  intro t
  induction t with
  | nil => rfl
  | cons a t ih =>
    show (List.range (t.length + 1)).map (fun j => (a :: t).getD j d) = a :: t
    rw [List.range_succ_eq_map, List.map_cons, List.map_map]
    congr 1

/-- `eraseIdx` as reading the positions other than the erased one. -/
theorem eraseIdx_eq_filter_range {α : Type} (d : α) :
    ∀ (t : List α) (i : Nat), t.eraseIdx i =
      ((List.range t.length).filter (fun j => ¬ j = i)).map (fun j => t.getD j d) := by
  intro t
  induction t with
  | nil => intro i; rfl
  | cons a t ih =>
    intro i
    cases i with
    | zero =>
      show t = _
      rw [show (a :: t).length = t.length + 1 from rfl, List.range_succ_eq_map]
      rw [List.filter_cons_of_neg (by decide)]
      rw [List.filter_map]
      have he : ((fun j => decide (¬ j = 0)) ∘ Nat.succ) = fun _ => true := by
        funext j
        simp [Function.comp]
      rw [he, List.filter_true, List.map_map]
      have he2 : ((fun j => (a :: t).getD j d) ∘ Nat.succ) = fun j => t.getD j d := by
        funext j
        simp [Function.comp, List.getD_cons_succ]
      rw [he2, map_getD_range]
    | succ i =>
      show a :: t.eraseIdx i = _
      rw [show (a :: t).length = t.length + 1 from rfl, List.range_succ_eq_map]
      rw [List.filter_cons_of_pos (by simp)]
      rw [List.filter_map]
      have he : ((fun j => decide (¬ j = i + 1)) ∘ Nat.succ) = fun j => decide (¬ j = i) := by
        funext j
        simp [Function.comp]
      rw [he, List.map_cons, List.map_map]
      congr 1
      have he2 : ((fun j => (a :: t).getD j d) ∘ Nat.succ) = fun j => t.getD j d := by
        funext j
        simp [Function.comp, List.getD_cons_succ]
      rw [he2, ih i]

/-- `toGF` of a power value. -/
theorem toGF_fpow (p : Nat) : toGF (fpow (Pmod 8) 2 p) = gfExp p := by
  apply Fin.ext
  rw [toGF_val _ (fpow8_lt p), gfExp_val]

/-- The inner `lagrange` loop, tracked in GF(2^8): the exponent accumulator
follows the product of the Lagrange factors of the visited indices. -/
theorem lagProduct_sem (xs : List Nat)
    (hx0 : ∀ a ∈ xs, 0 < a) (hxlt : ∀ a ∈ xs, a < 256) (hnd : xs.Nodup)
    (i : Nat) (hi : i < xs.length) :
    ∀ (js : List Nat), (∀ j ∈ js, j < xs.length) → ∀ e, e < 256 →
      ∃ p, p < 256 ∧
        lagProduct (2 ^ 8) (generate_logs_and_exps 8).1 xs i e js =
          some (Except.ok p) ∧
        gfExp p = gfExp e * ((js.filter (fun j => ¬ j = i)).map
          (fun j => toGF (xs.getD j 0) /
            (toGF (xs.getD j 0) - toGF (xs.getD i 0)))).prod := by
  intro js
  induction js with
  | nil =>
    intro _ e he
    refine ⟨e, he, rfl, ?_⟩
    rw [show List.filter (fun j => ¬ j = i) [] = [] from rfl,
      List.map_nil, List.prod_nil, mul_one]
  | cons j js ih =>
    intro hjs e he
    have hj : j < xs.length := hjs j (List.mem_cons_self j js)
    have hjs' : ∀ k ∈ js, k < xs.length := fun k hk => hjs k (List.mem_cons_of_mem j hk)
    by_cases hij : i = j
    · obtain ⟨p, hp, hrec, hval⟩ := ih hjs' e he
      refine ⟨p, hp, ?_, ?_⟩
      · have eq1 : lagProduct (2 ^ 8) (generate_logs_and_exps 8).1 xs i e (j :: js) =
            lagProduct (2 ^ 8) (generate_logs_and_exps 8).1 xs i e js := by
          simp only [lagProduct]
          rw [if_pos hij]
        rw [eq1]
        exact hrec
      · rw [List.filter_cons_of_neg (by subst hij; simp)]
        exact hval
    · have hgj : xs.get? j = some (xs.get ⟨j, hj⟩) := List.get?_eq_get hj
      have hgi : xs.get? i = some (xs.get ⟨i, hi⟩) := List.get?_eq_get hi
      set xj := xs.get ⟨j, hj⟩ with hxj
      set xi := xs.get ⟨i, hi⟩ with hxi
      have hmj : xj ∈ xs := List.get?_mem hgj
      have hmi : xi ∈ xs := List.get?_mem hgi
      have hne : xi ≠ xj := by
        intro hq
        rw [hxi, hxj] at hq
        exact hij (congrArg Fin.val (hnd.get_inj_iff.mp hq))
      have hgdj : xs.getD j 0 = xj := by
        rw [List.getD_eq_getD_get?, hgj]
        rfl
      have hgdi : xs.getD i 0 = xi := by
        rw [List.getD_eq_getD_get?, hgi]
        rfl
      obtain ⟨p1, hp1lt, hgl1, hge1⟩ := logs8 xj (hx0 xj hmj) (hxlt xj hmj)
      have hxor0 : xi ^^^ xj ≠ 0 := fun hq => hne (Nat.xor_eq_zero.mp hq)
      have hxorlt : xi ^^^ xj < 256 := xor8_lt xi xj (hxlt xi hmi) (hxlt xj hmj)
      obtain ⟨p2, hp2lt, hgl2, hge2⟩ := logs8 (xi ^^^ xj)
        (Nat.pos_of_ne_zero hxor0) hxorlt
      have hms : ¬ ((2 : Nat) ^ 8 - 1 = 0) := by norm_num
      have hguard : p2 ≤ 2 ^ 8 - 1 + e + p1 ∧ 2 ^ 8 - 1 + e + p1 < 2 ^ 32 := by
        have h8 : (2 : Nat) ^ 8 = 256 := pow8_256
        have h32 : (2 : Nat) ^ 32 = 4294967296 := by norm_num
        omega
      have he'lt : (2 ^ 8 - 1 + e + p1 - p2) % (2 ^ 8 - 1) < 256 := by
        have hm := Nat.mod_lt (2 ^ 8 - 1 + e + p1 - p2)
          (by norm_num : 0 < (2 : Nat) ^ 8 - 1)
        have h8 : (2 : Nat) ^ 8 = 256 := pow8_256
        omega
      obtain ⟨p, hp, hrec, hval⟩ := ih hjs' ((2 ^ 8 - 1 + e + p1 - p2) % (2 ^ 8 - 1)) he'lt
      refine ⟨p, hp, ?_, ?_⟩
      · have eq1 : lagProduct (2 ^ 8) (generate_logs_and_exps 8).1 xs i e (j :: js) =
            lagProduct (2 ^ 8) (generate_logs_and_exps 8).1 xs i
              ((2 ^ 8 - 1 + e + p1 - p2) % (2 ^ 8 - 1)) js := by
          simp only [lagProduct]
          rw [if_neg hij, hgj, hgi]
          simp only []
          rw [hgl1]
          simp only []
          rw [hgl2]
          simp only []
          rw [if_neg hms, if_pos hguard]
        rw [eq1]
        exact hrec
      · have hge1' : gfExp p1 = toGF (xs.getD j 0) := by
          rw [hgdj]
          exact hge1
        have hge2' : gfExp p2 = toGF (xs.getD j 0) - toGF (xs.getD i 0) := by
          rw [hgdj, hgdi, gf_sub_eq, ← toGF_xor xj xi (hxlt xj hmj) (hxlt xi hmi),
            Nat.xor_comm xj xi]
          exact hge2
        have hinv : gfExp (255 - p2) = (gfExp p2)⁻¹ := by
          apply eq_inv_of_mul_eq_one_right
          rw [← gfExp_add, show p2 + (255 - p2) = 255 from by omega]
          exact gfExp_255
        have hstep : gfExp ((2 ^ 8 - 1 + e + p1 - p2) % (2 ^ 8 - 1)) =
            gfExp e * (toGF (xs.getD j 0) /
              (toGF (xs.getD j 0) - toGF (xs.getD i 0))) := by
          have harith : 2 ^ 8 - 1 + e + p1 - p2 = e + (p1 + (255 - p2)) := by
            have h8 : (2 : Nat) ^ 8 = 256 := pow8_256
            omega
          rw [harith, show ((2 : Nat) ^ 8 - 1) = 255 from by norm_num, gfExp_mod,
            gfExp_add, gfExp_add, hge1', hinv, hge2', div_eq_mul_inv]
        rw [List.filter_cons_of_pos (by simp; exact fun h => hij h.symm),
          List.map_cons, List.prod_cons, hval, hstep]
        ring

/-- The outer `lagrange` loop, tracked in GF(2^8): the running XOR follows
the sum of the per-index Lagrange terms. -/
theorem lagSum_sem (xs ys : List Nat) (hlen : xs.length = ys.length)
    (hx0 : ∀ a ∈ xs, 0 < a) (hxlt : ∀ a ∈ xs, a < 256) (hnd : xs.Nodup)
    (hylt : ∀ b ∈ ys, b < 256) :
    ∀ (is : List Nat), (∀ i ∈ is, i < xs.length) → ∀ s, s < 256 →
      ∃ v, v < 256 ∧
        lagSum (2 ^ 8) (generate_logs_and_exps 8).1 (generate_logs_and_exps 8).2
          xs ys s is = some (Except.ok v) ∧
        toGF v = toGF s + (is.map (fun i =>
          toGF (ys.getD i 0) * (((List.range xs.length).filter (fun j => ¬ j = i)).map
            (fun j => toGF (xs.getD j 0) /
              (toGF (xs.getD j 0) - toGF (xs.getD i 0)))).prod)).sum := by
  intro is
  induction is with
  | nil =>
    intro _ s hs
    refine ⟨s, hs, rfl, ?_⟩
    rw [List.map_nil, List.sum_nil, add_zero]
  | cons i is ih =>
    intro his s hs
    have hi : i < xs.length := his i (List.mem_cons_self i is)
    have his' : ∀ k ∈ is, k < xs.length := fun k hk => his k (List.mem_cons_of_mem i hk)
    have hiy : i < ys.length := by omega
    have hgy : ys.get? i = some (ys.get ⟨i, hiy⟩) := List.get?_eq_get hiy
    set yi := ys.get ⟨i, hiy⟩ with hyi
    have hmy : yi ∈ ys := List.get?_mem hgy
    have hylti : yi < 256 := hylt yi hmy
    have hgdy : ys.getD i 0 = yi := by
      rw [List.getD_eq_getD_get?, hgy]
      rfl
    by_cases hy0 : yi = 0
    · obtain ⟨v, hv, hrec, hval⟩ := ih his' s hs
      refine ⟨v, hv, ?_, ?_⟩
      · have e : lagSum (2 ^ 8) (generate_logs_and_exps 8).1 (generate_logs_and_exps 8).2
            xs ys s (i :: is) =
            lagSum (2 ^ 8) (generate_logs_and_exps 8).1 (generate_logs_and_exps 8).2
              xs ys s is := by
          simp only [lagSum]
          rw [hgy]
          simp only []
          rw [hy0, logs8_zero]
        rw [e]
        exact hrec
      · rw [List.map_cons, List.sum_cons, hval, hgdy, hy0, toGF_zero, zero_mul, zero_add]
    · obtain ⟨a, halt, hga, hgea⟩ := logs8 yi (Nat.pos_of_ne_zero hy0) hylti
      obtain ⟨p, hplt, hprod, hpval⟩ := lagProduct_sem xs hx0 hxlt hnd i hi
        (List.range xs.length) (fun k hk => List.mem_range.mp hk) a halt
      have hge := exps8 p hplt
      have hs' : s ^^^ fpow (Pmod 8) 2 p < 256 := xor8_lt s _ hs (fpow8_lt p)
      obtain ⟨v, hv, hrec, hval⟩ := ih his' (s ^^^ fpow (Pmod 8) 2 p) hs'
      refine ⟨v, hv, ?_, ?_⟩
      · have e : lagSum (2 ^ 8) (generate_logs_and_exps 8).1 (generate_logs_and_exps 8).2
            xs ys s (i :: is) =
            lagSum (2 ^ 8) (generate_logs_and_exps 8).1 (generate_logs_and_exps 8).2
              xs ys (s ^^^ fpow (Pmod 8) 2 p) is := by
          simp only [lagSum]
          rw [hgy]
          simp only []
          rw [hga]
          simp only []
          rw [hprod]
          simp only []
          rw [hge]
        rw [e]
        exact hrec
      · rw [List.map_cons, List.sum_cons, hval,
          toGF_xor s _ hs (fpow8_lt p), toGF_fpow, hpval, hgea, hgdy]
        ring

/-- `lagrange` at `n = 8` computes the Lagrange formula at zero in
GF(2^8). -/
theorem lagrange8 (xs ys : List Nat) (hlen : xs.length = ys.length)
    (hx0 : ∀ a ∈ xs, 0 < a) (hxlt : ∀ a ∈ xs, a < 256) (hnd : xs.Nodup)
    (hylt : ∀ b ∈ ys, b < 256) :
    ∃ v, v < 256 ∧
      lagrange xs ys (generate_logs_and_exps 8).1 (generate_logs_and_exps 8).2 8 =
        some (Except.ok v) ∧
      toGF v = lagAtZero (xs.map toGF) (ys.map toGF) := by
  obtain ⟨v, hv, hrun, hval⟩ := lagSum_sem xs ys hlen hx0 hxlt hnd hylt
    (List.range xs.length) (fun k hk => List.mem_range.mp hk) 0 (by norm_num)
  refine ⟨v, hv, hrun, ?_⟩
  rw [hval, toGF_zero, zero_add]
  unfold lagAtZero
  rw [List.length_map]
  congr 1
  apply List.map_congr_left
  intro i hi
  rw [List.mem_range] at hi
  have hyF : (ys.map toGF).getD i 0 = toGF (ys.getD i 0) := by
    rw [List.getD_eq_getElem (ys.map toGF) 0 (by rw [List.length_map]; omega),
      List.getElem_map, List.getD_eq_getElem ys 0 (by omega)]
  have hxF : (xs.map toGF).getD i 0 = toGF (xs.getD i 0) := by
    rw [List.getD_eq_getElem (xs.map toGF) 0 (by rw [List.length_map]; exact hi),
      List.getElem_map, List.getD_eq_getElem xs 0 hi]
  rw [hyF, hxF]
  congr 1
  rw [eraseIdx_eq_filter_range (0 : GF) (xs.map toGF) i, List.length_map, List.map_map]
  congr 1
  apply List.map_congr_left
  intro j hj
  rw [List.mem_filter, List.mem_range] at hj
  have hjF : (xs.map toGF).getD j 0 = toGF (xs.getD j 0) := by
    rw [List.getD_eq_getElem (xs.map toGF) 0 (by rw [List.length_map]; exact hj.1),
      List.getElem_map, List.getD_eq_getElem xs 0 hj.1]
  show toGF (xs.getD j 0) / (toGF (xs.getD j 0) - toGF (xs.getD i 0)) = _
  simp only [Function.comp]
  rw [hjF]

/-- One Horner step at `n = 8`, in field terms. -/
theorem hornerStep8_gf (logx fx a : Nat) (hfx : fx < 256) (ha : a < 256) :
    hornerStep logx 8 (generate_logs_and_exps 8).1 (generate_logs_and_exps 8).2 fx a < 256 ∧
    toGF (hornerStep logx 8 (generate_logs_and_exps 8).1 (generate_logs_and_exps 8).2 fx a) =
      gfExp logx * toGF fx + toGF a := by
  unfold hornerStep
  by_cases h0 : fx = 0
  · rw [if_neg (fun hq => hq h0)]
    subst h0
    rw [toGF_zero, mul_zero, zero_add]
    exact ⟨ha, rfl⟩
  · rw [if_pos h0]
    obtain ⟨lfx, hlflt, hglfx, hgelfx⟩ := logs8 fx (Nat.pos_of_ne_zero h0) hfx
    have hgd : (generate_logs_and_exps 8).1.getD fx none = some lfx := by
      rw [List.getD_eq_getD_get?, hglfx]
      rfl
    rw [hgd, Option.getD_some]
    have hidx : (logx + lfx) % (2 ^ 8 - 1) < 256 := by
      have hm := Nat.mod_lt (logx + lfx) (by norm_num : 0 < (2 : Nat) ^ 8 - 1)
      have h8 := pow8_256
      omega
    have hgidx : (generate_logs_and_exps 8).2.getD ((logx + lfx) % (2 ^ 8 - 1)) 0 =
        fpow (Pmod 8) 2 ((logx + lfx) % (2 ^ 8 - 1)) := by
      rw [List.getD_eq_getD_get?, exps8 _ hidx]
      rfl
    rw [hgidx]
    refine ⟨xor8_lt _ a (fpow8_lt _) ha, ?_⟩
    rw [toGF_xor _ a (fpow8_lt _) ha, toGF_fpow,
      show ((2 : Nat) ^ 8 - 1) = 255 from by norm_num, gfExp_mod, gfExp_add, hgelfx]

/-- The Horner fold at `n = 8`, in field terms. -/
theorem hornerFold8_gf (logx : Nat) :
    ∀ (l : List Nat) (fx : Nat), fx < 256 → (∀ a ∈ l, a < 256) →
      l.foldl (hornerStep logx 8 (generate_logs_and_exps 8).1
        (generate_logs_and_exps 8).2) fx < 256 ∧
      toGF (l.foldl (hornerStep logx 8 (generate_logs_and_exps 8).1
        (generate_logs_and_exps 8).2) fx) =
        l.foldl (fun g a => gfExp logx * g + toGF a) (toGF fx) := by
  intro l
  induction l with
  | nil => exact fun fx hfx _ => ⟨hfx, rfl⟩
  | cons a l ih =>
    intro fx hfx hl
    have ha : a < 256 := hl a (List.mem_cons_self a l)
    have hl' : ∀ b ∈ l, b < 256 := fun b hb => hl b (List.mem_cons_of_mem a hb)
    obtain ⟨hslt, hsval⟩ := hornerStep8_gf logx fx a hfx ha
    obtain ⟨hrlt, hrval⟩ := ih _ hslt hl'
    rw [List.foldl_cons, List.foldl_cons]
    exact ⟨hrlt, by rw [hrval, hsval]⟩

/-- `horner` at `n = 8` evaluates the polynomial with the given
coefficients, in field terms. -/
theorem horner8 (x : Nat) (cs : List Nat) (hx0 : 0 < x) (hx : x < 256)
    (hcs : ∀ a ∈ cs, a < 256) :
    ∃ r, r < 256 ∧
      horner x cs (generate_logs_and_exps 8).1 (generate_logs_and_exps 8).2 8 = some r ∧
      toGF r = peval (cs.map toGF) (toGF x) := by
  obtain ⟨i, hilt, hget, hgei⟩ := logs8 x hx0 hx
  obtain ⟨r, hrun, hrlt, hreq⟩ := hornerGo_total 8 (by norm_num) (by norm_num) i
    cs.reverse 0 (by rw [pow8_256]; norm_num)
    (fun a ha => by rw [pow8_256]; exact hcs a (List.mem_reverse.mp ha))
  rw [pow8_256] at hrlt
  have h256 : r < 256 := hrlt
  refine ⟨r, h256, ?_, ?_⟩
  · unfold horner
    rw [hget]
    simp only []
    rw [hrun]
    simp only []
    rw [if_pos h256]
  · obtain ⟨hflt, hfval⟩ := hornerFold8_gf i cs.reverse 0 (by norm_num)
      (fun a ha => hcs a (List.mem_reverse.mp ha))
    rw [hreq, hfval, toGF_zero, List.foldl_reverse]
    rw [hgei]
    show _ = (cs.map toGF).foldr (fun c acc => toGF x * acc + c) 0
    rw [List.foldr_map]

/-- Reconstruction of one byte: when each sample is the Horner value of the
coefficient list at the matching share number, `lagrange` returns the
constant coefficient. -/
theorem byte_recover (xs ys cs : List Nat)
    (hlen : xs.length = ys.length)
    (hx0 : ∀ a ∈ xs, 0 < a) (hxlt : ∀ a ∈ xs, a < 256) (hnd : xs.Nodup)
    (hylt : ∀ b ∈ ys, b < 256)
    (hcs : ∀ a ∈ cs, a < 256) (hclen : cs.length ≤ xs.length)
    (hy : ∀ k, k < xs.length →
      toGF (ys.getD k 0) = peval (cs.map toGF) (toGF (xs.getD k 0))) :
    lagrange xs ys (generate_logs_and_exps 8).1 (generate_logs_and_exps 8).2 8 =
      some (Except.ok (cs.getD 0 0)) := by
  obtain ⟨v, hv, hrun, hval⟩ := lagrange8 xs ys hlen hx0 hxlt hnd hylt
  have hymap : ys.map toGF = (xs.map toGF).map (fun a => peval (cs.map toGF) a) := by
    apply List.ext_getElem
    · rw [List.length_map, List.length_map, List.length_map, hlen]
    · intro n h1 h2
      rw [List.getElem_map, List.getElem_map, List.getElem_map]
      have hn : n < xs.length := by
        rw [List.length_map, List.length_map] at h2
        exact h2
      have hh := hy n hn
      rw [List.getD_eq_getElem ys 0 (by omega), List.getD_eq_getElem xs 0 hn] at hh
      exact hh
  have hnD : (xs.map toGF).Nodup := by
    apply List.Nodup.map_on ?_ hnd
    intro p hp q hq hpq
    exact toGF_inj p q (hxlt p hp) (hxlt q hq) hpq
  have hlenF : (cs.map toGF).length ≤ (xs.map toGF).length := by
    rw [List.length_map, List.length_map]
    exact hclen
  have hinterp := interp_at_zero (xs.map toGF) (cs.map toGF) hnD hlenF
  rw [hymap, hinterp] at hval
  have hz : peval (cs.map toGF) 0 = toGF (cs.getD 0 0) := by
    cases cs with
    | nil =>
      show (0 : GF) = toGF 0
      rw [toGF_zero]
    | cons c rest =>
      show peval (toGF c :: rest.map toGF) 0 = toGF c
      rw [peval_cons, zero_mul, zero_add]
  rw [hz] at hval
  have hc0 : cs.getD 0 0 < 256 := by
    cases cs with
    | nil => norm_num
    | cons c rest => exact hcs c (List.mem_cons_self c rest)
  have hveq : v = cs.getD 0 0 := toGF_inj v _ hv hc0 hval
  rw [hrun, hveq]

/-! ## Base64 and bit-packing round trips -/

/-- Decoding an alphabet character recovers its index. -/
theorem b64Index_b64Char : ∀ i < 64, b64Index (b64Char i) = some i := by decide

/-- Alphabet characters are not padding. -/
theorem b64Char_ne_eq : ∀ i < 64, b64Char i ≠ '=' := by decide

/-- Base64 decoding inverts encoding on byte lists. -/
theorem b64_roundtrip : ∀ (bytes : List Nat), (∀ b ∈ bytes, b < 256) →
    b64DecodeChunks (b64EncodeChunks bytes) = some bytes := by
  intro bytes
  induction bytes using b64EncodeChunks.induct with
  | case1 =>
    intro _
    rfl
  | case2 a =>
    intro hb
    have ha : a < 256 := hb a (List.mem_cons_self a [])
    show b64DecodeChunks [b64Char (a / 4), b64Char (a % 4 * 16), '=', '='] = some [a]
    rw [b64DecodeChunks.eq_2, b64Index_b64Char (a / 4) (by omega),
      b64Index_b64Char (a % 4 * 16) (by omega)]
    simp only []
    rw [if_pos (by omega : a % 4 * 16 % 16 = 0)]
    rw [show a / 4 * 4 + a % 4 * 16 / 16 = a from by omega]
  | case3 a b =>
    intro hb
    have ha : a < 256 := hb a (List.mem_cons_self a [b])
    have hbb : b < 256 := hb b (List.mem_cons_of_mem a (List.mem_cons_self b []))
    show b64DecodeChunks [b64Char (a / 4), b64Char (a % 4 * 16 + b / 16),
      b64Char (b % 16 * 4), '='] = some [a, b]
    rw [b64DecodeChunks.eq_3 _ _ _
      (fun h => absurd h (b64Char_ne_eq (b % 16 * 4) (by omega))),
      b64Index_b64Char (a / 4) (by omega),
      b64Index_b64Char (a % 4 * 16 + b / 16) (by omega),
      b64Index_b64Char (b % 16 * 4) (by omega)]
    simp only []
    rw [if_pos (by omega : b % 16 * 4 % 4 = 0)]
    rw [show a / 4 * 4 + (a % 4 * 16 + b / 16) / 16 = a from by omega,
      show (a % 4 * 16 + b / 16) % 16 * 16 + b % 16 * 4 / 4 = b from by omega]
  | case4 a b c rest ih =>
    intro hb
    have ha : a < 256 := hb a (List.mem_cons_self a _)
    have hbb : b < 256 := hb b (List.mem_cons_of_mem a (List.mem_cons_self b _))
    have hcc : c < 256 := hb c
      (List.mem_cons_of_mem a (List.mem_cons_of_mem b (List.mem_cons_self c _)))
    have hrest : ∀ x ∈ rest, x < 256 := fun x hx => hb x
      (List.mem_cons_of_mem a (List.mem_cons_of_mem b (List.mem_cons_of_mem c hx)))
    show b64DecodeChunks (b64Char (a / 4) :: b64Char (a % 4 * 16 + b / 16) ::
      b64Char (b % 16 * 4 + c / 64) :: b64Char (c % 64) :: b64EncodeChunks rest) =
      some (a :: b :: c :: rest)
    rw [b64DecodeChunks.eq_4 _ _ _ _ _
      (fun h3 _ _ => absurd h3 (b64Char_ne_eq (b % 16 * 4 + c / 64) (by omega)))
      (fun h4 _ => absurd h4 (b64Char_ne_eq (c % 64) (by omega)))]
    rw [b64Index_b64Char (a / 4) (by omega),
      b64Index_b64Char (a % 4 * 16 + b / 16) (by omega),
      b64Index_b64Char (b % 16 * 4 + c / 64) (by omega),
      b64Index_b64Char (c % 64) (by omega), ih hrest]
    simp only []
    rw [show a / 4 * 4 + (a % 4 * 16 + b / 16) / 16 = a from by omega,
      show (a % 4 * 16 + b / 16) % 16 * 16 + (b % 16 * 4 + c / 64) / 4 = b from by omega,
      show (b % 16 * 4 + c / 64) % 4 * 64 + c % 64 = c from by omega]

/-- String-level base64 round trip. -/
theorem b64_roundtrip_str (bytes : List Nat) (h : ∀ b ∈ bytes, b < 256) :
    b64Decode (b64Encode bytes) = some bytes := by
  unfold b64Decode b64Encode
  rw [show (String.mk (b64EncodeChunks bytes)).toList = b64EncodeChunks bytes from rfl]
  exact b64_roundtrip bytes h

/-- The MSB-first bit stream of a byte list. -/
def joinBits (bytes : List Nat) : List Bool :=
  bytes.foldr (fun b acc => bitsOfWidth 8 b ++ acc) []

/-- `joinBits` splits over append. -/
theorem joinBits_append : ∀ (u v : List Nat),
    joinBits (u ++ v) = joinBits u ++ joinBits v := by
  intro u v
  induction u with
  | nil => rfl
  | cons a u ih =>
    show bitsOfWidth 8 a ++ joinBits (u ++ v) = (bitsOfWidth 8 a ++ joinBits u) ++ joinBits v
    rw [ih, List.append_assoc]

/-- The eight bits of a byte, most significant first. -/
theorem bitsOfWidth8 (b : Nat) : bitsOfWidth 8 b =
    [b.testBit 7, b.testBit 6, b.testBit 5, b.testBit 4,
     b.testBit 3, b.testBit 2, b.testBit 1, b.testBit 0] := rfl

/-- A byte is recovered from its eight bits. -/
theorem byteOfBits_testBits : ∀ b < 256, byteOfBits [b.testBit 7, b.testBit 6,
    b.testBit 5, b.testBit 4, b.testBit 3, b.testBit 2, b.testBit 1, b.testBit 0] = b := by
  decide

/-- Length of a bit stream. -/
theorem joinBits_length : ∀ (bytes : List Nat), (joinBits bytes).length = 8 * bytes.length := by
  intro bytes
  induction bytes with
  | nil => rfl
  | cons a bytes ih =>
    show (bitsOfWidth 8 a ++ joinBits bytes).length = 8 * (bytes.length + 1)
    rw [List.length_append, ih, bitsOfWidth8 a]
    show 8 + 8 * bytes.length = 8 * (bytes.length + 1)
    omega

/-- Packing the bit stream of a byte list recovers the bytes. -/
theorem bitsToBytesF_joinBits : ∀ (bytes : List Nat) (fuel : Nat),
    (∀ b ∈ bytes, b < 256) → (joinBits bytes).length ≤ fuel →
    bitsToBytesF fuel (joinBits bytes) = bytes := by
  intro bytes
  induction bytes with
  | nil =>
    intro fuel _ _
    cases fuel with
    | zero => rfl
    | succ f => rfl
  | cons b t ih =>
    intro fuel hlt hfuel
    have hb : b < 256 := hlt b (List.mem_cons_self b t)
    have ht : ∀ x ∈ t, x < 256 := fun x hx => hlt x (List.mem_cons_of_mem b hx)
    have hjl : (joinBits (b :: t)).length = 8 * (t.length + 1) := joinBits_length (b :: t)
    cases fuel with
    | zero =>
      rw [hjl] at hfuel
      omega
    | succ f =>
      have hstream : joinBits (b :: t) = b.testBit 7 :: (b.testBit 6 :: b.testBit 5 ::
          b.testBit 4 :: b.testBit 3 :: b.testBit 2 :: b.testBit 1 :: b.testBit 0 ::
          joinBits t) := by
        show bitsOfWidth 8 b ++ joinBits t = _
        rw [bitsOfWidth8]
        rfl
      rw [hstream]
      simp only [bitsToBytesF]
      have htake : List.take 8 (b.testBit 7 :: b.testBit 6 :: b.testBit 5 ::
          b.testBit 4 :: b.testBit 3 :: b.testBit 2 :: b.testBit 1 :: b.testBit 0 ::
          joinBits t) = [b.testBit 7, b.testBit 6, b.testBit 5, b.testBit 4,
          b.testBit 3, b.testBit 2, b.testBit 1, b.testBit 0] := by
        have he : b.testBit 7 :: b.testBit 6 :: b.testBit 5 :: b.testBit 4 ::
            b.testBit 3 :: b.testBit 2 :: b.testBit 1 :: b.testBit 0 :: joinBits t =
            [b.testBit 7, b.testBit 6, b.testBit 5, b.testBit 4, b.testBit 3,
             b.testBit 2, b.testBit 1, b.testBit 0] ++ joinBits t := rfl
        rw [he, show (8 : Nat) = ([b.testBit 7, b.testBit 6, b.testBit 5, b.testBit 4,
          b.testBit 3, b.testBit 2, b.testBit 1, b.testBit 0] : List Bool).length from rfl]
        exact List.take_left _ _
      have hlen8 : (b.testBit 7 :: b.testBit 6 :: b.testBit 5 :: b.testBit 4 ::
          b.testBit 3 :: b.testBit 2 :: b.testBit 1 :: b.testBit 0 ::
          joinBits t).length = 8 + (joinBits t).length := by
        simp only [List.length_cons]
        omega
      have hpad : 8 - (b.testBit 7 :: b.testBit 6 :: b.testBit 5 :: b.testBit 4 ::
          b.testBit 3 :: b.testBit 2 :: b.testBit 1 :: b.testBit 0 ::
          joinBits t).length = 0 := by
        rw [hlen8]
        omega
      rw [htake, hpad, show List.replicate 0 false = ([] : List Bool) from rfl,
        List.append_nil, byteOfBits_testBits b hb]
      have hdrop : List.drop 7 (b.testBit 6 :: b.testBit 5 :: b.testBit 4 ::
          b.testBit 3 :: b.testBit 2 :: b.testBit 1 :: b.testBit 0 :: joinBits t) =
          joinBits t := by
        have he : b.testBit 6 :: b.testBit 5 :: b.testBit 4 :: b.testBit 3 ::
            b.testBit 2 :: b.testBit 1 :: b.testBit 0 :: joinBits t =
            [b.testBit 6, b.testBit 5, b.testBit 4, b.testBit 3, b.testBit 2,
             b.testBit 1, b.testBit 0] ++ joinBits t := rfl
        rw [he, show (7 : Nat) = ([b.testBit 6, b.testBit 5, b.testBit 4,
          b.testBit 3, b.testBit 2, b.testBit 1, b.testBit 0] : List Bool).length from rfl]
        exact List.drop_left _ _
      rw [hdrop, ih f ht (by
        rw [joinBits_length] at hfuel ⊢
        simp only [List.length_cons] at hfuel
        omega)]

/-- Packing the bit stream of a byte list recovers the bytes. -/
theorem bitsToBytes_joinBits (bytes : List Nat) (h : ∀ b ∈ bytes, b < 256) :
    bitsToBytes (joinBits bytes) = bytes :=
  bitsToBytesF_joinBits bytes (joinBits bytes).length h (le_refl _)

/-- Zero bytes contribute all-false bits. -/
theorem joinBits_replicate_zero : ∀ (m : Nat),
    joinBits (List.replicate m 0) = List.replicate (8 * m) false := by
  intro m
  induction m with
  | zero => rfl
  | succ m ih =>
    rw [List.replicate_succ]
    show bitsOfWidth 8 0 ++ joinBits (List.replicate m 0) = _
    rw [ih, show bitsOfWidth 8 0 = List.replicate 8 false from rfl,
      show 8 * (m + 1) = 8 + 8 * m from by omega, List.replicate_add]

/-- Dropping leading `false` bits past a block of them. -/
theorem dropWhile_replicate_false : ∀ (k : Nat) (s : List Bool),
    (List.replicate k false ++ s).dropWhile (fun b => !b) =
      s.dropWhile (fun b => !b) := by
  intro k
  induction k with
  | zero => intro s; rfl
  | succ k ih =>
    intro s
    rw [List.replicate_succ]
    show ((false :: (List.replicate k false ++ s)).dropWhile (fun b => !b)) = _
    rw [List.dropWhile_cons_of_pos (by rfl)]
    exact ih s

/-- The marker conventions: the padded stream's leading `false` bits stop
exactly at the marker bit, and what follows is the ciphertext stream. -/
theorem padded_stream (ct : List Nat) :
    ((joinBits (toSplit ct)).dropWhile (fun b => !b)).drop 1 = joinBits ct := by
  unfold toSplit
  rw [joinBits_append, joinBits_append, joinBits_replicate_zero]
  rw [show joinBits [1] = List.replicate 7 false ++ [true] from rfl]
  rw [← List.append_assoc, ← List.replicate_add]
  rw [List.append_assoc, dropWhile_replicate_false]
  rw [show ([true] ++ joinBits ct).dropWhile (fun b => !b) = true :: joinBits ct from rfl]
  rfl

/-! ## Combination of a full share set -/

/-- `combineBits` concatenates the bit streams of the per-column `lagrange`
results. -/
theorem combineBits_sem (ids : List Nat) :
    ∀ (cols : List (List Nat)) (vals : List Nat), cols.length = vals.length →
    (∀ idx, idx < cols.length →
      lagrange ids (cols.getD idx []) (generate_logs_and_exps 8).1
        (generate_logs_and_exps 8).2 8 = some (Except.ok (vals.getD idx 0))) →
    combineBits ids (generate_logs_and_exps 8).1 (generate_logs_and_exps 8).2 8 cols =
      some (Except.ok (joinBits vals)) := by
  intro cols
  induction cols with
  | nil =>
    intro vals hlen _
    have hv : vals = [] := List.length_eq_zero.mp hlen.symm
    subst hv
    rfl
  | cons z cols ih =>
    intro vals hlen hcol
    cases vals with
    | nil => simp at hlen
    | cons v vals' =>
      have h0 := hcol 0 (by simp)
      rw [show (z :: cols).getD 0 [] = z from rfl,
        show (v :: vals').getD 0 0 = v from rfl] at h0
      simp only [combineBits]
      rw [h0]
      simp only []
      rw [ih vals' (by simpa using hlen) ?_]
      · rfl
      · intro idx hidx
        have hc := hcol (idx + 1) (by simpa using Nat.succ_lt_succ hidx)
        rw [show (z :: cols).getD (idx + 1) [] = cols.getD idx [] from rfl,
          show (v :: vals').getD (idx + 1) 0 = vals'.getD idx 0 from rfl] at hc
        exact hc

/-- `combine` on a complete, consistent set: every column is a Horner
sample of a per-column coefficient list, so the set combines to the packed
constant coefficients, with the decoded nonce. -/
theorem combine_ok (ids : List Nat) (datas : List (List Nat)) (L : Nat)
    (nonceStr : String) (nonce : List Nat)
    (hid0 : ∀ a ∈ ids, 0 < a) (hidlt : ∀ a ∈ ids, a < 256) (hnd : ids.Nodup)
    (hdl : datas.length = ids.length)
    (hdll : ∀ d ∈ datas, d.length = L)
    (hdby : ∀ d ∈ datas, ∀ b ∈ d, b < 256)
    (cf : Nat → List Nat)
    (hcf : ∀ m, m < L → (∀ a ∈ cf m, a < 256) ∧ (cf m).length ≤ ids.length)
    (hcol : ∀ m, m < L → ∀ k, k < ids.length →
      toGF ((datas.getD k []).getD m 0) = peval ((cf m).map toGF) (toGF (ids.getD k 0)))
    (hnonce : b64Decode nonceStr = some nonce) :
    SetInProgress.combine ⟨8, ids, L, datas, nonceStr⟩ =
      some (Except.ok ⟨bitsToBytes (((joinBits ((List.range L).map
        (fun m => (cf m).getD 0 0))).dropWhile (fun b => !b)).drop 1), nonce⟩) := by
  have hzip : ∀ idx, idx < L →
      ((List.range L).map (fun i => (List.range ids.length).map
        (fun j => (datas.getD j []).getD i 0))).getD idx [] =
      (List.range ids.length).map (fun j => (datas.getD j []).getD idx 0) := by
    intro idx hidx
    rw [List.getD_eq_getElem _ _ (by
      rw [List.length_map, List.length_range]
      exact hidx)]
    rw [List.getElem_map, List.getElem_range]
  have hvals : ∀ idx, idx < L →
      (((List.range L).map (fun m => (cf m).getD 0 0)).getD idx 0) =
      (cf idx).getD 0 0 := by
    intro idx hidx
    rw [List.getD_eq_getElem _ _ (by
      rw [List.length_map, List.length_range]
      exact hidx)]
    rw [List.getElem_map, List.getElem_range]
  have hcb := combineBits_sem ids
    ((List.range L).map (fun i => (List.range ids.length).map
      (fun j => (datas.getD j []).getD i 0)))
    ((List.range L).map (fun m => (cf m).getD 0 0))
    (by rw [List.length_map, List.length_map])
    ?_
  · simp only [SetInProgress.combine]
    rw [hcb]
    simp only []
    rw [hnonce]
  · intro idx hidx
    rw [List.length_map, List.length_range] at hidx
    rw [hzip idx hidx, hvals idx hidx]
    apply byte_recover
    · rw [List.length_map, List.length_range]
    · exact hid0
    · exact hidlt
    · exact hnd
    · intro b hb
      rw [List.mem_map] at hb
      obtain ⟨j, hj, hbe⟩ := hb
      rw [List.mem_range] at hj
      have hjd : j < datas.length := by omega
      have hmem : datas.getD j [] ∈ datas := by
        rw [List.getD_eq_getElem datas [] hjd]
        exact List.getElem_mem hjd
      have hlen : (datas.getD j []).length = L := hdll _ hmem
      have hbm : (datas.getD j []).getD idx 0 ∈ datas.getD j [] := by
        rw [List.getD_eq_getElem _ 0 (by rw [hlen]; exact hidx)]
        exact List.getElem_mem _
      rw [← hbe]
      exact hdby _ hmem _ hbm
    · exact (hcf idx hidx).1
    · exact (hcf idx hidx).2
    · intro k hk
      have hgd : ((List.range ids.length).map
          (fun j => (datas.getD j []).getD idx 0)).getD k 0 =
          (datas.getD k []).getD idx 0 := by
        rw [List.getD_eq_getElem _ _ (by
          rw [List.length_map, List.length_range]
          exact hk)]
        rw [List.getElem_map, List.getElem_range]
      rw [hgd]
      exact hcol idx hidx k hk

/-! ## Parsing the generated share strings -/

/-- The radix-36 rendering of the byte width 8. -/
theorem formatRadix8 : formatRadix 8 36 = "8" := rfl

/-- `Share::new` inverts `construct_public_share_string` wrapped in the
share JSON. -/
theorem parse_share (title nonceStr : String) (K id : Nat) (data : List Nat)
    (hid : id < 256) (hdata : ∀ b ∈ data, b < 256) :
    Share.new (mkShareJson title K (construct_public_share_string 8 id data) nonceStr) =
      Except.ok ⟨Version.v1, title, K, nonceStr, 8, id, data⟩ := by
  have hbody : b64DecodeChunks (b64EncodeChunks (id :: data)) = some (id :: data) := by
    apply b64_roundtrip
    intro b hb
    rcases List.mem_cons.mp hb with rfl | hbm
    · exact hid
    · exact hdata b hbm
  have hchars : (construct_public_share_string 8 id data).toList =
      '8' :: b64EncodeChunks (id :: data) := rfl
  simp only [Share.new, mkShareJson, shareNewBody, bind, Except.bind, pure, Except.pure,
    Jv.toStr, hchars]
  rw [if_pos trivial]
  rw [show ('8' :: b64EncodeChunks (id :: data)).head? = some '8' from rfl]
  simp only []
  rw [show toDigit36 '8' = some 8 from by decide]
  simp only []
  rw [if_pos (by norm_num : 3 ≤ 8 ∧ 8 ≤ 20)]
  rw [show ('8' :: b64EncodeChunks (id :: data)).tail = b64EncodeChunks (id :: data)
    from rfl, hbody]
  simp only []
  rw [show (List.dropWhile (fun x => decide (x = 0)) (beBytes4 (2 ^ 8 - 1))).length = 1
    from by decide]
  rw [if_pos (by simp : 1 ≤ (id :: data).length)]
  rw [show List.take (4 - 1) (beBytes4 (2 ^ 8 - 1)) = [0, 0, 0] from by decide,
    show List.take 1 (id :: data) = [id] from rfl,
    show List.drop 1 (id :: data) = data from rfl]
  rw [show ([0, 0, 0] : List Nat) ++ [id] = [0, 0, 0, id] from rfl]
  rw [show beValue [0, 0, 0, id] = id from by simp [beValue]]

/-! ## The splitter, in field terms -/

/-- `mapM` into `Option` of a pointwise-successful function. -/
theorem mapM_option_some {α β : Type} (f : α → Option β) (g : α → β) :
    ∀ (l : List α), (∀ a ∈ l, f a = some (g a)) → l.mapM f = some (l.map g) := by
  intro l
  induction l with
  | nil => intro _; rfl
  | cons a l ih =>
    intro h
    rw [List.mapM_cons, h a (List.mem_cons_self a l),
      ih (fun b hb => h b (List.mem_cons_of_mem a hb))]
    rfl

/-- The byte a share carries for the polynomial `cs` at point `x`. -/
def shareVal (cs : List Nat) (x : Nat) : Nat := (peval (cs.map toGF) (toGF x)).val

/-- Share bytes are bytes. -/
theorem shareVal_lt (cs : List Nat) (x : Nat) : shareVal cs x < 256 :=
  (peval (cs.map toGF) (toGF x)).isLt

/-- `toGF` of a field element's byte value. -/
theorem toGF_val_eq (x : GF) : toGF x.val = x :=
  Fin.ext (toGF_val x.val x.isLt)

/-- `toGF` of a share byte. -/
theorem toGF_shareVal (cs : List Nat) (x : Nat) :
    toGF (shareVal cs x) = peval (cs.map toGF) (toGF x) :=
  toGF_val_eq _

/-- `horner` at `n = 8` returns exactly the share byte. -/
theorem horner8_shareVal (x : Nat) (cs : List Nat) (hx0 : 0 < x) (hx : x < 256)
    (hcs : ∀ a ∈ cs, a < 256) :
    horner x cs (generate_logs_and_exps 8).1 (generate_logs_and_exps 8).2 8 =
      some (shareVal cs x) := by
  obtain ⟨r, hrlt, hrun, hrval⟩ := horner8 x cs hx0 hx hcs
  have : r = shareVal cs x := by
    unfold shareVal
    rw [← hrval, toGF_val r hrlt]
  rw [hrun, this]

/-- `get_shares` at `n = 8` returns the share bytes for all share numbers. -/
theorem get_shares8 (secret numShares : Nat) (coeffs : List Nat)
    (hs : secret < 256) (hc : ∀ a ∈ coeffs, a < 256) (hN : numShares ≤ 255) :
    get_shares secret numShares coeffs 8 =
      some ((List.range numShares).map (fun k => shareVal (secret :: coeffs) (k + 1))) := by
  unfold get_shares
  apply mapM_option_some
  intro k hk
  rw [List.mem_range] at hk
  apply horner8_shareVal
  · omega
  · omega
  · intro a ha
    rcases List.mem_cons.mp ha with rfl | hm
    · exact hs
    · exact hc a hm

/-- The data bytes of the share with number `i+1`. -/
def dataBytes (ct : List Nat) (rnd : Nat → List Nat) (i : Nat) : List Nat :=
  (toSplit ct).enum.map (fun p => shareVal (p.2 :: rnd p.1) (i + 1))

/-- Length of the share data. -/
theorem dataBytes_length (ct : List Nat) (rnd : Nat → List Nat) (i : Nat) :
    (dataBytes ct rnd i).length = (toSplit ct).length := by
  unfold dataBytes
  rw [List.length_map, List.enum_length]

/-- Share data entries are bytes. -/
theorem dataBytes_lt (ct : List Nat) (rnd : Nat → List Nat) (i : Nat) :
    ∀ b ∈ dataBytes ct rnd i, b < 256 := by
  intro b hb
  unfold dataBytes at hb
  rw [List.mem_map] at hb
  obtain ⟨p, _, hpe⟩ := hb
  rw [← hpe]
  exact shareVal_lt _ _

/-- The `m`-th entry of the share data. -/
theorem dataBytes_getD (ct : List Nat) (rnd : Nat → List Nat) (i m : Nat)
    (hm : m < (toSplit ct).length) :
    (dataBytes ct rnd i).getD m 0 = shareVal ((toSplit ct).getD m 0 :: rnd m) (i + 1) := by
  unfold dataBytes
  rw [List.getD_eq_getElem _ _ (by rw [List.length_map, List.enum_length]; exact hm),
    List.getElem_map, List.getElem_enum, List.getD_eq_getElem _ _ hm]

/-- Padded bytes are bytes. -/
theorem toSplit_lt (ct : List Nat) (hct : ∀ b ∈ ct, b < 256) :
    ∀ b ∈ toSplit ct, b < 256 := by
  intro b hb
  unfold toSplit at hb
  rw [List.append_assoc, List.mem_append] at hb
  rcases hb with h | h
  · have := List.eq_of_mem_replicate h
    omega
  · rcases List.mem_cons.mp h with rfl | h2
    · omega
    · exact hct b h2

/-- `share` at `n = 8`: the splitter succeeds and produces the N public
share strings. -/
theorem shareSplit8 (ct : List Nat) (N K : Nat) (rnd : Nat → List Nat)
    (h2 : 2 ≤ N) (hKN : K ≤ N) (hN : N ≤ 255)
    (hct : ∀ b ∈ ct, b < 256) (hrb : ∀ m, ∀ b ∈ rnd m, b < 256) :
    shareSplit ct N K rnd = some (Except.ok
      ((List.range N).map (fun i =>
        construct_public_share_string 8 (i + 1) (dataBytes ct rnd i)))) := by
  unfold shareSplit
  rw [if_neg (by omega), if_neg (by omega), if_neg (by
    show ¬ N > 2 ^ 8 - 1
    have h8 := pow8_256
    omega)]
  have hsplits : (toSplit ct).enum.mapM (fun p => get_shares p.2 N (rnd p.1) 8) =
      some ((toSplit ct).enum.map (fun p =>
        (List.range N).map (fun k => shareVal (p.2 :: rnd p.1) (k + 1)))) := by
    apply mapM_option_some
    intro p hp
    apply get_shares8
    · have hm : p.2 ∈ toSplit ct := by
        have := List.enum_map_snd (toSplit ct)
        rw [← this]
        exact List.mem_map_of_mem Prod.snd hp
      exact toSplit_lt ct hct p.2 hm
    · exact hrb p.1
    · exact hN
  rw [hsplits]
  simp only []
  congr 1
  congr 1
  apply List.ext_getElem
  · simp [List.enum_length]
  · intro n h1 h2'
    have hn : n < N := by
      simp [List.enum_length] at h1
      exact h1
    rw [List.getElem_map, List.getElem_enum]
    simp only []
    rw [List.getElem_map, List.getElem_range]
    conv_rhs => rw [List.getElem_map, List.getElem_range]
    congr 1
    unfold dataBytes
    rw [List.map_map]
    apply List.map_congr_left
    intro p _
    show ((List.range N).map (fun k => shareVal (p.2 :: rnd p.1) (k + 1))).getD n 0 = _
    rw [List.getD_eq_getElem _ _ (by
      rw [List.length_map, List.length_range]
      exact hn), List.getElem_map, List.getElem_range]

/-! ## Assembling a set from parsed shares -/

/-- Add shares one at a time, requiring every `try_add_share` to succeed. -/
def addList (set : ShareSet) : List Share → Option ShareSet
  | [] => some set
  | sh :: rest =>
    match set.tryAddShare sh with
    | some (Except.ok _, next) => addList next rest
    | _ => none

/-- The round-trip assembly: initialise a set with the first share and add
the rest. -/
def assemble : List Share → Option ShareSet
  | [] => none
  | s :: rest => addList (ShareSet.init s) rest

/-- `mapM` into `Except` of a pointwise-successful function. -/
theorem mapM_except_ok {α β : Type} (f : α → Except Error β) (g : α → β) :
    ∀ (l : List α), (∀ a ∈ l, f a = Except.ok (g a)) → l.mapM f = Except.ok (l.map g) := by
  intro l
  induction l with
  | nil => intro _; rfl
  | cons a l ih =>
    intro h
    rw [List.mapM_cons, h a (List.mem_cons_self a l),
      ih (fun b hb => h b (List.mem_cons_of_mem a hb))]
    rfl

/-- `mapM` into `Except` over a mapped list of pointwise successes. -/
theorem mapM_map_except {α β γ : Type} (h : α → β) (f : β → Except Error γ) (g : α → γ) :
    ∀ (l : List α), (∀ a ∈ l, f (h a) = Except.ok (g a)) →
      (l.map h).mapM f = Except.ok (l.map g) := by
  intro l
  induction l with
  | nil => intro _; rfl
  | cons a l ih =>
    intro hl
    rw [List.map_cons, List.mapM_cons, hl a (List.mem_cons_self a l),
      ih (fun b hb => hl b (List.mem_cons_of_mem a hb))]
    rfl

/-- The share that parsing the `i+1`-st generated share string produces. -/
def mkShare (title nonceStr : String) (K : Nat) (ct : List Nat)
    (rnd : Nat → List Nat) (i : Nat) : Share :=
  ⟨Version.v1, title, K, nonceStr, 8, i + 1, dataBytes ct rnd i⟩

/-- Adding the remaining shares drives the set to the combined state: every
admission check passes, and the final addition triggers a successful
combination that reconstructs the ciphertext. -/
theorem addList_shares (title nonceStr : String) (K : Nat) (ct : List Nat)
    (rnd : Nat → List Nat) (nonce : List Nat) (N : Nat)
    (hct : ∀ b ∈ ct, b < 256)
    (hrl : ∀ m, (rnd m).length = K - 1)
    (hrb : ∀ m, ∀ b ∈ rnd m, b < 256)
    (hN : N ≤ 255)
    (hnonce : b64Decode nonceStr = some nonce) :
    ∀ (rest done : List Nat), done ≠ [] → rest ≠ [] →
      done.length + rest.length = K → (done ++ rest).Nodup →
      (∀ i ∈ done ++ rest, i < N) →
      addList ⟨Version.v1, title, K, ShareSetState.setInProgress
          ⟨8, done.map (fun j => j + 1), (toSplit ct).length,
           done.map (dataBytes ct rnd), nonceStr⟩⟩
        (rest.map (mkShare title nonceStr K ct rnd)) =
      some ⟨Version.v1, title, K, ShareSetState.setCombined ⟨ct, nonce⟩⟩ := by
  intro rest
  induction rest with
  | nil =>
    intro done _ hne _ _ _
    exact absurd rfl hne
  | cons i rest ih =>
    intro done hdone _ hsum hnd hbound
    have hiN : i < N := hbound i (by
      rw [List.mem_append]
      exact Or.inr (List.mem_cons_self i rest))
    have hinotdone : i ∉ done := by
      intro hmem
      have hdisj := (List.nodup_append.mp hnd).2.2
      exact hdisj hmem (List.mem_cons_self i rest)
    have hidnotmem : i + 1 ∉ done.map (fun j => j + 1) := by
      intro hmem
      rw [List.mem_map] at hmem
      obtain ⟨j, hj, hje⟩ := hmem
      have : j = i := by omega
      subst this
      exact hinotdone hj
    rw [show (i :: rest).map (mkShare title nonceStr K ct rnd) =
      mkShare title nonceStr K ct rnd i :: rest.map (mkShare title nonceStr K ct rnd)
      from rfl]
    simp only [addList, ShareSet.tryAddShare, mkShare]
    rw [if_neg (fun h => h rfl)]
    rw [if_neg (fun h => h rfl)]
    rw [if_neg (fun h => h rfl)]
    rw [if_neg (fun h => h rfl)]
    rw [if_neg (fun h => h rfl)]
    rw [if_neg hidnotmem]
    rw [if_neg (fun h => h (dataBytes_length ct rnd i).symm)]
    have hlen1 : (done.map (fun j => j + 1) ++ [i + 1]).length = done.length + 1 := by
      rw [List.length_append, List.length_map]
      rfl
    have e1 : done.map (fun j => j + 1) ++ [i + 1] =
        (done ++ [i]).map (fun j => j + 1) := by
      rw [List.map_append]
      rfl
    have e2 : done.map (dataBytes ct rnd) ++ [dataBytes ct rnd i] =
        (done ++ [i]).map (dataBytes ct rnd) := by
      rw [List.map_append]
      rfl
    cases rest with
    | nil =>
      have hK : done.length + 1 = K := by
        simpa using hsum
      rw [if_pos (by rw [hlen1]; omega)]
      have hnd' : (done ++ [i]).Nodup := by
        have : done ++ [i] = done ++ i :: ([] : List Nat) := rfl
        rw [this]
        exact hnd
      have hsel : ∀ j ∈ done ++ [i], j < N := by
        intro j hj
        exact hbound j hj
      have hcomb := combine_ok ((done ++ [i]).map (fun j => j + 1))
        ((done ++ [i]).map (dataBytes ct rnd)) (toSplit ct).length nonceStr nonce
        ?_ ?_ ?_ ?_ ?_ ?_ (fun m => (toSplit ct).getD m 0 :: rnd m) ?_ ?_ hnonce
      · rw [e1, e2, hcomb]
        simp only []
        have hrec : ((List.range (toSplit ct).length).map
            (fun m => ((toSplit ct).getD m 0 :: rnd m).getD 0 0)) = toSplit ct := by
          have he : ∀ m, ((toSplit ct).getD m 0 :: rnd m).getD 0 0 =
              (toSplit ct).getD m 0 := fun m => rfl
          rw [show (fun m => ((toSplit ct).getD m 0 :: rnd m).getD 0 0) =
            (fun m => (toSplit ct).getD m 0) from funext he]
          exact map_getD_range 0 (toSplit ct)
        rw [hrec, padded_stream, bitsToBytes_joinBits ct hct]
        rfl
      · intro a ha
        rw [List.mem_map] at ha
        obtain ⟨j, _, hje⟩ := ha
        omega
      · intro a ha
        rw [List.mem_map] at ha
        obtain ⟨j, hj, hje⟩ := ha
        have := hsel j hj
        omega
      · apply List.Nodup.map_on ?_ hnd'
        intro p _ q _ hpq
        omega
      · rw [List.length_map, List.length_map]
      · intro d hd
        rw [List.mem_map] at hd
        obtain ⟨j, _, hje⟩ := hd
        rw [← hje]
        exact dataBytes_length ct rnd j
      · intro d hd
        rw [List.mem_map] at hd
        obtain ⟨j, _, hje⟩ := hd
        rw [← hje]
        exact dataBytes_lt ct rnd j
      · intro m hm
        constructor
        · intro a ha
          rcases List.mem_cons.mp ha with rfl | hmem
          · apply toSplit_lt ct hct
            rw [List.getD_eq_getElem _ _ hm]
            exact List.getElem_mem hm
          · exact hrb m a hmem
        · rw [List.length_map]
          show (rnd m).length + 1 ≤ (done ++ [i]).length
          rw [hrl m, List.length_append]
          simp only [List.length_cons, List.length_nil]
          omega
      · intro m hm k hk
        rw [List.length_map] at hk
        have hgd : ((done ++ [i]).map (dataBytes ct rnd)).getD k [] =
            dataBytes ct rnd ((done ++ [i]).getD k 0) := by
          rw [List.getD_eq_getElem _ _ (by rw [List.length_map]; exact hk),
            List.getElem_map, List.getD_eq_getElem _ _ hk]
        have hgi : ((done ++ [i]).map (fun j => j + 1)).getD k 0 =
            (done ++ [i]).getD k 0 + 1 := by
          rw [List.getD_eq_getElem _ _ (by rw [List.length_map]; exact hk),
            List.getElem_map, List.getD_eq_getElem _ _ hk]
        rw [hgd, hgi, dataBytes_getD ct rnd _ m hm, toGF_shareVal]
    | cons i2 rest2 =>
      rw [if_neg (by
        rw [hlen1]
        simp only [List.length_cons] at hsum
        omega)]
      simp only []
      rw [e1, e2]
      apply ih (done ++ [i]) (by
        intro h
        have := congrArg List.length h
        rw [List.length_append] at this
        simp at this) (by
        intro h
        exact List.noConfusion h) (by
        rw [List.length_append]
        simp only [List.length_cons, List.length_nil] at hsum ⊢
        omega) (by
        rw [List.append_assoc]
        exact hnd) (by
        intro j hj
        apply hbound j
        rw [List.append_assoc] at hj
        exact hj)

/-! ## C1: the round trip -/

/-- C1: Round-trip.  For every secret, title and passphrase, every
`2 ≤ K ≤ N ≤ 255`, every RNG draw (nonce bytes below 256 and, for each padded
byte, `K - 1` coefficient bytes below 256), and any cryptographic primitives
whose scrypt succeeds and whose AEAD decryption inverts the encryption it
performed on this key, nonce and plaintext, `encrypt` returns exactly `N`
share JSON values; and for every `K`-element duplicate-free selection of
them, parsing each with `Share::new`, initialising a `ShareSet` with the
first and adding the rest with `try_add_share`, then calling
`recover_with_passphrase` with the same passphrase returns the secret
exactly. -/
theorem C1_round_trip (P : CryptoPrims) (secret title passphrase : String)
    (N K : Nat) (nonce key encrypted : List Nat) (rnd : Nat → List Nat)
    (h2K : 2 ≤ K) (hKN : K ≤ N) (hN : N ≤ 255)
    (hkey : P.scrypt (P.utf8Bytes passphrase) (P.sha512 (P.utf8Bytes title)) = some key)
    (henc : P.aeadEncrypt key nonce (P.utf8Bytes secret) = some encrypted)
    (hdec : P.aeadDecrypt key nonce encrypted = some (P.utf8Bytes secret))
    (hutf : P.utf8String (P.utf8Bytes secret) = some secret)
    (hct : ∀ b ∈ encrypted, b < 256)
    (hnb : ∀ b ∈ nonce, b < 256)
    (hrl : ∀ m, (rnd m).length = K - 1)
    (hrb : ∀ m, ∀ b ∈ rnd m, b < 256) :
    ∃ shares : List JShare,
      encrypt P secret title passphrase N K nonce rnd = some (Except.ok shares) ∧
      shares.length = N ∧
      ∀ sel : List Nat, sel.length = K → (∀ i ∈ sel, i < N) → sel.Nodup →
        ∃ parsed : List Share,
          (sel.map (fun i => shares.getD i (mkShareJson "" 0 "" ""))).mapM Share.new =
            Except.ok parsed ∧
          ∃ final : ShareSet, assemble parsed = some final ∧
            final.recoverWithPassphrase P passphrase = Except.ok secret := by
  refine ⟨(List.range N).map (fun i => mkShareJson title K
      (construct_public_share_string 8 (i + 1) (dataBytes encrypted rnd i))
      (b64Encode nonce)), ?_, ?_, ?_⟩
  · simp only [encrypt]
    rw [hkey]
    simp only []
    rw [henc]
    simp only []
    rw [shareSplit8 encrypted N K rnd (by omega) hKN hN hct hrb]
    simp only []
    rw [List.map_map]
    rfl
  · rw [List.length_map, List.length_range]
  · intro sel hselK hselN hselnd
    have hget : ∀ i, i < N → (((List.range N).map (fun j => mkShareJson title K
        (construct_public_share_string 8 (j + 1) (dataBytes encrypted rnd j))
        (b64Encode nonce))).getD i (mkShareJson "" 0 "" "")) =
        mkShareJson title K (construct_public_share_string 8 (i + 1)
          (dataBytes encrypted rnd i)) (b64Encode nonce) := by
      intro i hi
      rw [List.getD_eq_getElem _ _ (by
        rw [List.length_map, List.length_range]
        exact hi), List.getElem_map, List.getElem_range]
    refine ⟨sel.map (mkShare title (b64Encode nonce) K encrypted rnd), ?_, ?_⟩
    · apply mapM_map_except _ Share.new (mkShare title (b64Encode nonce) K encrypted rnd) sel
      intro i hi
      rw [hget i (hselN i hi)]
      exact parse_share title (b64Encode nonce) K (i + 1) (dataBytes encrypted rnd i)
        (by have := hselN i hi; omega) (dataBytes_lt encrypted rnd i)
    · cases sel with
      | nil =>
        simp only [List.length_nil] at hselK
        omega
      | cons s0 srest =>
        refine ⟨⟨Version.v1, title, K, ShareSetState.setCombined ⟨encrypted, nonce⟩⟩, ?_, ?_⟩
        · have hinit : ShareSet.init (mkShare title (b64Encode nonce) K encrypted rnd s0) =
              ⟨Version.v1, title, K, ShareSetState.setInProgress
                ⟨8, [s0].map (fun j => j + 1), (toSplit encrypted).length,
                 [s0].map (dataBytes encrypted rnd), b64Encode nonce⟩⟩ := by
            simp only [ShareSet.init, mkShare]
            rw [dataBytes_length]
            rfl
          rw [List.map_cons]
          simp only [assemble]
          rw [hinit]
          apply addList_shares title (b64Encode nonce) K encrypted rnd nonce N hct hrl hrb hN
            (b64_roundtrip_str nonce hnb) srest [s0]
            (fun h => List.noConfusion h)
            (by
              intro h
              subst h
              simp only [List.length_cons, List.length_nil] at hselK
              omega)
            (by
              simp only [List.length_cons, List.length_nil] at hselK ⊢
              omega)
            hselnd
            hselN
        · simp only [ShareSet.recoverWithPassphrase]
          rw [hkey]
          simp only []
          rw [hdec]
          simp only []
          rw [hutf]

/-- Identity-style cryptographic primitives for a concrete round trip. -/
def w1Prims : CryptoPrims :=
  { sha512 := fun l => l
    scrypt := fun _ _ => some []
    aeadEncrypt := fun _ _ msg => some msg
    aeadDecrypt := fun _ _ ct => some ct
    utf8Bytes := fun s => s.toList.map Char.toNat
    utf8String := fun l => some (String.mk (l.map Char.ofNat)) }

/-- A concrete round trip: secret `"a"`, `N = K = 2`. -/
theorem C1_round_trip_witness :
    ∃ shares : List JShare,
      encrypt w1Prims "a" "t" "p" 2 2 [] (fun _ => [7]) = some (Except.ok shares) ∧
      shares.length = 2 ∧
      ∀ sel : List Nat, sel.length = 2 → (∀ i ∈ sel, i < 2) → sel.Nodup →
        ∃ parsed : List Share,
          (sel.map (fun i => shares.getD i (mkShareJson "" 0 "" ""))).mapM Share.new =
            Except.ok parsed ∧
          ∃ final : ShareSet, assemble parsed = some final ∧
            final.recoverWithPassphrase w1Prims "p" = Except.ok "a" :=
  C1_round_trip w1Prims "a" "t" "p" 2 2 [] [] [97] (fun _ => [7])
    (by decide) (by decide) (by decide)
    rfl rfl rfl (by decide)
    (by decide) (by decide)
    (fun _ => rfl) (fun _ => by
      show ∀ b ∈ ([7] : List Nat), b < 256
      decide)

/-! ## C5: the padding convention -/

/-- **C5** (confirmed).  The splitter's padded input is exactly `L` zero
bytes, a single `0x01` marker byte, then the ciphertext, with
`L = 7 - ((len(c)+1) mod 7)`, and the padded length is a positive multiple
of 7. -/
theorem C5_padding_convention (c : List Nat) :
    toSplit c = List.replicate (7 - (c.length + 1) % 7) 0 ++ [1] ++ c ∧
    (toSplit c).length % 7 = 0 ∧ 0 < (toSplit c).length := by
  refine ⟨by simp [toSplit], ?_, ?_⟩ <;>
    simp only [toSplit, List.length_append, List.length_replicate, List.length_cons,
      List.length_nil] <;> omega

/-! ## C6: order of the admission checks -/

/-- **C6** (confirmed).  On an `InProgress` set, `try_add_share` performs the
checks in order — version, title, required_shards, nonce, bits, id novelty,
content length — and the first failing check returns the matching error with
the set unchanged. -/
theorem C6_admission_checks_in_order (s : ShareSet) (sip : SetInProgress) (new : Share)
    (hs : s.state = ShareSetState.setInProgress sip) :
    (new.version ≠ s.version →
      s.tryAddShare new = some (Except.error Error.ShareVersionDifferent, s)) ∧
    (new.version = s.version → new.title ≠ s.title →
      s.tryAddShare new = some (Except.error Error.ShareTitleDifferent, s)) ∧
    (new.version = s.version → new.title = s.title →
      new.requiredShards ≠ s.requiredShards →
      s.tryAddShare new = some (Except.error Error.ShareRequiredShardsDifferent, s)) ∧
    (new.version = s.version → new.title = s.title →
      new.requiredShards = s.requiredShards → new.nonce ≠ sip.nonce →
      s.tryAddShare new = some (Except.error Error.ShareNonceDifferent, s)) ∧
    (new.version = s.version → new.title = s.title →
      new.requiredShards = s.requiredShards → new.nonce = sip.nonce →
      new.bits ≠ sip.bits →
      s.tryAddShare new = some (Except.error Error.ShareBitsDifferent, s)) ∧
    (new.version = s.version → new.title = s.title →
      new.requiredShards = s.requiredShards → new.nonce = sip.nonce →
      new.bits = sip.bits → new.id ∈ sip.idSet →
      s.tryAddShare new = some (Except.error Error.ShareAlreadyInSet, s)) ∧
    (new.version = s.version → new.title = s.title →
      new.requiredShards = s.requiredShards → new.nonce = sip.nonce →
      new.bits = sip.bits → new.id ∉ sip.idSet →
      sip.contentLength ≠ new.content.length →
      s.tryAddShare new = some (Except.error Error.ShareContentLengthDifferent, s)) := by
  simp only [ShareSet.tryAddShare, hs]
  refine ⟨?_, ?_, ?_, ?_, ?_, ?_, ?_⟩
  · intro h1
    simp [h1]
  · intro h1 h2
    simp [h1, h2]
  · intro h1 h2 h3
    simp [h1, h2, h3]
  · intro h1 h2 h3 h4
    simp [h1, h2, h3, h4]
  · intro h1 h2 h3 h4 h5
    simp [h1, h2, h3, h4, h5]
  · intro h1 h2 h3 h4 h5 h6
    simp [h1, h2, h3, h4, h5, h6]
  · intro h1 h2 h3 h4 h5 h6 h7
    simp [h1, h2, h3, h4, h5, h6, h7]

/-- Witness for C6 at a concrete set and share with a version mismatch. -/
theorem C6_admission_checks_in_order_witness :
    (ShareSet.tryAddShare ⟨Version.v1, "a", 2, ShareSetState.setInProgress ⟨8, [1], 0, [[]], "n"⟩⟩
        ⟨Version.undefined, "a", 2, "n", 8, 2, []⟩) =
      some (Except.error Error.ShareVersionDifferent,
        ⟨Version.v1, "a", 2, ShareSetState.setInProgress ⟨8, [1], 0, [[]], "n"⟩⟩) :=
  (C6_admission_checks_in_order
    ⟨Version.v1, "a", 2, ShareSetState.setInProgress ⟨8, [1], 0, [[]], "n"⟩⟩
    ⟨8, [1], 0, [[]], "n"⟩ ⟨Version.undefined, "a", 2, "n", 8, 2, []⟩ rfl).1 (by decide)

/-! ## C9: recovery lifecycle -/

/-- **C9** (confirmed).  `recover_with_passphrase` fails with
`NotReadyToDecode` exactly when the set is `InProgress`; it borrows the set
immutably, so the set (with its ciphertext and nonce) is unchanged by any
call; and in `Combined` every failing outcome is one of `ScryptFailed`,
`DecodingFailed`, `DecodedSecretNotString`. -/
theorem C9_recovery_lifecycle (P : CryptoPrims) (s : ShareSet) (pass : String) :
    ((s.recoverWithPassphrase P pass = Except.error Error.NotReadyToDecode) ↔
      (∃ sip, s.state = ShareSetState.setInProgress sip)) ∧
    ((s.recoverMut P pass).2 = s) ∧
    (∀ sc, s.state = ShareSetState.setCombined sc →
      ∀ e, s.recoverWithPassphrase P pass = Except.error e →
        e = Error.ScryptFailed ∨ e = Error.DecodingFailed ∨ e = Error.DecodedSecretNotString) := by
  refine ⟨?_, rfl, ?_⟩
  · cases hs : s.state with
    | setInProgress sip =>
      simp only [ShareSet.recoverWithPassphrase, hs]
      exact ⟨fun _ => ⟨sip, rfl⟩, fun _ => trivial⟩
    | setCombined sc =>
      simp only [ShareSet.recoverWithPassphrase, hs]
      constructor
      · intro h
        exfalso
        revert h
        split
        · intro h
          simp at h
        · split
          · split <;> intro h <;> simp at h
          · intro h
            simp at h
      · rintro ⟨sip, h⟩
        exact absurd h (by simp)
  · intro sc hsc e he
    simp only [ShareSet.recoverWithPassphrase, hsc] at he
    revert he
    split
    · intro he
      simp only [Except.error.injEq] at he
      exact Or.inl he.symm
    · split
      · split
        · intro he
          cases he
        · intro he
          simp only [Except.error.injEq] at he
          exact Or.inr (Or.inr he.symm)
      · intro he
        simp only [Except.error.injEq] at he
        exact Or.inr (Or.inl he.symm)

/-- Trivial instantiation of the external primitives, for witnesses. -/
def wPrims : CryptoPrims :=
  { sha512 := fun _ => []
    scrypt := fun _ _ => none
    aeadEncrypt := fun _ _ _ => none
    aeadDecrypt := fun _ _ _ => none
    utf8Bytes := fun _ => []
    utf8String := fun _ => none }

/-- Witness for C9 at a concrete combined set whose scrypt call fails. -/
theorem C9_recovery_lifecycle_witness :
    Error.ScryptFailed = Error.ScryptFailed ∨ Error.ScryptFailed = Error.DecodingFailed ∨
      Error.ScryptFailed = Error.DecodedSecretNotString :=
  (C9_recovery_lifecycle wPrims ⟨Version.v1, "t", 2, ShareSetState.setCombined ⟨[], []⟩⟩ "p").2.2
    ⟨[], []⟩ rfl Error.ScryptFailed rfl

/-! ## C4: what a failed `try_add_share` leaves behind -/

/-- The in-progress state after appending a share's id and content
(`src/shares.rs` lines 321-322). -/
def pushedSip (sip : SetInProgress) (new : Share) : SetInProgress :=
  { sip with idSet := sip.idSet ++ [new.id], contentSet := sip.contentSet ++ [new.content] }

/-- The whole set after the append, still `InProgress`. -/
def pushedSet (s : ShareSet) (sip : SetInProgress) (new : Share) : ShareSet :=
  { s with state := ShareSetState.setInProgress (pushedSip sip new) }

/-- Case analysis of a failing `try_add_share`: either nothing changed, or
the combination step failed after the new share was appended. -/
theorem failedAddCases (s : ShareSet) (new : Share) (e : Error) (s' : ShareSet)
    (h : s.tryAddShare new = some (Except.error e, s')) :
    s' = s ∨
    ∃ sip, s.state = ShareSetState.setInProgress sip ∧ s' = pushedSet s sip new := by
  cases hs : s.state with
  | setCombined sc =>
    simp only [ShareSet.tryAddShare, hs] at h
    simp at h
  | setInProgress sip =>
    simp only [ShareSet.tryAddShare, hs] at h
    split at h
    · simp only [Option.some.injEq, Prod.mk.injEq, Except.error.injEq] at h
      exact Or.inl h.2.symm
    split at h
    · simp only [Option.some.injEq, Prod.mk.injEq, Except.error.injEq] at h
      exact Or.inl h.2.symm
    split at h
    · simp only [Option.some.injEq, Prod.mk.injEq, Except.error.injEq] at h
      exact Or.inl h.2.symm
    split at h
    · simp only [Option.some.injEq, Prod.mk.injEq, Except.error.injEq] at h
      exact Or.inl h.2.symm
    split at h
    · simp only [Option.some.injEq, Prod.mk.injEq, Except.error.injEq] at h
      exact Or.inl h.2.symm
    split at h
    · simp only [Option.some.injEq, Prod.mk.injEq, Except.error.injEq] at h
      exact Or.inl h.2.symm
    split at h
    · simp only [Option.some.injEq, Prod.mk.injEq, Except.error.injEq] at h
      exact Or.inl h.2.symm
    split at h
    · split at h
      · exact absurd h (by simp)
      · simp only [Option.some.injEq, Prod.mk.injEq, Except.error.injEq] at h
        refine Or.inr ⟨sip, rfl, ?_⟩
        rw [← h.2]
        rfl
      · simp at h
    · simp at h

/-- All seven admission checks of `try_add_share` passing, in the source's
order (`src/shares.rs` lines 296-319). -/
def admitOk (s : ShareSet) (sip : SetInProgress) (new : Share) : Prop :=
  new.version = s.version ∧ new.title = s.title ∧
  new.requiredShards = s.requiredShards ∧ new.nonce = sip.nonce ∧
  new.bits = sip.bits ∧ new.id ∉ sip.idSet ∧
  sip.contentLength = new.content.length

/-- **C4** (corrected).  When `try_add_share` returns an error, the set was
`InProgress`, and: if some admission check fails, the error is one of the
seven admission errors and the set is returned unchanged; if all admission
checks pass, the error arose inside the threshold-triggered combination
step (the collected count reached `required_shards` and `combine` returned
this very error), and the returned set is the `InProgress` state with the
new share's id and content already appended. -/
theorem C4_failed_add_amended (s : ShareSet) (new : Share) (e : Error) (s' : ShareSet)
    (h : s.tryAddShare new = some (Except.error e, s')) :
    ∃ sip, s.state = ShareSetState.setInProgress sip ∧
      (¬ admitOk s sip new →
        s' = s ∧
        (e = Error.ShareVersionDifferent ∨ e = Error.ShareTitleDifferent ∨
         e = Error.ShareRequiredShardsDifferent ∨ e = Error.ShareNonceDifferent ∨
         e = Error.ShareBitsDifferent ∨ e = Error.ShareAlreadyInSet ∨
         e = Error.ShareContentLengthDifferent)) ∧
      (admitOk s sip new →
        s.requiredShards ≤ (pushedSip sip new).idSet.length ∧
        (pushedSip sip new).combine = some (Except.error e) ∧
        s' = pushedSet s sip new) := by
  cases hs : s.state with
  | setCombined sc =>
    simp only [ShareSet.tryAddShare, hs] at h
    simp at h
  | setInProgress sip =>
    refine ⟨sip, rfl, ?_⟩
    simp only [ShareSet.tryAddShare, hs] at h
    by_cases h1 : new.version = s.version
    case neg =>
      rw [if_pos h1] at h
      simp only [Option.some.injEq, Prod.mk.injEq, Except.error.injEq] at h
      exact ⟨fun _ => ⟨h.2.symm, Or.inl h.1.symm⟩, fun hok => absurd hok.1 h1⟩
    rw [if_neg (not_not_intro h1)] at h
    by_cases h2 : new.title = s.title
    case neg =>
      rw [if_pos h2] at h
      simp only [Option.some.injEq, Prod.mk.injEq, Except.error.injEq] at h
      exact ⟨fun _ => ⟨h.2.symm, Or.inr (Or.inl h.1.symm)⟩, fun hok => absurd hok.2.1 h2⟩
    rw [if_neg (not_not_intro h2)] at h
    by_cases h3 : new.requiredShards = s.requiredShards
    case neg =>
      rw [if_pos h3] at h
      simp only [Option.some.injEq, Prod.mk.injEq, Except.error.injEq] at h
      exact ⟨fun _ => ⟨h.2.symm, Or.inr (Or.inr (Or.inl h.1.symm))⟩,
        fun hok => absurd hok.2.2.1 h3⟩
    rw [if_neg (not_not_intro h3)] at h
    by_cases h4 : new.nonce = sip.nonce
    case neg =>
      rw [if_pos h4] at h
      simp only [Option.some.injEq, Prod.mk.injEq, Except.error.injEq] at h
      exact ⟨fun _ => ⟨h.2.symm, Or.inr (Or.inr (Or.inr (Or.inl h.1.symm)))⟩,
        fun hok => absurd hok.2.2.2.1 h4⟩
    rw [if_neg (not_not_intro h4)] at h
    by_cases h5 : new.bits = sip.bits
    case neg =>
      rw [if_pos h5] at h
      simp only [Option.some.injEq, Prod.mk.injEq, Except.error.injEq] at h
      exact ⟨fun _ => ⟨h.2.symm, Or.inr (Or.inr (Or.inr (Or.inr (Or.inl h.1.symm))))⟩,
        fun hok => absurd hok.2.2.2.2.1 h5⟩
    rw [if_neg (not_not_intro h5)] at h
    by_cases h6 : new.id ∈ sip.idSet
    case pos =>
      rw [if_pos h6] at h
      simp only [Option.some.injEq, Prod.mk.injEq, Except.error.injEq] at h
      exact ⟨fun _ => ⟨h.2.symm,
          Or.inr (Or.inr (Or.inr (Or.inr (Or.inr (Or.inl h.1.symm)))))⟩,
        fun hok => absurd h6 hok.2.2.2.2.2.1⟩
    rw [if_neg h6] at h
    by_cases h7 : sip.contentLength = new.content.length
    case neg =>
      rw [if_pos h7] at h
      simp only [Option.some.injEq, Prod.mk.injEq, Except.error.injEq] at h
      exact ⟨fun _ => ⟨h.2.symm,
          Or.inr (Or.inr (Or.inr (Or.inr (Or.inr (Or.inr h.1.symm)))))⟩,
        fun hok => absurd hok.2.2.2.2.2.2 h7⟩
    rw [if_neg (not_not_intro h7)] at h
    have hok : admitOk s sip new := ⟨h1, h2, h3, h4, h5, h6, h7⟩
    have hpush : ({ sip with
        idSet := sip.idSet ++ [new.id]
        contentSet := sip.contentSet ++ [new.content] } : SetInProgress) =
      pushedSip sip new := rfl
    simp only [hpush] at h
    by_cases hth : (sip.idSet ++ [new.id]).length ≥ s.requiredShards
    case neg =>
      rw [if_neg hth] at h
      simp at h
    rw [if_pos hth] at h
    cases hc : (pushedSip sip new).combine with
    | none =>
      rw [hc] at h
      simp at h
    | some r =>
      cases r with
      | ok sc =>
        rw [hc] at h
        simp at h
      | error e' =>
        rw [hc] at h
        simp only [Option.some.injEq, Prod.mk.injEq, Except.error.injEq] at h
        refine ⟨fun hna => absurd hok hna, fun _ => ⟨hth, ?_, ?_⟩⟩
        · rw [h.1]
        · exact h.2.symm.trans rfl

/-- Concrete fixtures for C4: two well-formed shares whose nonce string is
not base64, so that the eager combination fails after admission. -/
def cJ1 : JShare := ⟨Jv.num 1, Jv.str "", Jv.num 2, Jv.str "!!!", Jv.str "3AQ=="⟩

/-- Second C4 fixture share (id 2). -/
def cJ2 : JShare := ⟨Jv.num 1, Jv.str "", Jv.num 2, Jv.str "!!!", Jv.str "3Ag=="⟩

/-- Parsed form of `cJ1`. -/
def cShare1 : Share := ⟨Version.v1, "", 2, "!!!", 3, 1, []⟩

/-- Parsed form of `cJ2`. -/
def cShare2 : Share := ⟨Version.v1, "", 2, "!!!", 3, 2, []⟩

/-- The state left behind by the failing `try_add_share` of the C4 scenario:
the second share's id and content are already in the set. -/
def cSetBad : ShareSet :=
  ⟨Version.v1, "", 2, ShareSetState.setInProgress ⟨3, [1, 2], 0, [[], []], "!!!"⟩⟩

/-- **C4 counterexample.**  Both fixture shares parse via `Share::new`; the
second `try_add_share` returns an error (`NonceNotBase64`, raised inside the
combination step), yet the set is *not* unchanged: the collected ids grew
from `[1]` to `[1, 2]`. -/
theorem C4_counterexample :
    Share.new cJ1 = Except.ok cShare1 ∧ Share.new cJ2 = Except.ok cShare2 ∧
    (ShareSet.init cShare1).tryAddShare cShare2 =
      some (Except.error Error.NonceNotBase64, cSetBad) ∧
    cSetBad ≠ ShareSet.init cShare1 :=
  ⟨rfl, rfl, rfl, by decide⟩

/-- Witness for C4: the amended theorem applied to the concrete failing
call of the C4 scenario, in which every admission check passes and the
combination step raises `NonceNotBase64`. -/
theorem C4_failed_add_amended_witness :
    ∃ sip, (ShareSet.init cShare1).state = ShareSetState.setInProgress sip ∧
      (¬ admitOk (ShareSet.init cShare1) sip cShare2 →
        cSetBad = ShareSet.init cShare1 ∧
        (Error.NonceNotBase64 = Error.ShareVersionDifferent ∨
         Error.NonceNotBase64 = Error.ShareTitleDifferent ∨
         Error.NonceNotBase64 = Error.ShareRequiredShardsDifferent ∨
         Error.NonceNotBase64 = Error.ShareNonceDifferent ∨
         Error.NonceNotBase64 = Error.ShareBitsDifferent ∨
         Error.NonceNotBase64 = Error.ShareAlreadyInSet ∨
         Error.NonceNotBase64 = Error.ShareContentLengthDifferent)) ∧
      (admitOk (ShareSet.init cShare1) sip cShare2 →
        (ShareSet.init cShare1).requiredShards ≤ (pushedSip sip cShare2).idSet.length ∧
        (pushedSip sip cShare2).combine = some (Except.error Error.NonceNotBase64) ∧
        cSetBad = pushedSet (ShareSet.init cShare1) sip cShare2) :=
  C4_failed_add_amended (ShareSet.init cShare1) cShare2 Error.NonceNotBase64 cSetBad rfl

/-! ## C7: threshold and eager combination -/

/-- **C7** (corrected).  An `InProgress` set always reports
`MoreShares{have = collected count, need = K}`; whenever a `try_add_share`
call on an `InProgress` set *succeeds* and brings the collected count to at
least K, the set transitions to `Combined` and reports
`AskUserForPassword`; when the eager combination fails, `try_add_share`
returns its error and the set remains `InProgress`. -/
theorem C7_threshold_amended (s : ShareSet) :
    (∀ sip, s.state = ShareSetState.setInProgress sip →
      s.nextAction = NextAction.moreShares sip.idSet.length s.requiredShards) ∧
    (∀ sip new s', s.state = ShareSetState.setInProgress sip →
      s.tryAddShare new = some (Except.ok (), s') →
      s.requiredShards ≤ sip.idSet.length + 1 →
      s'.nextAction = NextAction.askUserForPassword ∧
      ∃ sc, s'.state = ShareSetState.setCombined sc) ∧
    (∀ sip new e s', s.state = ShareSetState.setInProgress sip →
      s.tryAddShare new = some (Except.error e, s') →
      ∃ sip', s'.state = ShareSetState.setInProgress sip') := by
  refine ⟨?_, ?_, ?_⟩
  · intro sip hsip
    simp [ShareSet.nextAction, hsip]
  · intro sip new s' hsip h hK
    simp only [ShareSet.tryAddShare, hsip] at h
    split at h
    · simp at h
    split at h
    · simp at h
    split at h
    · simp at h
    split at h
    · simp at h
    split at h
    · simp at h
    split at h
    · simp at h
    split at h
    · simp at h
    split at h
    · split at h
      · simp at h
      · simp at h
      · simp only [Option.some.injEq, Prod.mk.injEq, true_and] at h
        subst h
        exact ⟨rfl, _, rfl⟩
    · rename_i hlen
      exact absurd (by simpa using hK) (by simpa using hlen)
  · intro sip new e s' hsip h
    rcases failedAddCases s new e s' h with h1 | ⟨sip2, hsip2, h2⟩
    · refine ⟨sip, ?_⟩
      rw [h1]
      exact hsip
    · exact ⟨pushedSip sip2 new, by rw [h2]; rfl⟩

/-- Concrete fixtures for C7 (nonce `"???"` is not base64). -/
def dJ1 : JShare := ⟨Jv.num 1, Jv.str "", Jv.num 2, Jv.str "???", Jv.str "3AQ=="⟩

/-- Second C7 fixture share (id 2). -/
def dJ2 : JShare := ⟨Jv.num 1, Jv.str "", Jv.num 2, Jv.str "???", Jv.str "3Ag=="⟩

/-- Parsed form of `dJ1`. -/
def dShare1 : Share := ⟨Version.v1, "", 2, "???", 3, 1, []⟩

/-- Parsed form of `dJ2`. -/
def dShare2 : Share := ⟨Version.v1, "", 2, "???", 3, 2, []⟩

/-- State after the failing second `try_add_share` of the C7 scenario. -/
def dSetBad : ShareSet :=
  ⟨Version.v1, "", 2, ShareSetState.setInProgress ⟨3, [1, 2], 0, [[], []], "???"⟩⟩

/-- **C7 counterexample.**  A reachable set with K = 2 whose collected count
reaches 2, yet the set does not transition to `Combined` (the eager
combination fails on the malformed nonce): `next_action` still reports
`MoreShares`, refuting "as soon as the number of collected shares reaches K,
the set is combined and transitions to `Combined`". -/
theorem C7_counterexample :
    Share.new dJ1 = Except.ok dShare1 ∧ Share.new dJ2 = Except.ok dShare2 ∧
    (ShareSet.init dShare1).requiredShards = 2 ∧
    (ShareSet.init dShare1).tryAddShare dShare2 =
      some (Except.error Error.NonceNotBase64, dSetBad) ∧
    (∃ sip, dSetBad.state = ShareSetState.setInProgress sip ∧ sip.idSet.length = 2) ∧
    dSetBad.nextAction ≠ NextAction.askUserForPassword :=
  ⟨rfl, rfl, rfl, rfl, ⟨_, rfl, rfl⟩, by decide⟩

/-- Fixture pair for the C7 witness: a successful combination (empty nonce
string decodes to the empty byte string). -/
def wSh1 : Share := ⟨Version.v1, "t", 2, "", 3, 1, [1]⟩

/-- Second share of the C7 witness pair. -/
def wSh2 : Share := ⟨Version.v1, "t", 2, "", 3, 2, [1]⟩

/-! ## C8: range of parsed share ids -/

/-- An index returned by `List.indexOf?` is below the list's length. -/
theorem indexOf?_lt_length :
    ∀ (l : List Char) (c : Char) (v : Nat), l.indexOf? c = some v → v < l.length := by
  intro l
  induction l with
  | nil =>
    intro c v h
    simp [List.indexOf?_nil] at h
  | cons x xs ih =>
    intro c v h
    rw [List.indexOf?_cons] at h
    split at h
    · simp only [Option.some.injEq] at h
      subst h
      simp
    · simp only [Option.map_eq_some'] at h
      obtain ⟨w, hw, rfl⟩ := h
      have := ih c w hw
      simp only [List.length_cons]
      omega

/-- base64 alphabet indices are six-bit values. -/
theorem b64Index_lt (c : Char) (v : Nat) (h : b64Index c = some v) : v < 64 := by
  have h1 := indexOf?_lt_length b64Chars c v h
  have h2 : b64Chars.length = 64 := rfl
  omega

/-- Every byte produced by the base64 decoder fits in `u8`. -/
theorem b64DecodeChunks_bytes_lt : ∀ (cs : List Char) (bs : List Nat),
    b64DecodeChunks cs = some bs → ∀ b ∈ bs, b < 256 := by
  intro cs
  induction cs using b64DecodeChunks.induct
  case case1 =>
    intro bs h
    simp only [b64DecodeChunks, Option.some.injEq] at h
    subst h
    simp
  case case2 c1 c2 a b hb2 hb1 hmod =>
    intro bs h
    have ha' := b64Index_lt _ _ hb1
    have hb' := b64Index_lt _ _ hb2
    simp only [b64DecodeChunks, hb1, hb2, hmod, if_true, Option.some.injEq] at h
    subst h
    intro x hx
    simp only [List.mem_singleton] at hx
    omega
  case case5 c1 c2 c3 hne a b c hb3 hb2 hb1 hmod =>
    intro bs h
    have ha' := b64Index_lt _ _ hb1
    have hb' := b64Index_lt _ _ hb2
    have hc' := b64Index_lt _ _ hb3
    simp only [b64DecodeChunks, hb1, hb2, hb3, hmod, if_true, Option.some.injEq] at h
    subst h
    intro x hx
    simp only [List.mem_cons, List.mem_singleton, List.not_mem_nil, or_false] at hx
    rcases hx with rfl | rfl <;> omega
  case case8 c1 c2 c3 c4 rest hne1 hne2 a b c d tail hrest hb4 hb3 hb2 hb1 ih =>
    intro bs h
    have ha' := b64Index_lt _ _ hb1
    have hb' := b64Index_lt _ _ hb2
    have hc' := b64Index_lt _ _ hb3
    have hd' := b64Index_lt _ _ hb4
    simp only [b64DecodeChunks, hb1, hb2, hb3, hb4, hrest, Option.some.injEq] at h
    subst h
    intro x hx
    simp only [List.mem_cons] at hx
    rcases hx with rfl | rfl | rfl | hx
    · omega
    · omega
    · omega
    · exact ih tail hrest x hx
  all_goals (intro bs h; simp [b64DecodeChunks, *] at h)

/-- Hex digit values are below 16. -/
theorem hexVal_lt (c : Char) (v : Nat) (h : hexVal c = some v) : v < 16 := by
  simp only [hexVal] at h
  split at h
  · rename_i hc
    simp only [Option.some.injEq] at h
    omega
  split at h
  · rename_i hc
    simp only [Option.some.injEq] at h
    omega
  split at h
  · rename_i hc
    simp only [Option.some.injEq] at h
    omega
  · simp at h

/-- Every byte produced by the hex decoder fits in `u8`. -/
theorem hexDecodeChars_bytes_lt : ∀ (cs : List Char) (bs : List Nat),
    hexDecodeChars cs = some bs → ∀ b ∈ bs, b < 256 := by
  intro cs
  induction cs using hexDecodeChars.induct
  case case1 =>
    intro bs h
    simp only [hexDecodeChars, Option.some.injEq] at h
    subst h
    simp
  case case2 c1 c2 rest a b tail htail hb hc ih =>
    intro bs h
    have ha' := hexVal_lt _ _ hc
    have hb' := hexVal_lt _ _ hb
    simp only [hexDecodeChars, hb, hc, htail, Option.some.injEq] at h
    subst h
    intro x hx
    simp only [List.mem_cons] at hx
    rcases hx with rfl | hx
    · omega
    · exact ih tail htail x hx
  all_goals (intro bs h; simp [hexDecodeChars, *] at h)

/-- Length of the id piece cut from the front of a decoded share body
(`src/shares.rs` line 120): the number of non-zero-prefixed bytes of
`u32::to_be_bytes(2^bits - 1)`. -/
def idLen (bits : Nat) : Nat := ((beBytes4 (2 ^ bits - 1)).dropWhile (· = 0)).length

/-- `dropWhile` never lengthens a list. -/
theorem dropWhile_length_le (p : Nat → Bool) : ∀ (l : List Nat),
    (l.dropWhile p).length ≤ l.length := by
  intro l
  induction l with
  | nil => simp
  | cons x t ih =>
    rw [List.dropWhile_cons]
    split
    · simp only [List.length_cons]
      omega
    · simp

/-- The bytes skipped by `skip_while(|x| x == &&0)` form a zero prefix. -/
theorem take_dropWhile_zero : ∀ (l : List Nat),
    l.take (l.length - (l.dropWhile (· = 0)).length) =
      List.replicate (l.length - (l.dropWhile (· = 0)).length) 0 := by
  intro l
  induction l with
  | nil => simp
  | cons x t ih =>
    by_cases hx : x = 0
    · subst hx
      have hd : (0 :: t).dropWhile (· = 0) = t.dropWhile (· = 0) := by
        simp [List.dropWhile_cons]
      have hlen : (t.dropWhile (· = 0)).length ≤ t.length := dropWhile_length_le _ t
      rw [hd]
      have : (0 :: t).length - (t.dropWhile (· = 0)).length =
          (t.length - (t.dropWhile (· = 0)).length) + 1 := by
        simp only [List.length_cons]
        omega
      rw [this, List.take_succ_cons, List.replicate_succ, ih]
    · have hd : (x :: t).dropWhile (· = 0) = x :: t := by
        simp [List.dropWhile_cons, hx]
      rw [hd]
      simp

/-- Zero prefixes do not contribute to a big-endian value. -/
theorem beValue_replicate_append (k : Nat) (piece : List Nat) :
    beValue (List.replicate k 0 ++ piece) = beValue piece := by
  induction k with
  | zero => simp
  | succ m ih =>
    rw [List.replicate_succ, List.cons_append]
    simpa [beValue] using ih

/-- A big-endian value of `u8` digits is below `256 ^ length`. -/
theorem beValue_lt (l : List Nat) (h : ∀ b ∈ l, b < 256) :
    beValue l < 256 ^ l.length := by
  suffices H : ∀ a, List.foldl (fun a b => a * 256 + b) a l < (a + 1) * 256 ^ l.length by
    simpa [beValue] using H 0
  induction l with
  | nil => simp
  | cons x t ih =>
    intro a
    have hx : x < 256 := h x (List.mem_cons_self x t)
    have ht : ∀ b ∈ t, b < 256 := fun b hb => h b (List.mem_cons_of_mem x hb)
    have step := ih ht (a * 256 + x)
    calc List.foldl (fun a b => a * 256 + b) (a * 256 + x) t
        < (a * 256 + x + 1) * 256 ^ t.length := step
      _ ≤ (a + 1) * 256 * 256 ^ t.length := by
          have : a * 256 + x + 1 ≤ (a + 1) * 256 := by omega
          exact Nat.mul_le_mul_right _ this
      _ = (a + 1) * 256 ^ (x :: t).length := by
          rw [List.length_cons, pow_succ]
          ring

/-- The id value assembled by `Share::new` is below `2 ^ (8 * idLen)`. -/
theorem idOfBody_lt (b : Nat) (body : List Nat) (hbody : ∀ x ∈ body, x < 256)
    (hlen : idLen b ≤ body.length) :
    beValue ((beBytes4 (2 ^ b - 1)).take (4 - idLen b) ++ body.take (idLen b)) <
      2 ^ (8 * idLen b) := by
  have h4 : (beBytes4 (2 ^ b - 1)).length = 4 := rfl
  have hz := take_dropWhile_zero (beBytes4 (2 ^ b - 1))
  rw [h4] at hz
  have hz' : (beBytes4 (2 ^ b - 1)).take (4 - idLen b) =
      List.replicate (4 - idLen b) 0 := by
    simpa [idLen] using hz
  rw [hz', beValue_replicate_append]
  have hlt := beValue_lt (body.take (idLen b))
    (fun x hx => hbody x (List.mem_of_mem_take hx))
  rw [List.length_take, Nat.min_eq_left hlen] at hlt
  calc beValue (body.take (idLen b)) < 256 ^ idLen b := hlt
    _ = 2 ^ (8 * idLen b) := by
        rw [show (256 : Nat) = 2 ^ 8 from rfl, ← pow_mul]

/-- Bits range and id bound for any successful `shareNewBody`. -/
theorem shareNewBody_bits_id (ver : Version) (j : JShare) (sh : Share)
    (h : shareNewBody ver j = Except.ok sh) :
    3 ≤ sh.bits ∧ sh.bits ≤ 20 ∧ sh.id < 2 ^ (8 * idLen sh.bits) := by
  simp only [shareNewBody, bind, Except.bind, pure, Except.pure] at h
  split at h
  rotate_left
  · simp at h
  split at h
  rotate_left
  · simp at h
  split at h
  rotate_left
  · simp at h
  rename_i b hb0
  split at h
  rotate_left
  · simp at h
  rename_i hrange
  split at h
  · -- version undefined: hex body
    split at h
    rotate_left
    · simp at h
    rename_i body hdec
    split at h
    rotate_left
    · simp at h
    rename_i hlen
    simp only [Except.ok.injEq] at h
    subst h
    exact ⟨hrange.1, hrange.2,
      idOfBody_lt b body (hexDecodeChars_bytes_lt _ _ hdec) hlen⟩
  · -- version v1: base64 body
    split at h
    rotate_left
    · simp at h
    rename_i body hdec
    split at h
    rotate_left
    · simp at h
    rename_i hlen
    simp only [Except.ok.injEq] at h
    subst h
    exact ⟨hrange.1, hrange.2,
      idOfBody_lt b body (b64DecodeChunks_bytes_lt _ _ hdec) hlen⟩

/-- **C8** (corrected).  `Share::new` checks `bits ∈ [3, 20]` but performs no
range check on the id: the id is the big-endian value of the first
`id_length` bytes of the decoded body, so it lies in
`[0, 2^(8*id_length) - 1]`; the value 0 and values above `2^bits - 1` are
accepted. -/
theorem C8_id_range_amended (j : JShare) (sh : Share) (h : Share.new j = Except.ok sh) :
    3 ≤ sh.bits ∧ sh.bits ≤ 20 ∧ sh.id < 2 ^ (8 * idLen sh.bits) := by
  simp only [Share.new, bind, Except.bind, pure, Except.pure] at h
  split at h
  · split at h
    · exact shareNewBody_bits_id _ _ _ h
    · simp at h
  · exact shareNewBody_bits_id _ _ _ h
  · simp at h

/-- A well-formed share JSON whose body decodes to the single byte `0x00`:
`bits` is 3, the id piece is `[0]`. -/
def eJ : JShare := ⟨Jv.num 1, Jv.str "", Jv.num 2, Jv.str "", Jv.str "3AA=="⟩

/-- The parse result of `eJ`: its id is 0. -/
def eShare : Share := ⟨Version.v1, "", 2, "", 3, 0, []⟩

/-- **C8 counterexample.**  `Share::new` accepts a share whose id is 0, which
is outside `[1, 2^bits - 1]`: no range check on the id is performed. -/
theorem C8_counterexample :
    Share.new eJ = Except.ok eShare ∧ eShare.bits = 3 ∧ eShare.id = 0 ∧ ¬1 ≤ eShare.id :=
  ⟨rfl, rfl, rfl, by decide⟩

/-- Witness for C8: the amended theorem applied to the concrete share `eJ`. -/
theorem C8_id_range_amended_witness :
    3 ≤ eShare.bits ∧ eShare.bits ≤ 20 ∧ eShare.id < 2 ^ (8 * idLen eShare.bits) :=
  C8_id_range_amended eJ eShare rfl

/-- Witness for C7: the amended theorem applied to a concrete successful
`try_add_share` that reaches the threshold and combines. -/
theorem C7_threshold_amended_witness :
    (⟨Version.v1, "t", 2, ShareSetState.setCombined ⟨[], []⟩⟩ : ShareSet).nextAction =
      NextAction.askUserForPassword ∧
    ∃ sc, (⟨Version.v1, "t", 2, ShareSetState.setCombined ⟨[], []⟩⟩ : ShareSet).state =
      ShareSetState.setCombined sc :=
  (C7_threshold_amended (ShareSet.init wSh1)).2.1 ⟨3, [1], 1, [[1]], ""⟩ wSh2
    ⟨Version.v1, "t", 2, ShareSetState.setCombined ⟨[], []⟩⟩ rfl rfl (by decide)

end Banana
